import Mathlib

/-!
# A shallow embedding of the `memoset` memoization subsystem

This file embeds the core of `src/coroutine/memoset/mod.rs` (and the demo
query of `src/coroutine/memoset/demo.rs`) in Lean 4 and proves properties
of the embedded functions.

Modelling conventions:

* The host `Store` is content addressed, so a heap pointer is modelled by
  the inductive `Ptr` of the Lurk data actually built by this module
  (nil, symbols, field-tagged numbers, conses).  Structural equality of
  `Ptr` corresponds to pointer equality in the store, and `hash_ptr` is
  modelled at the pointer level by the identity (a `ZPtr` is in bijection
  with its `Ptr`), while the *field component* of a hashed pointer is
  modelled by the executable stand-in `Ptr.hashVal`.  No theorem below
  depends on the concrete values `Ptr.hashVal` takes on conses or symbols,
  only on it being a function of content; on numbers it returns the number
  itself, as the store does.
* Rust panics (`expect`, `unwrap`, `assert!`, failed `OnceCell::set`) and
  `SynthesisError` returns are both modelled by `Option`, with `none` for
  the aborted computation.
* `once_cell::OnceCell` fields are modelled by `Option` fields that the
  embedded code only ever sets when they are `none`.
-/

/-- Lurk heap data as built by the memoset module: nil, interned symbols,
numbers carrying a field element, and conses.  `F` is the scalar field. -/
inductive Ptr (F : Type) where
  | nil : Ptr F
  | sym (path : List String) : Ptr F
  | num (x : F) : Ptr F
  | cons (car cdr : Ptr F) : Ptr F
deriving DecidableEq, Repr

/-- The field component of `store.hash_ptr`: an executable stand-in for the
content hash.  A number hashes to its own field element (as in the store);
the values on other constructors are arbitrary but fixed. -/
def Ptr.hashVal [Field F] : Ptr F → F
  | .nil => 0
  | .sym _ => 1
  | .num x => x
  | .cons a b => 2 + 3 * a.hashVal + 5 * b.hashVal

/-- `MultiSet<Ptr>`.  Modelled from the spec: `multiset.rs` is not among the
provided sources; per §4.A it maps a record pointer to a positive
multiplicity, `add` increments the count (creating it if absent) and `get`
returns the count or zero.  A list of added elements realizes exactly this
observable behaviour, with `get` as occurrence count. -/
def MultiSet (F : Type) := List (Ptr F)

/-- `MultiSet::new()`. -/
def MultiSet.new (F : Type) : MultiSet F := []

/-- `MultiSet::add`: increment the multiplicity of `x`. -/
def MultiSet.add [DecidableEq F] (m : MultiSet F) (x : Ptr F) : MultiSet F :=
  x :: m

/-- `MultiSet::get`: the multiplicity of `x`, or zero. -/
def MultiSet.get [DecidableEq F] (m : MultiSet F) (x : Ptr F) : Nat :=
  List.count x m

/-- `Transcript<F>`: a content-addressed Lurk list accumulated in `acc`. -/
structure Transcript (F : Type) where
  acc : Ptr F
deriving DecidableEq, Repr

/-- `Transcript::new`: the store's nil. -/
def Transcript.new (F : Type) : Transcript F := ⟨Ptr.nil⟩

/-- `Transcript::add`: prepend `item` by consing it onto the accumulator. -/
def Transcript.add [Field F] (t : Transcript F) (item : Ptr F) : Transcript F :=
  ⟨Ptr.cons item t.acc⟩

/-- `Transcript::make_kv`: `(key . value)`. -/
def Transcript.make_kv (key value : Ptr F) : Ptr F := Ptr.cons key value

/-- `Transcript::make_kv_count`: `(kv . count)` with the count as a numeric
pointer obtained from `F::from_u64`. -/
def Transcript.make_kv_count [Field F] (kv : Ptr F) (count : Nat) : Ptr F :=
  Ptr.cons kv (Ptr.num (count : F))

/-- `Transcript::r`: hash the accumulator, assert that it is a `Cons`, and
return the hash's field component.  The failed assertion is `none`. -/
def Transcript.r [Field F] (t : Transcript F) : Option F :=
  match t.acc with
  | .cons _ _ => some t.acc.hashVal
  | _ => none

/-- `LogMemo<F>`: the LogUp-style memo set.  The `OnceCell` fields `r` and
`transcript` are modelled by `Option`s set at most once.  (The circuit-side
`allocated_r` cell carries no further native state: it caches the wire
allocated from `r`.) -/
structure LogMemo (F : Type) where
  multiset : MultiSet F
  r : Option F
  transcript : Option (Transcript F)

/-- `LogMemo::default`. -/
def LogMemo.default (F : Type) : LogMemo F :=
  { multiset := MultiSet.new F, r := none, transcript := none }

/-- `LogMemo::count`: multiplicity lookup in the multiset. -/
def LogMemo.count [DecidableEq F] (m : LogMemo F) (form : Ptr F) : Nat :=
  m.multiset.get form

/-- `LogMemo::add`: add `kv` to the multiset. -/
def LogMemo.add [DecidableEq F] (m : LogMemo F) (kv : Ptr F) : LogMemo F :=
  { m with multiset := m.multiset.add kv }

/-- `LogMemo::is_finalized`: whether the transcript cell has been set. -/
def LogMemo.is_finalized (m : LogMemo F) : Bool :=
  m.transcript.isSome

/-- `LogMemo::finalize_transcript`: compute `r = transcript.r(store)` (an
assertion failure is a panic), then set the once-settable `r` and
`transcript` cells; setting either a second time panics. -/
def LogMemo.finalize_transcript [Field F] (m : LogMemo F) (t : Transcript F) :
    Option (LogMemo F) := do
  let r ← t.r
  match m.r with
  | some _ => none
  | none =>
    match m.transcript with
    | some _ => none
    | none => some { m with r := some r, transcript := some t }

/-- Field inversion as the `CtOption` returned by `invert`: defined exactly
on nonzero elements. -/
def invertF [Field F] [DecidableEq F] (x : F) : Option F :=
  if x = 0 then none else some x⁻¹

/-- `LogMemo::map_to_element`: `(r + x)⁻¹` when `r` is set and the sum is
invertible. -/
def LogMemo.map_to_element [Field F] [DecidableEq F] (m : LogMemo F) (x : F) :
    Option F :=
  m.r.bind fun r => invertF (r + x)

/-! ## Concrete field used for witnesses -/

theorem prime1009 : Nat.Prime 1009 := by norm_num

instance : Fact (Nat.Prime 1009) := ⟨prime1009⟩

/-- The concrete scalar field used to evaluate the model on closed inputs
(standing in for the BN256 scalar field of the tests). -/
abbrev Fw : Type := ZMod 1009

/-! ## C6: `map_to_element` -/

/-- C6: if `LogMemo` has been finalized with randomness `r` and `r + x ≠ 0`,
then `map_to_element x` returns the multiplicative inverse of `r + x`; and it
returns no value when `r + x = 0`. -/
theorem map_to_element_spec [Field F] [DecidableEq F]
    (m : LogMemo F) (r x : F) (h : m.r = some r) :
    (r + x ≠ 0 → m.map_to_element x = some (r + x)⁻¹) ∧
      (r + x = 0 → m.map_to_element x = none) := by
  constructor
  · intro hne
    simp [LogMemo.map_to_element, h, invertF, hne]
  · intro hz
    simp [LogMemo.map_to_element, h, invertF, hz]

/-- Witness for C6 at a concrete finalized `LogMemo` over `ZMod 1009`. -/
theorem map_to_element_spec_witness :
    ({ multiset := MultiSet.new Fw, r := some 3,
       transcript := none : LogMemo Fw }.map_to_element 4 = some (3 + 4)⁻¹) ∧
      ({ multiset := MultiSet.new Fw, r := some 3,
         transcript := none : LogMemo Fw }.map_to_element 1006 = none) := by
  have h := map_to_element_spec
    ({ multiset := MultiSet.new Fw, r := some 3, transcript := none }) 3 4 rfl
  have h' := map_to_element_spec
    ({ multiset := MultiSet.new Fw, r := some 3, transcript := none }) 3 1006 rfl
  exact ⟨h.1 (by decide), h'.2 (by decide)⟩

/-! ## C4: `LogMemo::finalize_transcript` -/

/-- C4: on a fresh `LogMemo`, `finalize_transcript` sets `r` to
`transcript.r(store)` and stores the transcript; invoking it a second time
on the result panics, whatever transcript is passed. -/
theorem logmemo_finalize_once [Field F] [DecidableEq F]
    (m : LogMemo F) (t : Transcript F) (rv : F)
    (hr : m.r = none) (ht : m.transcript = none) (hrv : t.r = some rv) :
    ∃ m', m.finalize_transcript t = some m' ∧ m'.r = some rv ∧
      m'.transcript = some t ∧ m'.multiset = m.multiset ∧
      ∀ t₂ : Transcript F, m'.finalize_transcript t₂ = none := by
  refine ⟨{ m with r := some rv, transcript := some t }, ?_, rfl, rfl, rfl, ?_⟩
  · simp [LogMemo.finalize_transcript, hrv, hr, ht]
  · intro t₂
    cases h : t₂.r with
    | none => simp [LogMemo.finalize_transcript, h]
    | some s => simp [LogMemo.finalize_transcript, h]

/-- Witness for C4: a fresh `LogMemo` over `ZMod 1009` finalized with the
one-element transcript `((nil . nil))`. -/
theorem logmemo_finalize_once_witness :
    ∃ m', (LogMemo.default Fw).finalize_transcript
        ⟨Ptr.cons (Ptr.cons Ptr.nil Ptr.nil) Ptr.nil⟩ = some m' ∧
      m'.r = some (Ptr.cons (Ptr.cons Ptr.nil Ptr.nil) Ptr.nil).hashVal ∧
      m'.transcript = some ⟨Ptr.cons (Ptr.cons Ptr.nil Ptr.nil) Ptr.nil⟩ ∧
      m'.multiset = (LogMemo.default Fw).multiset ∧
      ∀ t₂ : Transcript Fw, m'.finalize_transcript t₂ = none := by
  exact logmemo_finalize_once (LogMemo.default Fw)
    ⟨Ptr.cons (Ptr.cons Ptr.nil Ptr.nil) Ptr.nil⟩
    (Ptr.cons (Ptr.cons Ptr.nil Ptr.nil) Ptr.nil).hashVal rfl rfl rfl

/-! ## Association-list helpers (modelling the scope's `HashMap`s) -/

/-- `HashMap::get`. -/
def lookupA [DecidableEq α] : List (α × β) → α → Option β
  | [], _ => none
  | (a, b) :: rest, k => if a = k then some b else lookupA rest k

/-- `HashMap::insert` (overwriting). -/
def insertA [DecidableEq α] : List (α × β) → α → β → List (α × β)
  | [], k, v => [(k, v)]
  | (a, b) :: rest, k, v =>
    if a = k then (a, v) :: rest else (a, b) :: insertA rest k v

/-- `entry(k).and_modify(f).or_insert(dflt)`. -/
def updA [DecidableEq α] : List (α × β) → α → (β → β) → β → List (α × β)
  | [], k, _, dflt => [(k, dflt)]
  | (a, b) :: rest, k, f, dflt =>
    if a = k then (a, f b) :: rest else (a, b) :: updA rest k f dflt

/-! ## The `Query` trait and native evaluation -/

/-- A query evaluation, as the tree of recursive subqueries it performs.
Modelled from the spec: `query.rs` (the `Query` trait's `recursive_eval`)
is not among the provided sources; per §4.D a query's `eval` is pure with
respect to the store except that it may call back into the scope through
`recursive_eval`, which per §4.E runs `Scope::query_recursively` on the
(parent, child) pair and hands the child's value to the rest of the
evaluation.  An evaluation is therefore a tree: either a result pointer, or
a recursive call on a child query with a continuation on the child's value. -/
inductive EvalProg (F Q : Type) where
  | pure (v : Ptr F) : EvalProg F Q
  | recurse (child : Q) (k : Ptr F → EvalProg F Q) : EvalProg F Q

/-- The `Query` trait surface consumed by the scope: heap encoding and
decoding, family index and family count, native evaluation, and (for the
circuit model) the value computed by the family's dummy instance. -/
structure QueryIface (F Q : Type) where
  toPtr : Q → Ptr F
  fromPtr : Ptr F → Option Q
  index : Q → Nat
  count : Nat
  eval : Q → EvalProg F Q
  dummyVal : Nat → Ptr F

/-- `Scope<Q, LogMemo<F>>`: the evaluation-time bookkeeper. -/
structure Scope (F Q : Type) where
  memoset : LogMemo F
  queries : List (Ptr F × Ptr F)
  dependencies : List (Ptr F × List Q)
  toplevel_insertions : List (Ptr F)
  internal_insertions : List (Ptr F)
  unique_inserted_keys : List (Nat × List (Ptr F))
  transcribe_internal_insertions : Bool
  default_rc : Nat

/-- `DEFAULT_RC_FOR_QUERY`. -/
def DEFAULT_RC_FOR_QUERY : Nat := 1

/-- `DEFAULT_TRANSCRIBE_INTERNAL_INSERTIONS`. -/
def DEFAULT_TRANSCRIBE_INTERNAL_INSERTIONS : Bool := false

/-- `Scope::new`. -/
def Scope.new (F Q : Type) (transcribe_internal_insertions : Bool)
    (default_rc : Nat) : Scope F Q :=
  { memoset := LogMemo.default F
    queries := []
    dependencies := []
    toplevel_insertions := []
    internal_insertions := []
    unique_inserted_keys := []
    transcribe_internal_insertions := transcribe_internal_insertions
    default_rc := default_rc }

/-- Run an evaluation tree against the scope, performing each recursive
subquery through `qr` (the ambient `query_recursively`). -/
def runProg (qr : Q → Scope F Q → Option (Ptr F × Scope F Q)) :
    Scope F Q → EvalProg F Q → Option (Ptr F × Scope F Q)
  | sc, .pure v => some (v, sc)
  | sc, .recurse child k =>
    match qr child sc with
    | none => none
    | some (v, sc') => runProg qr sc' (k v)

/-- `Scope::query_recursively`, parametrized by the `query_aux` used for the
child (the fuel-indexed interpreter ties the knot below): push the child's
key onto `internal_insertions`, evaluate it, and register it under the
parent's dependency list, preserving call order with duplicates. -/
def Scope.query_recursively_g (I : QueryIface F Q) [DecidableEq F]
    (qa : Scope F Q → Ptr F → Option (Ptr F × Ptr F × Scope F Q))
    (parent child : Q) (sc : Scope F Q) : Option (Ptr F × Scope F Q) := do
  let form := I.toPtr child
  let sc₁ := { sc with internal_insertions := sc.internal_insertions ++ [form] }
  let (response, _, sc₂) ← qa sc₁ form
  some (response,
    { sc₂ with
      dependencies :=
        updA sc₂.dependencies (I.toPtr parent) (fun ch => ch ++ [child]) [child] })

/-- `Scope::query_aux`: look the form up in the memo table; on a miss decode
it (`expect("invalid query")` panics on `none`), evaluate it (recursive
subqueries go through `query_recursively` with one less unit of fuel — the
fuel models the Rust call stack, and exhausting it models a stack overflow),
and memoize the result; in both cases build the `kv` record and add it to
the memo set. -/
def Scope.query_aux [Field F] [DecidableEq F] (I : QueryIface F Q) :
    Nat → Scope F Q → Ptr F → Option (Ptr F × Ptr F × Scope F Q)
  | 0, _, _ => none
  | fuel + 1, sc, form =>
    match lookupA sc.queries form with
    | some response =>
      let kv := Transcript.make_kv form response
      some (response, kv, { sc with memoset := sc.memoset.add kv })
    | none =>
      match I.fromPtr form with
      | none => none
      | some query =>
        match runProg (fun child sc' =>
            Scope.query_recursively_g I (Scope.query_aux I fuel) query child sc')
            sc (I.eval query) with
        | none => none
        | some (evaluated, sc₁) =>
          let sc₂ := { sc₁ with queries := insertA sc₁.queries form evaluated }
          let kv := Transcript.make_kv form evaluated
          some (evaluated, kv, { sc₂ with memoset := sc₂.memoset.add kv })

/-- `Scope::query_recursively` at a given recursion fuel. -/
def Scope.query_recursively [Field F] [DecidableEq F] (I : QueryIface F Q)
    (fuel : Nat) (parent child : Q) (sc : Scope F Q) :
    Option (Ptr F × Scope F Q) :=
  Scope.query_recursively_g I (Scope.query_aux I fuel) parent child sc

/-- `Scope::query`: evaluate the form and push its `kv` record onto
`toplevel_insertions`. -/
def Scope.query [Field F] [DecidableEq F] (I : QueryIface F Q) (fuel : Nat)
    (sc : Scope F Q) (form : Ptr F) : Option (Ptr F × Scope F Q) := do
  let (response, kv_ptr, sc') ← Scope.query_aux I fuel sc form
  some (response,
    { sc' with toplevel_insertions := sc'.toplevel_insertions ++ [kv_ptr] })

/-! ## The demo factorial query (`demo.rs`) -/

/-- The demo query family: `Factorial(n)`. -/
inductive DemoQuery (F : Type) where
  | factorial (n : Ptr F) : DemoQuery F
deriving DecidableEq, Repr

/-- `Symbol::sym(&["lurk", "user", "factorial"])`. -/
def factorialSymbol : List String := ["lurk", "user", "factorial"]

/-- `DemoQuery::symbol`. -/
def DemoQuery.symbol : DemoQuery F → List String
  | .factorial _ => factorialSymbol

/-- `DemoQuery::to_ptr`: `(factorial . n)`. -/
def DemoQuery.toPtr [Field F] : DemoQuery F → Ptr F
  | .factorial n => Ptr.cons (Ptr.sym factorialSymbol) n

/-- `DemoQuery::from_ptr`: split the cons (panic if not a cons), fetch the
head symbol (panic if not a symbol), and match it against `factorial`.
The panics and the non-matching symbol are all `none` here; every caller in
`mod.rs` immediately `expect`s the result, so they are indistinguishable. -/
def DemoQuery.fromPtr [Field F] [DecidableEq F] : Ptr F → Option (DemoQuery F)
  | .cons (.sym s) body =>
    if s = factorialSymbol then some (.factorial body) else none
  | _ => none

/-- `DemoQuery::eval` for `Factorial(n)`: read the field value of `n`; on
zero return `num 1`, otherwise recursively evaluate `Factorial(n - 1)` and
return `num (n * m)` where `m` is the field value of the subquery result. -/
def DemoQuery.eval [Field F] [DecidableEq F] :
    DemoQuery F → EvalProg F (DemoQuery F)
  | .factorial n =>
    if n.hashVal = 0 then .pure (Ptr.num 1)
    else
      .recurse (.factorial (Ptr.num (n.hashVal - 1)))
        (fun m => .pure (Ptr.num (n.hashVal * m.hashVal)))

/-- `DemoQuery::index`. -/
def DemoQuery.index : DemoQuery F → Nat
  | .factorial _ => 0

/-- `DemoQuery::dummy_from_index`: `Factorial(0)` for family 0. -/
def DemoQuery.dummy_from_index [Field F] : Nat → Option (DemoQuery F)
  | 0 => some (.factorial (Ptr.num 0))
  | _ => none

/-- The `QueryIface` of the demo family; `count()` is 1 and the dummy's
circuit evaluation computes the factorial of zero, `num 1`. -/
def demoIface (F : Type) [Field F] [DecidableEq F] :
    QueryIface F (DemoQuery F) :=
  { toPtr := DemoQuery.toPtr
    fromPtr := DemoQuery.fromPtr
    index := DemoQuery.index
    count := 1
    eval := DemoQuery.eval
    dummyVal := fun _ => Ptr.num 1 }

/-- The heap form `(factorial . k)`. -/
def factForm [Field F] (k : F) : Ptr F :=
  Ptr.cons (Ptr.sym factorialSymbol) (Ptr.num k)

/-- C8: on a fresh scope, `Scope::query` on `(factorial . 4)` returns the
numeric pointer 24, and afterwards the scope has 5 memoized queries, one
top-level insertion, and four internal insertions. -/
theorem demo_factorial_4 :
    (Scope.query (demoIface Fw) 10 (Scope.new Fw (DemoQuery Fw) false 1)
        (factForm 4)).map
        (fun p => (p.1, p.2.queries.length, p.2.toplevel_insertions.length,
          p.2.internal_insertions.length))
      = some (Ptr.num 24, 5, 1, 4) := by decide

/-! ## `Scope::build_transcript` and finalization -/

/-- `Option`-valued `mapM` with definitional equations used throughout. -/
def mapMO (f : α → Option β) : List α → Option (List β)
  | [] => some []
  | a :: as =>
    match f a with
    | none => none
    | some b =>
      match mapMO f as with
      | none => none
      | some bs => some (b :: bs)

/-- `Option`-valued `foldlM` with definitional equations used throughout. -/
def foldlMO (f : σ → α → Option σ) : σ → List α → Option σ
  | s, [] => some s
  | s, a :: as =>
    match f s a with
    | none => none
    | some s' => foldlMO f s' as

/-- The bucketing state built by `build_transcript`'s `insert` closure:
`insertions` maps a key to the `IndexSet` of its kv records, `unique_keys`
maps a family index to its keys in first-use order. -/
structure BuildState (F : Type) where
  insertions : List (Ptr F × List (Ptr F))
  unique_keys : List (Nat × List (Ptr F))

/-- `IndexSet::insert`: append if absent. -/
def insertIS [DecidableEq α] (l : List α) (x : α) : List α :=
  if x ∈ l then l else l ++ [x]

/-- The `insert` closure of `build_transcript`: the key is the `car` of the
kv (`unwrap` panics if the kv is not a cons); a known key only extends its
bucket, a new key is decoded (`expect("bad query")`) and recorded under its
family index. -/
def insertKV [Field F] [DecidableEq F] (I : QueryIface F Q)
    (st : BuildState F) (kv : Ptr F) : Option (BuildState F) :=
  match kv with
  | .cons key _ =>
    match lookupA st.insertions key with
    | some kvs =>
      some { st with insertions := insertA st.insertions key (insertIS kvs kv) }
    | none =>
      match I.fromPtr key with
      | none => none
      | some q =>
        some { insertions := insertA st.insertions key [kv]
               unique_keys :=
                 updA st.unique_keys (I.index q) (fun ks => ks ++ [key]) [key] }
  | _ => none

/-- The `internal_insertions_kv` iterator: each internally inserted key with
its memoized value (`expect("value missing for key")`). -/
def internalKVs [Field F] [DecidableEq F] (sc : Scope F Q) :
    Option (List (Ptr F)) :=
  mapMO (fun key =>
    (lookupA sc.queries key).map fun value => Transcript.make_kv key value)
    sc.internal_insertions

/-- The dependency-insertion loop of `build_transcript` for one key: each
dependency's kv is rebuilt (`expect("value missing for dependency key")`)
and added to the transcript exactly when `transcribe_internal_insertions`
is set. -/
def addDeps [Field F] [DecidableEq F] (I : QueryIface F Q) (sc : Scope F Q)
    (t : Transcript F) (key : Ptr F) : Option (Transcript F) :=
  match lookupA sc.dependencies key with
  | none => some t
  | some deps =>
    foldlMO (fun t dep =>
      match lookupA sc.queries (I.toPtr dep) with
      | none => none
      | some v =>
        some (if sc.transcribe_internal_insertions
          then t.add (Transcript.make_kv (I.toPtr dep) v) else t)) t deps

/-- `Scope::build_transcript`: bucket all insertions (top-level first, then
internal) by key, recording each family's unique keys in discovery order;
emit every top-level kv to the transcript; then for each family index in
`0..Q::count()` (`expect("unreachable")` panics when that family has no
key), for each unique key in order and each bucketed kv, emit the
dependency insertions followed by the removal record carrying the memo-set
multiplicity of the kv. -/
def Scope.build_transcript [Field F] [DecidableEq F] (I : QueryIface F Q)
    (sc : Scope F Q) : Option (Transcript F × List (Nat × List (Ptr F))) := do
  let ikvs ← internalKVs sc
  let st ← foldlMO (insertKV I) ⟨[], []⟩ (sc.toplevel_insertions ++ ikvs)
  let t₀ := sc.toplevel_insertions.foldl Transcript.add (Transcript.new F)
  let t ← foldlMO (fun t index => do
      let keys ← lookupA st.unique_keys index
      foldlMO (fun t key => do
        let kvs ← lookupA st.insertions key
        foldlMO (fun t kv => do
          let t ← addDeps I sc t key
          pure (t.add (Transcript.make_kv_count kv (sc.memoset.count kv))))
          t kvs)
        t keys)
    t₀ (List.range I.count)
  pure (t, st.unique_keys)

/-- `Scope::finalize_transcript`: build the transcript, finalize the memo
set with it (either step may panic), and store the unique inserted keys. -/
def Scope.finalize_transcript [Field F] [DecidableEq F] (I : QueryIface F Q)
    (sc : Scope F Q) : Option (Transcript F × Scope F Q) := do
  let (transcript, insertions) ← Scope.build_transcript I sc
  let ms ← sc.memoset.finalize_transcript transcript
  pure (transcript,
    { sc with memoset := ms, unique_inserted_keys := insertions })

/-- `Scope::ensure_transcript_finalized`: finalize only when the memo set
has not been finalized yet. -/
def Scope.ensure_transcript_finalized [Field F] [DecidableEq F]
    (I : QueryIface F Q) (sc : Scope F Q) : Option (Scope F Q) :=
  if sc.memoset.is_finalized then some sc
  else (Scope.finalize_transcript I sc).map Prod.snd

/-! ## The tagged emission sequence of `build_transcript` -/

/-- A transcript record, tagged by whether it was emitted as an insertion
or as a removal with multiplicity. -/
inductive TEvent (F : Type) where
  | ins (kv : Ptr F) : TEvent F
  | rem (kv : Ptr F) (count : Nat) : TEvent F
deriving DecidableEq, Repr

/-- The heap record an event denotes. -/
def TEvent.toPtr [Field F] : TEvent F → Ptr F
  | .ins kv => kv
  | .rem kv count => Transcript.make_kv_count kv count

/-- Fold an emission sequence onto a transcript accumulator: each record is
prepended, so emission order is reversed in the resulting Lurk list. -/
def consEvents [Field F] (es : List (TEvent F)) (p : Ptr F) : Ptr F :=
  es.foldl (fun acc e => Ptr.cons e.toPtr acc) p

/-- The dependency-insertion records emitted for one key, in recorded order
(empty when `transcribe_internal_insertions` is unset; the value lookups
panic as in `addDeps`). -/
def depEvents [Field F] [DecidableEq F] (I : QueryIface F Q) (sc : Scope F Q)
    (key : Ptr F) : Option (List (TEvent F)) :=
  match lookupA sc.dependencies key with
  | none => some []
  | some deps =>
    (mapMO (fun dep =>
      match lookupA sc.queries (I.toPtr dep) with
      | none => none
      | some v =>
        some (if sc.transcribe_internal_insertions
          then [TEvent.ins (Transcript.make_kv (I.toPtr dep) v)]
          else ([] : List (TEvent F)))) deps).map List.flatten

/-- The tagged emission sequence of `build_transcript`, in emission order:
the top-level insertions, then per family and per unique key the dependency
insertions followed by the removal record. -/
def Scope.transcriptEvents [Field F] [DecidableEq F] (I : QueryIface F Q)
    (sc : Scope F Q) :
    Option (List (TEvent F) × List (Nat × List (Ptr F))) := do
  let ikvs ← internalKVs sc
  let st ← foldlMO (insertKV I) ⟨[], []⟩ (sc.toplevel_insertions ++ ikvs)
  let blocks ← mapMO (fun index => do
      let keys ← lookupA st.unique_keys index
      (mapMO (fun key => do
        let kvs ← lookupA st.insertions key
        (mapMO (fun kv => do
          let deps ← depEvents I sc key
          pure (deps ++ [TEvent.rem kv (sc.memoset.count kv)])) kvs).map
          List.flatten) keys).map List.flatten)
    (List.range I.count)
  pure (sc.toplevel_insertions.map TEvent.ins ++ blocks.flatten,
    st.unique_keys)

/-! ## Correspondence: the transcript is the folded emission sequence -/

theorem bind_someO (a : α) (f : α → Option β) : (some a >>= f) = f a := rfl

theorem bind_noneO (f : α → Option β) : ((none : Option α) >>= f) = none := rfl

theorem consEvents_append [Field F] (es es' : List (TEvent F)) (p : Ptr F) :
    consEvents (es ++ es') p = consEvents es' (consEvents es p) := by
  simp [consEvents, List.foldl_append]

theorem consEvents_cons [Field F] (e : TEvent F) (es : List (TEvent F))
    (p : Ptr F) : consEvents (e :: es) p = consEvents es (Ptr.cons e.toPtr p) :=
  rfl

theorem foldl_add_eq_consEvents [Field F] (l : List (Ptr F)) (t : Transcript F) :
    l.foldl Transcript.add t = ⟨consEvents (l.map TEvent.ins) t.acc⟩ := by
  induction l generalizing t with
  | nil => simp [consEvents]
  | cons p l ih =>
    rw [List.foldl_cons, ih]
    rfl

/-- Bridging lemma: a transcript-threading fold whose step prepends the
records computed by `body` equals the `mapMO`-and-flatten form folded onto
the starting accumulator. -/
theorem foldlMO_blocks [Field F] {α : Type}
    (body : α → Option (List (TEvent F)))
    (tbody : Transcript F → α → Option (Transcript F))
    (hbody : ∀ (t : Transcript F) (a : α),
      tbody t a = (body a).map fun es => (⟨consEvents es t.acc⟩ : Transcript F)) :
    ∀ (l : List α) (t : Transcript F),
      foldlMO tbody t l =
        ((mapMO body l).map fun bs =>
          (⟨consEvents bs.flatten t.acc⟩ : Transcript F)) := by
  intro l
  induction l with
  | nil => intro t; simp [foldlMO, mapMO, consEvents]
  | cons a as ih =>
    intro t
    simp only [foldlMO, mapMO]
    rw [hbody]
    cases hb : body a with
    | none => rfl
    | some es =>
      show foldlMO tbody (⟨consEvents es t.acc⟩ : Transcript F) as = _
      rw [ih]
      cases hm : mapMO body as with
      | none => rfl
      | some bs =>
        show some _ = some _
        simp [consEvents_append]

theorem addDeps_eq_depEvents [Field F] [DecidableEq F] (I : QueryIface F Q)
    (sc : Scope F Q) (t : Transcript F) (key : Ptr F) :
    addDeps I sc t key =
      (depEvents I sc key).map fun es =>
        (⟨consEvents es t.acc⟩ : Transcript F) := by
  unfold addDeps depEvents
  cases lookupA sc.dependencies key with
  | none => rfl
  | some deps =>
    show foldlMO _ t deps = Option.map _ ((mapMO _ deps).map List.flatten)
    rw [foldlMO_blocks (fun dep =>
        match lookupA sc.queries (I.toPtr dep) with
        | none => none
        | some v =>
          some (if sc.transcribe_internal_insertions
            then [TEvent.ins (Transcript.make_kv (I.toPtr dep) v)]
            else ([] : List (TEvent F))))
      (fun t dep =>
        match lookupA sc.queries (I.toPtr dep) with
        | none => none
        | some v =>
          some (if sc.transcribe_internal_insertions
            then t.add (Transcript.make_kv (I.toPtr dep) v) else t))
      (fun t dep => by
        show (match lookupA sc.queries (I.toPtr dep) with
            | none => none
            | some v =>
              some (if sc.transcribe_internal_insertions
                then t.add (Transcript.make_kv (I.toPtr dep) v) else t)) =
          Option.map (fun es => (⟨consEvents es t.acc⟩ : Transcript F))
            (match lookupA sc.queries (I.toPtr dep) with
            | none => none
            | some v =>
              some (if sc.transcribe_internal_insertions
                then [TEvent.ins (Transcript.make_kv (I.toPtr dep) v)]
                else ([] : List (TEvent F))))
        cases lookupA sc.queries (I.toPtr dep) with
        | none => rfl
        | some v =>
          by_cases hti : sc.transcribe_internal_insertions <;>
            simp [hti, consEvents, Transcript.add, TEvent.toPtr])
      deps t, Option.map_map]
    rfl

theorem kvLevel_eq [Field F] [DecidableEq F] (I : QueryIface F Q)
    (sc : Scope F Q) (key : Ptr F) (kvs : List (Ptr F)) (t : Transcript F) :
    foldlMO (fun t kv => do
        let t ← addDeps I sc t key
        pure (t.add (Transcript.make_kv_count kv (sc.memoset.count kv))))
      t kvs =
    ((mapMO (fun kv => do
        let deps ← depEvents I sc key
        pure (deps ++ [TEvent.rem kv (sc.memoset.count kv)])) kvs).map
      fun bs => (⟨consEvents bs.flatten t.acc⟩ : Transcript F)) := by
  refine foldlMO_blocks _ _ (fun t kv => ?_) kvs t
  show (do
      let t' ← addDeps I sc t key
      pure (t'.add (Transcript.make_kv_count kv (sc.memoset.count kv)))) =
    Option.map _ (do
      let deps ← depEvents I sc key
      pure (deps ++ [TEvent.rem kv (sc.memoset.count kv)]))
  rw [addDeps_eq_depEvents]
  cases h : depEvents I sc key with
  | none => rfl
  | some ds =>
    simp [bind_someO, consEvents_append, consEvents, Transcript.add,
      TEvent.toPtr]

theorem keyLevel_eq [Field F] [DecidableEq F] (I : QueryIface F Q)
    (sc : Scope F Q) (st : BuildState F) (keys : List (Ptr F))
    (t : Transcript F) :
    foldlMO (fun t key => do
        let kvs ← lookupA st.insertions key
        foldlMO (fun t kv => do
          let t ← addDeps I sc t key
          pure (t.add (Transcript.make_kv_count kv (sc.memoset.count kv))))
          t kvs)
      t keys =
    ((mapMO (fun key => do
        let kvs ← lookupA st.insertions key
        (mapMO (fun kv => do
          let deps ← depEvents I sc key
          pure (deps ++ [TEvent.rem kv (sc.memoset.count kv)])) kvs).map
          List.flatten) keys).map
      fun bs => (⟨consEvents bs.flatten t.acc⟩ : Transcript F)) := by
  refine foldlMO_blocks _ _ (fun t key => ?_) keys t
  cases h : lookupA st.insertions key with
  | none => rfl
  | some kvs =>
    show foldlMO _ t kvs = Option.map _ ((mapMO _ kvs).map List.flatten)
    rw [kvLevel_eq, Option.map_map]
    rfl

theorem indexLevel_eq [Field F] [DecidableEq F] (I : QueryIface F Q)
    (sc : Scope F Q) (st : BuildState F) (l : List Nat) (t : Transcript F) :
    foldlMO (fun t index => do
        let keys ← lookupA st.unique_keys index
        foldlMO (fun t key => do
          let kvs ← lookupA st.insertions key
          foldlMO (fun t kv => do
            let t ← addDeps I sc t key
            pure (t.add (Transcript.make_kv_count kv (sc.memoset.count kv))))
            t kvs)
          t keys)
      t l =
    ((mapMO (fun index => do
        let keys ← lookupA st.unique_keys index
        (mapMO (fun key => do
          let kvs ← lookupA st.insertions key
          (mapMO (fun kv => do
            let deps ← depEvents I sc key
            pure (deps ++ [TEvent.rem kv (sc.memoset.count kv)])) kvs).map
            List.flatten) keys).map List.flatten) l).map
      fun bs => (⟨consEvents bs.flatten t.acc⟩ : Transcript F)) := by
  refine foldlMO_blocks _ _ (fun t index => ?_) l t
  cases h : lookupA st.unique_keys index with
  | none => rfl
  | some keys =>
    show foldlMO _ t keys = Option.map _ ((mapMO _ keys).map List.flatten)
    rw [keyLevel_eq, Option.map_map]
    rfl

/-- The transcript built by `Scope::build_transcript` is exactly the fold of
the tagged emission sequence onto nil (so emission order is reversed in the
Lurk list), with the same `unique_keys` map. -/
theorem build_transcript_eq_events [Field F] [DecidableEq F]
    (I : QueryIface F Q) (sc : Scope F Q) :
    Scope.build_transcript I sc =
      (Scope.transcriptEvents I sc).map fun p =>
        ((⟨consEvents p.1 Ptr.nil⟩ : Transcript F), p.2) := by
  unfold Scope.build_transcript Scope.transcriptEvents
  cases internalKVs sc with
  | none => rfl
  | some ikvs =>
    show (foldlMO (insertKV I) ⟨[], []⟩ _ >>= _) =
      Option.map _ (foldlMO (insertKV I) ⟨[], []⟩ _ >>= _)
    cases foldlMO (insertKV I) ⟨[], []⟩ (sc.toplevel_insertions ++ ikvs) with
    | none => rfl
    | some st =>
      show (foldlMO _ (sc.toplevel_insertions.foldl Transcript.add
          (Transcript.new F)) (List.range I.count) >>= _) =
        Option.map _ (mapMO _ (List.range I.count) >>= _)
      rw [indexLevel_eq, foldl_add_eq_consEvents]
      cases mapMO (fun index => do
          let keys ← lookupA st.unique_keys index
          (mapMO (fun key => do
            let kvs ← lookupA st.insertions key
            (mapMO (fun kv => do
              let deps ← depEvents I sc key
              pure (deps ++ [TEvent.rem kv (sc.memoset.count kv)])) kvs).map
              List.flatten) keys).map List.flatten) (List.range I.count) with
      | none => rfl
      | some blocks =>
        show some _ = some _
        simp [Transcript.new, consEvents_append]

/-! ## Characterizing the insertion-bucketing fold -/

theorem lookupA_insertA_self [DecidableEq α] (l : List (α × β)) (k : α) (v : β) :
    lookupA (insertA l k v) k = some v := by
  induction l with
  | nil => simp [insertA, lookupA]
  | cons p rest ih =>
    by_cases h : p.1 = k
    · simp [insertA, h, lookupA]
    · simp [insertA, h, lookupA, ih]

theorem lookupA_insertA_ne [DecidableEq α] (l : List (α × β)) (k k' : α) (v : β)
    (h : k ≠ k') : lookupA (insertA l k v) k' = lookupA l k' := by
  induction l with
  | nil => simp [insertA, lookupA, h]
  | cons p rest ih =>
    by_cases hp : p.1 = k
    · simp [insertA, hp, lookupA, h, ih]
    · simp only [insertA, if_neg hp, lookupA]
      by_cases hp' : p.1 = k'
      · simp [hp']
      · simp [hp', ih]

theorem lookupA_updA_self [DecidableEq α] (l : List (α × β)) (k : α)
    (f : β → β) (d : β) :
    lookupA (updA l k f d) k =
      some (match lookupA l k with | some b => f b | none => d) := by
  induction l with
  | nil => simp [updA, lookupA]
  | cons p rest ih =>
    by_cases h : p.1 = k
    · simp [updA, h, lookupA]
    · simp [updA, h, lookupA, ih]

theorem lookupA_updA_ne [DecidableEq α] (l : List (α × β)) (k k' : α)
    (f : β → β) (d : β) (h : k ≠ k') :
    lookupA (updA l k f d) k' = lookupA l k' := by
  induction l with
  | nil => simp [updA, lookupA, h]
  | cons p rest ih =>
    by_cases hp : p.1 = k
    · simp [updA, hp, lookupA, h, ih]
    · simp only [updA, if_neg hp, lookupA]
      by_cases hp' : p.1 = k'
      · simp [hp']
      · simp [hp', ih]

theorem lookupA_isSome_iff_mem [DecidableEq α] (l : List (α × β)) (k : α) :
    (lookupA l k).isSome ↔ k ∈ l.map Prod.fst := by
  induction l with
  | nil => simp [lookupA]
  | cons p rest ih =>
    by_cases h : p.1 = k
    · simp [lookupA, h]
    · simp [lookupA, h, ih, Ne.symm h]

theorem insertA_map_fst_mem [DecidableEq α] (l : List (α × β)) (k : α) (v : β) :
    ∀ x, x ∈ (insertA l k v).map Prod.fst ↔ x ∈ l.map Prod.fst ∨ x = k := by
  intro x
  induction l with
  | nil => simp [insertA]
  | cons p rest ih =>
    obtain ⟨a, b⟩ := p
    by_cases h : a = k
    · subst h
      simp only [insertA, if_true, eq_self_iff_true, List.map_cons,
        List.mem_cons]
      tauto
    · simp only [insertA, if_neg h, List.map_cons, List.mem_cons, ih]
      tauto

/-- The `car` of a kv record, when it is a cons. -/
def kvCar? : Ptr F → Option (Ptr F)
  | .cons k _ => some k
  | _ => none

/-- The family index of a key, through `from_ptr` and `index`. -/
def keyIdx? [Field F] (I : QueryIface F Q) (k : Ptr F) : Option Nat :=
  (I.fromPtr k).map I.index

/-- The bucket of key `k` accumulated over kv list `L` starting from `b`:
fold of `IndexSet::insert` over the records whose car is `k`. -/
def bucketFold [Field F] [DecidableEq F] (k : Ptr F) (b : List (Ptr F))
    (L : List (Ptr F)) : List (Ptr F) :=
  L.foldl (fun b kv => if kvCar? kv = some k then insertIS b kv else b) b

/-- The keys of `L` not in `seen`, in order of first occurrence. -/
def newFirstKeys [Field F] [DecidableEq F] (seen : List (Ptr F)) :
    List (Ptr F) → List (Ptr F)
  | [] => []
  | kv :: L =>
    match kvCar? kv with
    | none => newFirstKeys seen L
    | some k =>
      if k ∈ seen then newFirstKeys seen L
      else k :: newFirstKeys (k :: seen) L

/-- `some` of a list unless it is empty. -/
def someIfNonempty : List α → Option (List α)
  | [] => none
  | ks => some ks


theorem newFirstKeys_congr [Field F] [DecidableEq F] :
    ∀ (L : List (Ptr F)) (s₁ s₂ : List (Ptr F)),
      (∀ x, x ∈ s₁ ↔ x ∈ s₂) → newFirstKeys s₁ L = newFirstKeys s₂ L := by
  intro L
  induction L with
  | nil => intro s₁ s₂ hmem; rfl
  | cons kv L ih =>
    intro s₁ s₂ hmem
    cases kv with
    | cons k w =>
      show (match kvCar? (Ptr.cons k w) with
        | none => newFirstKeys s₁ L
        | some k =>
          if k ∈ s₁ then newFirstKeys s₁ L
          else k :: newFirstKeys (k :: s₁) L) = _
      show (if k ∈ s₁ then newFirstKeys s₁ L
          else k :: newFirstKeys (k :: s₁) L) =
        (if k ∈ s₂ then newFirstKeys s₂ L
          else k :: newFirstKeys (k :: s₂) L)
      by_cases hk : k ∈ s₁
      · rw [if_pos hk, if_pos ((hmem k).mp hk)]
        exact ih s₁ s₂ hmem
      · rw [if_neg hk, if_neg (fun c => hk ((hmem k).mpr c))]
        refine congrArg (k :: ·) (ih _ _ ?_)
        intro x
        simp [hmem x]
    | nil => exact ih s₁ s₂ hmem
    | sym s => exact ih s₁ s₂ hmem
    | num x => exact ih s₁ s₂ hmem

theorem newFirstKeys_mem_iff [Field F] [DecidableEq F] :
    ∀ (L : List (Ptr F)) (seen : List (Ptr F)) (k : Ptr F),
      k ∈ newFirstKeys seen L ↔ k ∉ seen ∧ k ∈ L.filterMap kvCar? := by
  intro L
  induction L with
  | nil => intro seen k; simp [newFirstKeys]
  | cons kv L ih =>
    intro seen k
    cases kv with
    | cons k₀ w =>
      show k ∈ (if k₀ ∈ seen then newFirstKeys seen L
          else k₀ :: newFirstKeys (k₀ :: seen) L) ↔ _
      have hfm : (Ptr.cons k₀ w :: L).filterMap kvCar? =
          k₀ :: L.filterMap kvCar? := by
        simp [List.filterMap_cons, kvCar?]
      rw [hfm]
      by_cases hk : k₀ ∈ seen
      · rw [if_pos hk, ih]
        simp only [List.mem_cons]
        constructor
        · rintro ⟨h1, h2⟩; exact ⟨h1, Or.inr h2⟩
        · rintro ⟨h1, h2 | h2⟩
          · exact absurd (h2 ▸ hk) h1
          · exact ⟨h1, h2⟩
      · rw [if_neg hk]
        simp only [List.mem_cons, ih]
        constructor
        · rintro (rfl | ⟨h1, h2⟩)
          · exact ⟨hk, Or.inl rfl⟩
          · exact ⟨fun c => h1 (Or.inr c), Or.inr h2⟩
        · rintro ⟨h1, rfl | h2⟩
          · exact Or.inl rfl
          · by_cases hkk : k = k₀
            · exact Or.inl hkk
            · exact Or.inr ⟨by simp [hkk, h1], h2⟩
    | nil =>
      show k ∈ newFirstKeys seen L ↔ _
      rw [ih]
      simp [List.filterMap_cons, kvCar?]
    | sym s =>
      show k ∈ newFirstKeys seen L ↔ _
      rw [ih]
      simp [List.filterMap_cons, kvCar?]
    | num x =>
      show k ∈ newFirstKeys seen L ↔ _
      rw [ih]
      simp [List.filterMap_cons, kvCar?]

theorem newFirstKeys_nodup [Field F] [DecidableEq F] :
    ∀ (L : List (Ptr F)) (seen : List (Ptr F)),
      (newFirstKeys seen L).Nodup := by
  intro L
  induction L with
  | nil => intro seen; simp [newFirstKeys]
  | cons kv L ih =>
    intro seen
    cases kv with
    | cons k₀ w =>
      show ((if k₀ ∈ seen then newFirstKeys seen L
          else k₀ :: newFirstKeys (k₀ :: seen) L)).Nodup
      by_cases hk : k₀ ∈ seen
      · rw [if_pos hk]; exact ih seen
      · rw [if_neg hk]
        refine List.nodup_cons.mpr ⟨?_, ih _⟩
        intro hmem
        exact ((newFirstKeys_mem_iff L (k₀ :: seen) k₀).mp hmem).1
          (List.mem_cons_self _ _)
    | nil => exact ih seen
    | sym s => exact ih seen
    | num x => exact ih seen

theorem insert_fold_all_cons [Field F] [DecidableEq F] (I : QueryIface F Q) :
    ∀ (L : List (Ptr F)) (st st' : BuildState F),
      foldlMO (insertKV I) st L = some st' →
      ∀ kv ∈ L, ∃ k v, kv = Ptr.cons k v := by
  intro L
  induction L with
  | nil => intro st st' _ kv hkv; simp at hkv
  | cons kv₀ L ih =>
    intro st st' h kv hkv
    rw [foldlMO] at h
    cases hstep : insertKV I st kv₀ with
    | none => rw [hstep] at h; cases h
    | some st₁ =>
      rw [hstep] at h
      rcases List.mem_cons.mp hkv with rfl | hkv'
      · cases kv with
        | cons k v => exact ⟨k, v, rfl⟩
        | nil => simp [insertKV] at hstep
        | sym s => simp [insertKV] at hstep
        | num x => simp [insertKV] at hstep
      · exact ih st₁ st' h kv hkv'

theorem filterMap_kvCar_cons (k w : Ptr F) (L : List (Ptr F)) :
    (Ptr.cons k w :: L).filterMap kvCar? = k :: L.filterMap kvCar? := by
  simp [List.filterMap_cons, kvCar?]

theorem bucketFold_cons_skip [Field F] [DecidableEq F] (k : Ptr F)
    (b : List (Ptr F)) (kv : Ptr F) (L : List (Ptr F))
    (h : kvCar? kv ≠ some k) :
    bucketFold k b (kv :: L) = bucketFold k b L := by
  simp [bucketFold, h]

theorem bucketFold_cons_hit [Field F] [DecidableEq F] (k : Ptr F)
    (b : List (Ptr F)) (w : Ptr F) (L : List (Ptr F)) :
    bucketFold k b (Ptr.cons k w :: L) =
      bucketFold k (insertIS b (Ptr.cons k w)) L := by
  simp [bucketFold, kvCar?]

theorem insert_fold_insertions [Field F] [DecidableEq F] (I : QueryIface F Q) :
    ∀ (L : List (Ptr F)) (st st' : BuildState F),
      foldlMO (insertKV I) st L = some st' →
      ∀ k, lookupA st'.insertions k =
        match lookupA st.insertions k with
        | some b => some (bucketFold k b L)
        | none =>
          if k ∈ L.filterMap kvCar? then some (bucketFold k [] L) else none := by
  intro L
  induction L with
  | nil =>
    intro st st' h k
    rw [foldlMO] at h
    cases h
    cases lookupA st.insertions k <;> simp [bucketFold]
  | cons kv₀ L ih =>
    intro st st' h k
    rw [foldlMO] at h
    cases hstep : insertKV I st kv₀ with
    | none => rw [hstep] at h; cases h
    | some st₁ =>
      rw [hstep] at h
      have ihc := ih st₁ st' h k
      obtain ⟨key, w, rfl⟩ : ∃ key w, kv₀ = Ptr.cons key w := by
        cases kv₀ with
        | cons a b => exact ⟨a, b, rfl⟩
        | nil => simp [insertKV] at hstep
        | sym s => simp [insertKV] at hstep
        | num x => simp [insertKV] at hstep
      rw [insertKV] at hstep
      cases hlk : lookupA st.insertions key with
      | some kvs =>
        rw [hlk] at hstep
        cases hstep
        by_cases hk : key = k
        · subst hk
          rw [ihc, lookupA_insertA_self, hlk]
          show some (bucketFold key (insertIS kvs (Ptr.cons key w)) L) =
            some (bucketFold key kvs (Ptr.cons key w :: L))
          rw [bucketFold_cons_hit]
        · rw [ihc, lookupA_insertA_ne _ _ _ _ hk]
          have hcar : kvCar? (Ptr.cons key w) ≠ some k := by
            simp [kvCar?, hk]
          cases lookupA st.insertions k with
          | some b =>
            show some (bucketFold k b L) =
              some (bucketFold k b (Ptr.cons key w :: L))
            rw [bucketFold_cons_skip _ _ _ _ hcar]
          | none =>
            show (if k ∈ L.filterMap kvCar? then some (bucketFold k [] L)
                else none) =
              (if k ∈ (Ptr.cons key w :: L).filterMap kvCar?
                then some (bucketFold k [] (Ptr.cons key w :: L)) else none)
            rw [filterMap_kvCar_cons, bucketFold_cons_skip _ _ _ _ hcar]
            by_cases hmem : k ∈ L.filterMap kvCar?
            · rw [if_pos hmem, if_pos (List.mem_cons_of_mem _ hmem)]
            · rw [if_neg hmem, if_neg (by
                intro hc
                rcases List.mem_cons.mp hc with rfl | hc'
                · exact hk rfl
                · exact hmem hc')]
      | none =>
        rw [hlk] at hstep
        cases hq : I.fromPtr key with
        | none => rw [hq] at hstep; cases hstep
        | some q =>
          rw [hq] at hstep
          cases hstep
          by_cases hk : key = k
          · subst hk
            rw [ihc, lookupA_insertA_self, hlk]
            have hin : key ∈ (Ptr.cons key w :: L).filterMap kvCar? := by
              rw [filterMap_kvCar_cons]
              exact List.mem_cons_self _ _
            show some (bucketFold key [Ptr.cons key w] L) =
              (if key ∈ (Ptr.cons key w :: L).filterMap kvCar?
                then some (bucketFold key [] (Ptr.cons key w :: L)) else none)
            rw [if_pos hin, bucketFold_cons_hit]
            have hempty : insertIS ([] : List (Ptr F)) (Ptr.cons key w) =
                [Ptr.cons key w] := by simp [insertIS]
            rw [hempty]
          · rw [ihc, lookupA_insertA_ne _ _ _ _ hk]
            have hcar : kvCar? (Ptr.cons key w) ≠ some k := by
              simp [kvCar?, hk]
            cases lookupA st.insertions k with
            | some b =>
              show some (bucketFold k b L) =
                some (bucketFold k b (Ptr.cons key w :: L))
              rw [bucketFold_cons_skip _ _ _ _ hcar]
            | none =>
              show (if k ∈ L.filterMap kvCar? then some (bucketFold k [] L)
                  else none) =
                (if k ∈ (Ptr.cons key w :: L).filterMap kvCar?
                  then some (bucketFold k [] (Ptr.cons key w :: L)) else none)
              rw [filterMap_kvCar_cons, bucketFold_cons_skip _ _ _ _ hcar]
              by_cases hmem : k ∈ L.filterMap kvCar?
              · rw [if_pos hmem, if_pos (List.mem_cons_of_mem _ hmem)]
              · rw [if_neg hmem, if_neg (by
                  intro hc
                  rcases List.mem_cons.mp hc with rfl | hc'
                  · exact hk rfl
                  · exact hmem hc')]

theorem newFirstKeys_cons_seen [Field F] [DecidableEq F] (seen : List (Ptr F))
    (k w : Ptr F) (L : List (Ptr F)) (h : k ∈ seen) :
    newFirstKeys seen (Ptr.cons k w :: L) = newFirstKeys seen L := by
  show (if k ∈ seen then newFirstKeys seen L
    else k :: newFirstKeys (k :: seen) L) = _
  rw [if_pos h]

theorem newFirstKeys_cons_new [Field F] [DecidableEq F] (seen : List (Ptr F))
    (k w : Ptr F) (L : List (Ptr F)) (h : k ∉ seen) :
    newFirstKeys seen (Ptr.cons k w :: L) =
      k :: newFirstKeys (k :: seen) L := by
  show (if k ∈ seen then newFirstKeys seen L
    else k :: newFirstKeys (k :: seen) L) = _
  rw [if_neg h]

theorem someIfNonempty_cons (a : α) (l : List α) :
    someIfNonempty (a :: l) = some (a :: l) := rfl

theorem insert_fold_unique_keys [Field F] [DecidableEq F] (I : QueryIface F Q) :
    ∀ (L : List (Ptr F)) (st st' : BuildState F),
      foldlMO (insertKV I) st L = some st' →
      ∀ i, lookupA st'.unique_keys i =
        match lookupA st.unique_keys i with
        | some ks =>
          some (ks ++ (newFirstKeys (st.insertions.map Prod.fst) L).filter
            (fun k => decide (keyIdx? I k = some i)))
        | none =>
          someIfNonempty ((newFirstKeys (st.insertions.map Prod.fst) L).filter
            (fun k => decide (keyIdx? I k = some i))) := by
  intro L
  induction L with
  | nil =>
    intro st st' h i
    rw [foldlMO] at h
    cases h
    cases lookupA st.unique_keys i <;> simp [newFirstKeys, someIfNonempty]
  | cons kv₀ L ih =>
    intro st st' h i
    rw [foldlMO] at h
    cases hstep : insertKV I st kv₀ with
    | none => rw [hstep] at h; cases h
    | some st₁ =>
      rw [hstep] at h
      have ihc := ih st₁ st' h i
      obtain ⟨key, w, rfl⟩ : ∃ key w, kv₀ = Ptr.cons key w := by
        cases kv₀ with
        | cons a b => exact ⟨a, b, rfl⟩
        | nil => simp [insertKV] at hstep
        | sym s => simp [insertKV] at hstep
        | num x => simp [insertKV] at hstep
      rw [insertKV] at hstep
      cases hlk : lookupA st.insertions key with
      | some kvs =>
        rw [hlk] at hstep
        cases hstep
        have hseen : key ∈ st.insertions.map Prod.fst :=
          (lookupA_isSome_iff_mem _ _).mp (by rw [hlk]; rfl)
        have hcongr : newFirstKeys
            ((insertA st.insertions key (insertIS kvs (Ptr.cons key w))).map
              Prod.fst) L = newFirstKeys (st.insertions.map Prod.fst) L := by
          refine newFirstKeys_congr L _ _ (fun x => ?_)
          rw [insertA_map_fst_mem]
          constructor
          · rintro (hx | rfl)
            · exact hx
            · exact hseen
          · exact Or.inl
        rw [ihc, hcongr, newFirstKeys_cons_seen _ _ _ _ hseen]
      | none =>
        rw [hlk] at hstep
        cases hq : I.fromPtr key with
        | none => rw [hq] at hstep; cases hstep
        | some q =>
          rw [hq] at hstep
          cases hstep
          have hnseen : key ∉ st.insertions.map Prod.fst := by
            intro hmem
            have := (lookupA_isSome_iff_mem st.insertions key).mpr hmem
            rw [hlk] at this
            cases this
          have hcongr : newFirstKeys
              ((insertA st.insertions key [Ptr.cons key w]).map Prod.fst) L =
              newFirstKeys (key :: st.insertions.map Prod.fst) L := by
            refine newFirstKeys_congr L _ _ (fun x => ?_)
            rw [insertA_map_fst_mem]
            simp [or_comm]
          rw [ihc, hcongr, newFirstKeys_cons_new _ _ _ _ hnseen,
            List.filter_cons]
          have hproj : lookupA (BuildState.mk
              (insertA st.insertions key [Ptr.cons key w])
              (updA st.unique_keys (I.index q)
                (fun ks => ks ++ [key]) [key])).unique_keys i =
            lookupA (updA st.unique_keys (I.index q)
              (fun ks => ks ++ [key]) [key]) i := rfl
          rw [hproj]
          by_cases hidx : I.index q = i
          · subst hidx
            have hp : decide (keyIdx? I key = some (I.index q)) = true := by
              simp [keyIdx?, hq]
            rw [hp, lookupA_updA_self]
            cases lookupA st.unique_keys (I.index q) with
            | some ks => simp
            | none => simp [someIfNonempty_cons]
          · have hp : decide (keyIdx? I key = some i) = false := by
              simp [keyIdx?, hq, hidx]
            rw [hp, lookupA_updA_ne _ _ _ _ _ hidx]
            simp only [Bool.false_eq_true, if_false]

/-! ## C10: every family index must have at least one inserted key -/

theorem foldlMO_guard_fail {σ α β : Type} (u : α → Option β)
    (g : σ → α → β → Option σ) :
    ∀ (l : List α) (t : σ) (a : α), a ∈ l → u a = none →
      foldlMO (fun t a => (u a).bind (g t a)) t l = none := by
  intro l
  induction l with
  | nil => intro t a ha; simp at ha
  | cons b bs ih =>
    intro t a ha hu
    rw [foldlMO]
    rcases List.mem_cons.mp ha with rfl | ha'
    · rw [hu]
      rfl
    · cases hub : (u b).bind (g t b) with
      | none => rfl
      | some t' => exact ih t' a ha' hu

theorem foldlMO_guard_some {σ α β : Type} (u : α → Option β)
    (g : σ → α → β → Option σ) :
    ∀ (l : List α) (t t' : σ),
      foldlMO (fun t a => (u a).bind (g t a)) t l = some t' →
      ∀ a ∈ l, (u a).isSome := by
  intro l
  induction l with
  | nil => intro t t' _ a ha; simp at ha
  | cons b bs ih =>
    intro t t' h a ha
    rw [foldlMO] at h
    cases hub : (u b).bind (g t b) with
    | none => rw [hub] at h; cases h
    | some t₁ =>
      rw [hub] at h
      rcases List.mem_cons.mp ha with rfl | ha'
      · cases hu : u a with
        | none => rw [hu] at hub; cases hub
        | some vb => rfl
      · exact ih t₁ t' h a ha'

theorem filter_eq_nil_of {p : α → Bool} :
    ∀ l : List α, (∀ a ∈ l, p a = false) → l.filter p = [] := by
  intro l h
  induction l with
  | nil => rfl
  | cons a as ih =>
    rw [List.filter_cons, h a (List.mem_cons_self _ _)]
    exact ih fun a ha => h a (List.mem_cons_of_mem _ ha)

/-- C10: `build_transcript` hits the `expect("unreachable")` panic when a
family index below `Q::count()` has no inserted key, however far the
bucketing phase got; and conversely a successful build certifies that every
family index below `Q::count()` has an entry in the returned unique-key
map. -/
theorem build_transcript_family_coverage [Field F] [DecidableEq F]
    (I : QueryIface F Q) (sc : Scope F Q) :
    (∀ (ikvs : List (Ptr F)) (st : BuildState F) (i : Nat),
      internalKVs sc = some ikvs →
      foldlMO (insertKV I) ⟨[], []⟩ (sc.toplevel_insertions ++ ikvs) =
        some st →
      i < I.count →
      (∀ kv ∈ sc.toplevel_insertions ++ ikvs, ∀ k,
        kvCar? kv = some k → keyIdx? I k ≠ some i) →
      Scope.build_transcript I sc = none) ∧
    (∀ (t : Transcript F) (u : List (Nat × List (Ptr F))) (i : Nat),
      Scope.build_transcript I sc = some (t, u) →
      i < I.count → (lookupA u i).isSome) := by
  constructor
  · intro ikvs st i hik hst hi hnone
    have hlk : lookupA st.unique_keys i = none := by
      rw [insert_fold_unique_keys I _ _ _ hst i]
      show someIfNonempty ((newFirstKeys
          (([] : List (Ptr F × List (Ptr F))).map Prod.fst)
          (sc.toplevel_insertions ++ ikvs)).filter
          (fun k => decide (keyIdx? I k = some i))) = none
      rw [filter_eq_nil_of]
      · rfl
      · intro k hk
        have hmem := (newFirstKeys_mem_iff _ _ _).mp hk
        obtain ⟨kv, hkv, hcar⟩ := List.mem_filterMap.mp hmem.2
        simp only [decide_eq_false_iff_not]
        exact hnone kv hkv k hcar
    have hfail : foldlMO (fun t index => do
        let keys ← lookupA st.unique_keys index
        foldlMO (fun t key => do
          let kvs ← lookupA st.insertions key
          foldlMO (fun t kv => do
            let t ← addDeps I sc t key
            pure (t.add (Transcript.make_kv_count kv (sc.memoset.count kv))))
            t kvs)
          t keys)
        (sc.toplevel_insertions.foldl Transcript.add (Transcript.new F))
        (List.range I.count) = none :=
      foldlMO_guard_fail (fun index => lookupA st.unique_keys index)
        (fun t index keys => foldlMO (fun t key => do
          let kvs ← lookupA st.insertions key
          foldlMO (fun t kv => do
            let t ← addDeps I sc t key
            pure (t.add (Transcript.make_kv_count kv (sc.memoset.count kv))))
            t kvs)
          t keys)
        (List.range I.count) _ i (List.mem_range.mpr hi) hlk
    unfold Scope.build_transcript
    rw [hik, bind_someO, hst, bind_someO]
    show (foldlMO _ _ _ >>= _) = none
    rw [hfail]
    rfl
  · intro t u i hb hi
    unfold Scope.build_transcript at hb
    cases hik : internalKVs sc with
    | none => rw [hik] at hb; cases hb
    | some ikvs =>
      rw [hik, bind_someO] at hb
      cases hst : foldlMO (insertKV I) ⟨[], []⟩
          (sc.toplevel_insertions ++ ikvs) with
      | none => rw [hst] at hb; cases hb
      | some st =>
        rw [hst, bind_someO] at hb
        have hb' : (foldlMO (fun t index => do
            let keys ← lookupA st.unique_keys index
            foldlMO (fun t key => do
              let kvs ← lookupA st.insertions key
              foldlMO (fun t kv => do
                let t ← addDeps I sc t key
                pure (t.add
                  (Transcript.make_kv_count kv (sc.memoset.count kv))))
                t kvs)
              t keys)
            (sc.toplevel_insertions.foldl Transcript.add (Transcript.new F))
            (List.range I.count) >>=
            fun tf => pure (tf, st.unique_keys)) = some (t, u) := hb
        cases hrem : foldlMO (fun t index => do
            let keys ← lookupA st.unique_keys index
            foldlMO (fun t key => do
              let kvs ← lookupA st.insertions key
              foldlMO (fun t kv => do
                let t ← addDeps I sc t key
                pure (t.add
                  (Transcript.make_kv_count kv (sc.memoset.count kv))))
                t kvs)
              t keys)
            (sc.toplevel_insertions.foldl Transcript.add (Transcript.new F))
            (List.range I.count) with
        | none => rw [hrem] at hb'; cases hb'
        | some tf =>
          rw [hrem, bind_someO] at hb'
          injection hb' with hpair
          cases hpair
          exact foldlMO_guard_some (fun index => lookupA st.unique_keys index)
            (fun t index keys => foldlMO (fun t key => do
              let kvs ← lookupA st.insertions key
              foldlMO (fun t kv => do
                let t ← addDeps I sc t key
                pure (t.add
                  (Transcript.make_kv_count kv (sc.memoset.count kv))))
                t kvs)
              t keys)
            (List.range I.count) _ _ hrem i (List.mem_range.mpr hi)

/-- A two-family toy query type exercising family-indexed behaviour:
family 0 is `(f . n) ↦ num 1`, family 1 is `(g . n) ↦ num 2`; neither
recurses. -/
inductive PairQuery (F : Type) where
  | fq (n : Ptr F) : PairQuery F
  | gq (n : Ptr F) : PairQuery F
deriving DecidableEq, Repr

/-- Heap encoding of a `PairQuery`. -/
def PairQuery.toPtr [Field F] : PairQuery F → Ptr F
  | .fq n => Ptr.cons (Ptr.sym ["f"]) n
  | .gq n => Ptr.cons (Ptr.sym ["g"]) n

/-- Heap decoding of a `PairQuery`. -/
def PairQuery.fromPtr [Field F] [DecidableEq F] : Ptr F → Option (PairQuery F)
  | .cons (.sym s) body =>
    if s = ["f"] then some (.fq body)
    else if s = ["g"] then some (.gq body) else none
  | _ => none

/-- The `QueryIface` of the two-family toy type. -/
def pairIface (F : Type) [Field F] [DecidableEq F] :
    QueryIface F (PairQuery F) :=
  { toPtr := PairQuery.toPtr
    fromPtr := PairQuery.fromPtr
    index := fun q => match q with | .fq _ => 0 | .gq _ => 1
    count := 2
    eval := fun q => match q with
      | .fq _ => EvalProg.pure (Ptr.num 1)
      | .gq _ => EvalProg.pure (Ptr.num 2)
    dummyVal := fun i => if i = 0 then Ptr.num 1 else Ptr.num 2 }

/-- `(f . 0)`. -/
def pairKeyF : Ptr Fw := Ptr.cons (Ptr.sym ["f"]) (Ptr.num 0)

/-- `((f . 0) . 1)`. -/
def pairKVF : Ptr Fw := Ptr.cons pairKeyF (Ptr.num 1)

/-- The scope reached from a fresh two-family scope by the single top-level
query `(f . 0)`; family 1 never gets a key. -/
def pairScope1 : Scope Fw (PairQuery Fw) :=
  { memoset := { multiset := [pairKVF], r := none, transcript := none }
    queries := [(pairKeyF, Ptr.num 1)]
    dependencies := []
    toplevel_insertions := [pairKVF]
    internal_insertions := []
    unique_inserted_keys := []
    transcribe_internal_insertions := true
    default_rc := 1 }

theorem pairScope1_reachable :
    Scope.query (pairIface Fw) 5 (Scope.new Fw (PairQuery Fw) true 1)
      (Ptr.cons (Ptr.sym ["f"]) (Ptr.num 0)) =
      some (Ptr.num 1, pairScope1) := rfl

/-- Witness for C10: on the two-family scope where only family 0 was ever
queried, `build_transcript` panics. -/
theorem build_transcript_family_coverage_witness :
    Scope.build_transcript (pairIface Fw) pairScope1 = none :=
  (build_transcript_family_coverage (pairIface Fw) pairScope1).1
    [] ⟨[(pairKeyF, [pairKVF])], [(0, [pairKeyF])]⟩ 1
    rfl rfl (by decide)
    (by
      intro kv hkv k hcar
      have hkv' : kv = pairKVF := by
        simpa [pairScope1] using hkv
      subst hkv'
      have hk : k = pairKeyF := by
        have : some pairKeyF = some k := by
          simpa [pairKVF, kvCar?] using hcar
        exact (Option.some.inj this).symm
      subst hk
      decide)

/-! ## C3: repeated finalization -/

/-- C3 (amended): on a scope whose memo set is already finalized, repeated
finalization through `ensure_transcript_finalized` is a no-op: the scope is
returned unchanged, so the stored transcript and `r` are identical. -/
theorem ensure_finalized_noop [Field F] [DecidableEq F] (I : QueryIface F Q)
    (sc : Scope F Q) (h : sc.memoset.is_finalized = true) :
    Scope.ensure_transcript_finalized I sc = some sc := by
  unfold Scope.ensure_transcript_finalized
  rw [h]
  rfl

/-- The demo scope reached by the top-level query `(factorial . 4)` on a
fresh scope with `transcribe_internal_insertions = true`. -/
def demoScope4 : Scope Fw (DemoQuery Fw) :=
  ((Scope.query (demoIface Fw) 10 (Scope.new Fw (DemoQuery Fw) true 1)
    (factForm 4)).map Prod.snd).getD (Scope.new Fw (DemoQuery Fw) true 1)

/-- `demoScope4` after `Scope::finalize_transcript`. -/
def demoScope4F : Scope Fw (DemoQuery Fw) :=
  ((Scope.finalize_transcript (demoIface Fw) demoScope4).map
    Prod.snd).getD demoScope4

/-- C3 counterexample: `demoScope4F` is a scope on which finalization has
already run, yet a direct second call of `Scope::finalize_transcript`
panics (its `LogMemo::finalize_transcript` re-sets the once-settable `r`)
instead of being a no-op that returns the same transcript. -/
theorem scope_finalize_twice_panics_cex :
    demoScope4F.memoset.is_finalized = true ∧
      Scope.finalize_transcript (demoIface Fw) demoScope4F = none := by
  exact ⟨rfl, rfl⟩

/-- Witness for the amended C3 at the concrete finalized demo scope. -/
theorem ensure_finalized_noop_witness :
    Scope.ensure_transcript_finalized (demoIface Fw) demoScope4F =
      some demoScope4F :=
  ensure_finalized_noop (demoIface Fw) demoScope4F rfl

/-! ## C9: every query adds its kv to the multiset -/

/-- Occurrence count of `k` in a list. -/
def countOcc [DecidableEq α] (k : α) (A : List α) : Nat :=
  (A.filter fun a => decide (a = k)).length

theorem countOcc_nil [DecidableEq α] (k : α) : countOcc k [] = 0 := rfl

theorem countOcc_cons [DecidableEq α] (k a : α) (A : List α) :
    countOcc k (a :: A) = countOcc k A + (if a = k then 1 else 0) := by
  unfold countOcc
  rw [List.filter_cons]
  by_cases h : a = k
  · simp [h, Nat.add_comm]
  · simp [h]

theorem countOcc_append [DecidableEq α] (k : α) (A B : List α) :
    countOcc k (A ++ B) = countOcc k A + countOcc k B := by
  unfold countOcc
  rw [List.filter_append, List.length_append]

/-- The number of multiset records whose key (`car`) is `k`. -/
def keyCount [Field F] [DecidableEq F] (m : MultiSet F) (k : Ptr F) : Nat :=
  (List.filter (fun kv => decide (kvCar? kv = some k)) m).length

theorem keyCount_cons [Field F] [DecidableEq F] (kv k : Ptr F)
    (m : MultiSet F) :
    keyCount (kv :: m : List (Ptr F)) k =
      keyCount m k + (if kvCar? kv = some k then 1 else 0) := by
  unfold keyCount
  rw [List.filter_cons]
  by_cases h : kvCar? kv = some k
  · simp [h, Nat.add_comm]
  · simp [h]

/-- The bookkeeping delta of one evaluation step: top-level insertions are
untouched, internal insertions grow by some suffix `A`, and the per-key
multiset count grows by exactly the number of occurrences of the key in
`A`. -/
def RDelta [Field F] [DecidableEq F] (sc sc' : Scope F Q) : Prop :=
  sc'.toplevel_insertions = sc.toplevel_insertions ∧
  ∃ A, sc'.internal_insertions = sc.internal_insertions ++ A ∧
    ∀ k, keyCount sc'.memoset.multiset k =
      keyCount sc.memoset.multiset k + countOcc k A

theorem RDelta_refl [Field F] [DecidableEq F] (sc : Scope F Q) :
    RDelta sc sc :=
  ⟨rfl, [], by simp, fun k => by simp [countOcc_nil]⟩

theorem RDelta_trans [Field F] [DecidableEq F] {a b c : Scope F Q}
    (h₁ : RDelta a b) (h₂ : RDelta b c) : RDelta a c := by
  obtain ⟨t1, A1, i1, c1⟩ := h₁
  obtain ⟨t2, A2, i2, c2⟩ := h₂
  refine ⟨t2.trans t1, A1 ++ A2, ?_, fun k => ?_⟩
  · rw [i2, i1, List.append_assoc]
  · rw [c2, c1, countOcc_append]
    omega

theorem runProg_delta [Field F] [DecidableEq F] {Q : Type}
    (qr : Q → Scope F Q → Option (Ptr F × Scope F Q))
    (hqr : ∀ child sc r sc', qr child sc = some (r, sc') → RDelta sc sc') :
    ∀ (prog : EvalProg F Q) (sc : Scope F Q) (r : Ptr F) (sc' : Scope F Q),
      runProg qr sc prog = some (r, sc') → RDelta sc sc' := by
  intro prog
  induction prog with
  | pure v =>
    intro sc r sc' h
    rw [runProg] at h
    cases h
    exact RDelta_refl _
  | recurse child k ih =>
    intro sc r sc' h
    rw [runProg] at h
    cases hqr' : qr child sc with
    | none => rw [hqr'] at h; cases h
    | some p =>
      rw [hqr'] at h
      obtain ⟨v, sc₁⟩ := p
      exact RDelta_trans (hqr child sc v sc₁ hqr') (ih v sc₁ r sc' h)

theorem query_recursively_g_eq [Field F] [DecidableEq F] (I : QueryIface F Q)
    (qa : Scope F Q → Ptr F → Option (Ptr F × Ptr F × Scope F Q))
    (parent child : Q) (sc : Scope F Q) :
    Scope.query_recursively_g I qa parent child sc =
      (qa { sc with
          internal_insertions := sc.internal_insertions ++ [I.toPtr child] }
        (I.toPtr child)).map
        (fun p => (p.1,
          { p.2.2 with
            dependencies := updA p.2.2.dependencies (I.toPtr parent) (fun ch => ch ++ [child]) [child] })) := by
  unfold Scope.query_recursively_g
  show (qa { sc with
      internal_insertions := sc.internal_insertions ++ [I.toPtr child] }
      (I.toPtr child) >>=
      fun p => some (p.1,
        { p.2.2 with
          dependencies := updA p.2.2.dependencies (I.toPtr parent) (fun ch => ch ++ [child]) [child] })) = _
  cases qa { sc with
      internal_insertions := sc.internal_insertions ++ [I.toPtr child] }
    (I.toPtr child) with
  | none => rfl
  | some p => rfl

theorem query_aux_delta [Field F] [DecidableEq F] (I : QueryIface F Q) :
    ∀ (fuel : Nat) (sc : Scope F Q) (form resp kv : Ptr F)
      (sc' : Scope F Q),
      Scope.query_aux I fuel sc form = some (resp, kv, sc') →
      kv = Ptr.cons form resp ∧
      sc'.toplevel_insertions = sc.toplevel_insertions ∧
      ∃ A, sc'.internal_insertions = sc.internal_insertions ++ A ∧
        ∀ k, keyCount sc'.memoset.multiset k =
          keyCount sc.memoset.multiset k +
            (if form = k then 1 else 0) + countOcc k A := by
  intro fuel
  induction fuel with
  | zero => intro sc form resp kv sc' h; rw [Scope.query_aux] at h; cases h
  | succ fuel ih =>
    intro sc form resp kv sc' h
    rw [Scope.query_aux] at h
    split at h
    next response hlk =>
      injection h with h1
      injection h1 with hresp h2
      injection h2 with hkv hsc
      subst hresp
      subst hkv
      subst hsc
      refine ⟨rfl, rfl, [], by simp, fun k => ?_⟩
      show keyCount
          (Transcript.make_kv form response :: sc.memoset.multiset) k =
        keyCount sc.memoset.multiset k +
          (if form = k then 1 else 0) + countOcc k []
      rw [keyCount_cons]
      by_cases hfk : form = k
      · have hcar : kvCar? (Transcript.make_kv form response) = some k := by
          rw [← hfk]; rfl
        rw [if_pos hcar, if_pos hfk, countOcc_nil]
      · have hcar : kvCar? (Transcript.make_kv form response) ≠ some k := by
          simp [Transcript.make_kv, kvCar?, hfk]
        rw [if_neg hcar, if_neg hfk, countOcc_nil]
    next hlk =>
      split at h
      next hq => cases h
      next query hq =>
        split at h
        next hrun => cases h
        next evaluated sc₁ hrun =>
          injection h with h1
          injection h1 with hresp h2
          injection h2 with hkv hsc
          subst hresp
          subst hkv
          subst hsc
          have hrd : RDelta sc sc₁ := by
            refine runProg_delta _ ?_ (I.eval query) sc evaluated sc₁ hrun
            intro child scb rb scb' hqr
            rw [query_recursively_g_eq] at hqr
            cases hqa : Scope.query_aux I fuel
                { scb with
                  internal_insertions := scb.internal_insertions ++ [I.toPtr child] }
                (I.toPtr child) with
            | none => rw [hqa] at hqr; cases hqr
            | some pa =>
              rw [hqa] at hqr
              obtain ⟨ra, kva, sca⟩ := pa
              injection hqr with h1
              have hrb : ra = rb := congrArg Prod.fst h1
              have hscb' : ({ sca with
                  dependencies := updA sca.dependencies (I.toPtr query) (fun ch => ch ++ [child]) [child] } :
                  Scope F Q) = scb' := congrArg Prod.snd h1
              subst hrb
              subst hscb'
              obtain ⟨-, htop, A, hint, hcount⟩ :=
                ih _ (I.toPtr child) ra kva sca hqa
              refine ⟨htop, I.toPtr child :: A, ?_, fun k => ?_⟩
              · show sca.internal_insertions = _
                rw [hint]
                simp
              · show keyCount sca.memoset.multiset k = _
                rw [hcount, countOcc_cons]
                have hred : keyCount ({ scb with
                    internal_insertions := scb.internal_insertions ++ [I.toPtr child] } :
                    Scope F Q).memoset.multiset k =
                    keyCount scb.memoset.multiset k := rfl
                rw [hred]
                omega
          obtain ⟨htop, A, hint, hcount⟩ := hrd
          refine ⟨rfl, htop, A, hint, fun k => ?_⟩
          show keyCount
              (Transcript.make_kv form evaluated :: sc₁.memoset.multiset) k =
            keyCount sc.memoset.multiset k +
              (if form = k then 1 else 0) + countOcc k A
          rw [keyCount_cons, hcount k]
          by_cases hfk : form = k
          · have hcar : kvCar? (Transcript.make_kv form evaluated) =
                some k := by
              rw [← hfk]; rfl
            rw [if_pos hcar, if_pos hfk]
            omega
          · have hcar : kvCar? (Transcript.make_kv form evaluated) ≠
                some k := by
              simp [Transcript.make_kv, kvCar?, hfk]
            rw [if_neg hcar, if_neg hfk]
            omega

theorem mapMO_mem {α β : Type} {f : α → Option β} :
    ∀ {l : List α} {bs : List β}, mapMO f l = some bs →
      ∀ b ∈ bs, ∃ a ∈ l, f a = some b := by
  intro l
  induction l with
  | nil =>
    intro bs h b hb
    rw [mapMO] at h
    cases h
    simp at hb
  | cons a as ih =>
    intro bs h b hb
    rw [mapMO] at h
    cases hfa : f a with
    | none => rw [hfa] at h; cases h
    | some b₀ =>
      rw [hfa] at h
      cases hm : mapMO f as with
      | none => rw [hm] at h; cases h
      | some bs₀ =>
        rw [hm] at h
        injection h with h1
        subst h1
        rcases List.mem_cons.mp hb with rfl | hb'
        · exact ⟨a, List.mem_cons_self _ _, hfa⟩
        · obtain ⟨a', ha', hfa'⟩ := ih hm b hb'
          exact ⟨a', List.mem_cons_of_mem _ ha', hfa'⟩

/-- The events emitted for one bucketed kv of `key`: the dependency
insertions followed by the removal record. -/
def kvEvents [Field F] [DecidableEq F] (I : QueryIface F Q) (sc : Scope F Q)
    (key kv : Ptr F) : Option (List (TEvent F)) := do
  let deps ← depEvents I sc key
  pure (deps ++ [TEvent.rem kv (sc.memoset.count kv)])

/-- The events emitted for one unique key: per bucket entry. -/
def keyBlockEvents [Field F] [DecidableEq F] (I : QueryIface F Q)
    (sc : Scope F Q) (st : BuildState F) (key : Ptr F) :
    Option (List (TEvent F)) := do
  let kvs ← lookupA st.insertions key
  (mapMO (fun kv => do
    let deps ← depEvents I sc key
    pure (deps ++ [TEvent.rem kv (sc.memoset.count kv)])) kvs).map
    List.flatten

/-- The events emitted for one family index: per unique key. -/
def indexBlockEvents [Field F] [DecidableEq F] (I : QueryIface F Q)
    (sc : Scope F Q) (st : BuildState F) (index : Nat) :
    Option (List (TEvent F)) := do
  let keys ← lookupA st.unique_keys index
  (mapMO (fun key => do
    let kvs ← lookupA st.insertions key
    (mapMO (fun kv => do
      let deps ← depEvents I sc key
      pure (deps ++ [TEvent.rem kv (sc.memoset.count kv)])) kvs).map
      List.flatten) keys).map List.flatten

/-- `transcriptEvents` through the named per-level blocks. -/
theorem transcriptEvents_eq [Field F] [DecidableEq F] (I : QueryIface F Q)
    (sc : Scope F Q) :
    Scope.transcriptEvents I sc = (do
      let ikvs ← internalKVs sc
      let st ← foldlMO (insertKV I) ⟨[], []⟩
        (sc.toplevel_insertions ++ ikvs)
      let blocks ← mapMO (indexBlockEvents I sc st) (List.range I.count)
      pure (sc.toplevel_insertions.map TEvent.ins ++ blocks.flatten,
        st.unique_keys)) := rfl

theorem depEvents_ins_only [Field F] [DecidableEq F] (I : QueryIface F Q)
    (sc : Scope F Q) (key : Ptr F) (ds : List (TEvent F))
    (h : depEvents I sc key = some ds) :
    ∀ e ∈ ds, ∃ kv, e = TEvent.ins kv := by
  unfold depEvents at h
  cases hdep : lookupA sc.dependencies key with
  | none =>
    rw [hdep] at h
    injection h with h1
    subst h1
    intro e he
    simp at he
  | some deps =>
    rw [hdep] at h
    have h' : (mapMO (fun dep =>
        match lookupA sc.queries (I.toPtr dep) with
        | none => none
        | some v =>
          some (if sc.transcribe_internal_insertions
            then [TEvent.ins (Transcript.make_kv (I.toPtr dep) v)]
            else ([] : List (TEvent F)))) deps).map List.flatten =
        some ds := h
    cases hm : mapMO (fun dep =>
        match lookupA sc.queries (I.toPtr dep) with
        | none => none
        | some v =>
          some (if sc.transcribe_internal_insertions
            then [TEvent.ins (Transcript.make_kv (I.toPtr dep) v)]
            else ([] : List (TEvent F)))) deps with
    | none => rw [hm] at h'; cases h'
    | some ls =>
      rw [hm] at h'
      injection h' with h1
      subst h1
      intro e he
      obtain ⟨l, hl, hel⟩ := List.mem_flatten.mp he
      obtain ⟨dep, -, hfdep⟩ := mapMO_mem hm l hl
      have hfdep' : (match lookupA sc.queries (I.toPtr dep) with
        | none => none
        | some v =>
          some (if sc.transcribe_internal_insertions
            then [TEvent.ins (Transcript.make_kv (I.toPtr dep) v)]
            else ([] : List (TEvent F)))) = some l := hfdep
      cases hq : lookupA sc.queries (I.toPtr dep) with
      | none => rw [hq] at hfdep'; cases hfdep'
      | some v =>
        rw [hq] at hfdep'
        injection hfdep' with h2
        subst h2
        by_cases hti : sc.transcribe_internal_insertions
        · rw [if_pos hti] at hel
          rcases List.mem_singleton.mp hel with rfl
          exact ⟨_, rfl⟩
        · rw [if_neg hti] at hel
          simp at hel

theorem kvEvents_rem [Field F] [DecidableEq F] (I : QueryIface F Q)
    (sc : Scope F Q) (key kv : Ptr F) (kvl : List (TEvent F))
    (h : (do
      let deps ← depEvents I sc key
      pure (deps ++ [TEvent.rem kv (sc.memoset.count kv)])) = some kvl) :
    ∀ kv' c, TEvent.rem kv' c ∈ kvl → kv' = kv ∧ c = sc.memoset.count kv := by
  cases hd : depEvents I sc key with
  | none => rw [hd, bind_noneO] at h; cases h
  | some ds =>
    rw [hd, bind_someO] at h
    injection h with h1
    subst h1
    intro kv' c hmem
    rcases List.mem_append.mp hmem with hds | hrem
    · obtain ⟨kvx, hkvx⟩ := depEvents_ins_only I sc key ds hd _ hds
      cases hkvx
    · rcases List.mem_singleton.mp hrem
      exact ⟨rfl, rfl⟩

theorem keyBlockEvents_rem [Field F] [DecidableEq F] (I : QueryIface F Q)
    (sc : Scope F Q) (st : BuildState F) (key : Ptr F)
    (bl : List (TEvent F)) (h : keyBlockEvents I sc st key = some bl) :
    ∀ kv c, TEvent.rem kv c ∈ bl → c = sc.memoset.count kv := by
  unfold keyBlockEvents at h
  cases hkvs : lookupA st.insertions key with
  | none => rw [hkvs, bind_noneO] at h; cases h
  | some kvs =>
    rw [hkvs, bind_someO] at h
    cases hm : mapMO (fun kv => do
        let deps ← depEvents I sc key
        pure (deps ++ [TEvent.rem kv (sc.memoset.count kv)])) kvs with
    | none => rw [hm] at h; cases h
    | some kll =>
      rw [hm] at h
      injection h with h1
      subst h1
      intro kv c hmem
      obtain ⟨kvl, hkvl, hin⟩ := List.mem_flatten.mp hmem
      obtain ⟨kv₀, -, hf⟩ := mapMO_mem hm kvl hkvl
      obtain ⟨rfl, hc⟩ := kvEvents_rem I sc key kv₀ kvl hf kv c hin
      exact hc

theorem indexBlockEvents_rem [Field F] [DecidableEq F] (I : QueryIface F Q)
    (sc : Scope F Q) (st : BuildState F) (index : Nat)
    (bl : List (TEvent F)) (h : indexBlockEvents I sc st index = some bl) :
    ∀ kv c, TEvent.rem kv c ∈ bl → c = sc.memoset.count kv := by
  unfold indexBlockEvents at h
  cases hkeys : lookupA st.unique_keys index with
  | none => rw [hkeys, bind_noneO] at h; cases h
  | some keys =>
    rw [hkeys, bind_someO] at h
    cases hm : mapMO (fun key => do
        let kvs ← lookupA st.insertions key
        (mapMO (fun kv => do
          let deps ← depEvents I sc key
          pure (deps ++ [TEvent.rem kv (sc.memoset.count kv)])) kvs).map
          List.flatten) keys with
    | none => rw [hm] at h; cases h
    | some bll =>
      rw [hm] at h
      injection h with h1
      subst h1
      intro kv c hmem
      obtain ⟨kl, hkl, hin⟩ := List.mem_flatten.mp hmem
      obtain ⟨key, -, hf⟩ := mapMO_mem hm kl hkl
      exact keyBlockEvents_rem I sc st key kl hf kv c hin

theorem events_rem_counts [Field F] [DecidableEq F] (I : QueryIface F Q)
    (sc : Scope F Q) (es : List (TEvent F)) (u : List (Nat × List (Ptr F)))
    (h : Scope.transcriptEvents I sc = some (es, u)) :
    ∀ kv c, TEvent.rem kv c ∈ es → c = sc.memoset.count kv := by
  rw [transcriptEvents_eq] at h
  cases hik : internalKVs sc with
  | none => rw [hik, bind_noneO] at h; cases h
  | some ikvs =>
    rw [hik, bind_someO] at h
    cases hst : foldlMO (insertKV I) ⟨[], []⟩
        (sc.toplevel_insertions ++ ikvs) with
    | none => rw [hst, bind_noneO] at h; cases h
    | some st =>
      rw [hst, bind_someO] at h
      cases hbl : mapMO (indexBlockEvents I sc st) (List.range I.count) with
      | none => rw [hbl, bind_noneO] at h; cases h
      | some blocks =>
        rw [hbl, bind_someO] at h
        injection h with h1
        have hes : sc.toplevel_insertions.map TEvent.ins ++
            blocks.flatten = es := congrArg Prod.fst h1
        intro kv c hmem
        rw [← hes] at hmem
        rcases List.mem_append.mp hmem with htop | hfl
        · obtain ⟨x, -, hx⟩ := List.mem_map.mp htop
          cases hx
        · obtain ⟨bl, hblm, hin⟩ := List.mem_flatten.mp hfl
          obtain ⟨index, -, hf⟩ := mapMO_mem hbl bl hblm
          exact indexBlockEvents_rem I sc st index bl hf kv c hin

theorem query_eq [Field F] [DecidableEq F] (I : QueryIface F Q) (fuel : Nat)
    (sc : Scope F Q) (form : Ptr F) :
    Scope.query I fuel sc form = (Scope.query_aux I fuel sc form).map
      (fun p => (p.1,
        { p.2.2 with
          toplevel_insertions := p.2.2.toplevel_insertions ++ [p.2.1] })) := by
  unfold Scope.query
  show (Scope.query_aux I fuel sc form >>= fun p => some (p.1,
    { p.2.2 with
      toplevel_insertions := p.2.2.toplevel_insertions ++ [p.2.1] })) = _
  cases Scope.query_aux I fuel sc form with
  | none => rfl
  | some p => rfl

/-- C9: (i) `query_aux` — the common body of `Scope::query` and
`Scope::query_recursively` — adds the `(key . value)` record to the memo
set even when the key is already memoized, bumping its multiplicity by one;
(ii) across a whole `Scope::query` call, the number of multiset records
keyed by `k` grows by exactly the number of times `k` was queried: one if
`k` is the queried form, plus one per recursive use appended to
`internal_insertions`; (iii) `build_transcript`'s emission sequence embeds
exactly the memo-set multiplicity in every removal record. -/
theorem query_multiset_accounting [Field F] [DecidableEq F]
    (I : QueryIface F Q) (fuel : Nat) (sc : Scope F Q) (form resp : Ptr F) :
    (lookupA sc.queries form = some resp →
      Scope.query_aux I (fuel + 1) sc form =
        some (resp, Ptr.cons form resp,
          { sc with memoset := sc.memoset.add (Ptr.cons form resp) }) ∧
      (sc.memoset.add (Ptr.cons form resp)).count (Ptr.cons form resp) =
        sc.memoset.count (Ptr.cons form resp) + 1) ∧
    (∀ (resp' : Ptr F) (sc' : Scope F Q),
      Scope.query I fuel sc form = some (resp', sc') →
      sc'.toplevel_insertions =
        sc.toplevel_insertions ++ [Ptr.cons form resp'] ∧
      ∃ A, sc'.internal_insertions = sc.internal_insertions ++ A ∧
        ∀ k, keyCount sc'.memoset.multiset k =
          keyCount sc.memoset.multiset k +
            (if form = k then 1 else 0) + countOcc k A) ∧
    (∀ (es : List (TEvent F)) (u : List (Nat × List (Ptr F)))
      (kv : Ptr F) (c : Nat),
      Scope.transcriptEvents I sc = some (es, u) →
      TEvent.rem kv c ∈ es → c = sc.memoset.count kv) := by
  refine ⟨fun h => ⟨?_, ?_⟩, fun resp' sc' h => ?_, fun es u kv c h hm => ?_⟩
  · rw [Scope.query_aux, h]
    rfl
  · show List.count (Ptr.cons form resp)
        (Ptr.cons form resp :: sc.memoset.multiset) = _
    rw [List.count_cons_self]
    rfl
  · rw [query_eq] at h
    cases hqa : Scope.query_aux I fuel sc form with
    | none => rw [hqa] at h; cases h
    | some p =>
      rw [hqa] at h
      obtain ⟨r0, kv0, sc0⟩ := p
      injection h with h1
      have hr0 : r0 = resp' := congrArg Prod.fst h1
      have hsc0 : ({ sc0 with
          toplevel_insertions := sc0.toplevel_insertions ++ [kv0] } :
          Scope F Q) = sc' := congrArg Prod.snd h1
      subst hr0
      subst hsc0
      obtain ⟨hkv, htop, A, hint, hcount⟩ :=
        query_aux_delta I fuel sc form r0 kv0 sc0 hqa
      subst hkv
      refine ⟨?_, A, ?_, fun k => ?_⟩
      · show sc0.toplevel_insertions ++ [Ptr.cons form r0] = _
        rw [htop]
      · exact hint
      · exact hcount k
  · exact events_rem_counts I sc es u h kv c hm

/-- `demoScope4` after one more top-level query of `(factorial . 3)`. -/
def demoScope4b : Scope Fw (DemoQuery Fw) :=
  ((Scope.query (demoIface Fw) 9 demoScope4 (factForm 3)).map
    Prod.snd).getD demoScope4

/-- Witness for C9 at the concrete demo scope: `(factorial . 3)` is already
memoized in `demoScope4`, and the accounting conclusions evaluate there. -/
theorem query_multiset_accounting_witness :
    Scope.query_aux (demoIface Fw) 10 demoScope4 (factForm 3) =
      some (Ptr.num 6, Ptr.cons (factForm 3) (Ptr.num 6),
        { demoScope4 with
          memoset := demoScope4.memoset.add
            (Ptr.cons (factForm 3) (Ptr.num 6)) }) ∧
    demoScope4b.toplevel_insertions =
      demoScope4.toplevel_insertions ++ [Ptr.cons (factForm 3) (Ptr.num 6)] := by
  have h := query_multiset_accounting (demoIface Fw) 9 demoScope4
    (factForm 3) (Ptr.num 6)
  exact ⟨(h.1 rfl).1, (h.2.1 (Ptr.num 6) demoScope4b rfl).1⟩

/-! ## C5: ordering of removal records -/

/-- The family index of a removal record (none on insertions). -/
def remFam [Field F] (I : QueryIface F Q) : TEvent F → Option Nat
  | .rem kv _ =>
    match kvCar? kv with
    | some k => keyIdx? I k
    | none => none
  | .ins _ => none

/-- The key of a removal record of family `i` (none otherwise). -/
def remKeyAt [Field F] [DecidableEq F] (I : QueryIface F Q) (i : Nat) :
    TEvent F → Option (Ptr F)
  | .rem kv _ =>
    match kvCar? kv with
    | some k => if keyIdx? I k = some i then some k else none
    | none => none
  | .ins _ => none

theorem internalKVs_coh [Field F] [DecidableEq F] (sc : Scope F Q)
    (ikvs : List (Ptr F)) (h : internalKVs sc = some ikvs) :
    ∀ kv ∈ ikvs, ∃ k v, kv = Ptr.cons k v ∧
      lookupA sc.queries k = some v := by
  intro kv hkv
  obtain ⟨key, -, hf⟩ := mapMO_mem h kv hkv
  cases hq : lookupA sc.queries key with
  | none => rw [hq] at hf; cases hf
  | some v =>
    rw [hq] at hf
    injection hf with h1
    exact ⟨key, v, h1.symm, hq⟩

theorem insertIS_mem [DecidableEq α] (b : List α) (y x : α)
    (h : x ∈ insertIS b y) : x ∈ b ∨ x = y := by
  unfold insertIS at h
  by_cases hy : y ∈ b
  · rw [if_pos hy] at h
    exact Or.inl h
  · rw [if_neg hy] at h
    rcases List.mem_append.mp h with hb | hx
    · exact Or.inl hb
    · exact Or.inr (List.mem_singleton.mp hx)

theorem bucketFold_mem [Field F] [DecidableEq F] (k : Ptr F) :
    ∀ (L : List (Ptr F)) (b : List (Ptr F)) (x : Ptr F),
      x ∈ bucketFold k b L → x ∈ b ∨ kvCar? x = some k := by
  intro L
  induction L with
  | nil => intro b x h; exact Or.inl h
  | cons kv L ih =>
    intro b x h
    rw [show bucketFold k b (kv :: L) =
        bucketFold k (if kvCar? kv = some k then insertIS b kv else b) L
      from rfl] at h
    by_cases hc : kvCar? kv = some k
    · rw [if_pos hc] at h
      rcases ih _ x h with hb | hcar
      · rcases insertIS_mem b kv x hb with hb' | rfl
        · exact Or.inl hb'
        · exact Or.inr hc
      · exact Or.inr hcar
    · rw [if_neg hc] at h
      exact ih b x h

theorem bucketFold_const [Field F] [DecidableEq F] (k kv₀ : Ptr F) :
    ∀ (L : List (Ptr F)) (b : List (Ptr F)),
      (∀ kv ∈ L, kvCar? kv = some k → kv = kv₀) →
      (b = [] ∨ b = [kv₀]) →
      (bucketFold k b L = [] ∨ bucketFold k b L = [kv₀]) ∧
      ((k ∈ L.filterMap kvCar? ∨ b = [kv₀]) → bucketFold k b L = [kv₀]) := by
  intro L
  induction L with
  | nil =>
    intro b hone hb
    refine ⟨hb, fun h => ?_⟩
    rcases h with h | h
    · simp at h
    · exact h
  | cons kv L ih =>
    intro b hone hb
    rw [show bucketFold k b (kv :: L) =
        bucketFold k (if kvCar? kv = some k then insertIS b kv else b) L
      from rfl]
    by_cases hc : kvCar? kv = some k
    · rw [if_pos hc]
      have hkv : kv = kv₀ := hone kv (List.mem_cons_self _ _) hc
      subst hkv
      have hb' : insertIS b kv = [kv] := by
        rcases hb with rfl | rfl
        · simp [insertIS]
        · simp [insertIS]
      rw [hb']
      have := ih [kv] (fun kv' hkv' hc' =>
        hone kv' (List.mem_cons_of_mem _ hkv') hc') (Or.inr rfl)
      exact ⟨this.1, fun _ => this.2 (Or.inr rfl)⟩
    · rw [if_neg hc]
      have := ih b (fun kv' hkv' hc' =>
        hone kv' (List.mem_cons_of_mem _ hkv') hc') hb
      refine ⟨this.1, fun h => ?_⟩
      rcases h with h | h
      · rcases List.mem_filterMap.mp h with ⟨x, hx, hcx⟩
        rcases List.mem_cons.mp hx with rfl | hx'
        · exact absurd hcx hc
        · exact this.2 (Or.inl (List.mem_filterMap.mpr ⟨x, hx', hcx⟩))
      · exact this.2 (Or.inr h)

theorem mapMO_forall₂ {α β : Type} {f : α → Option β} :
    ∀ {l : List α} {bs : List β}, mapMO f l = some bs →
      List.Forall₂ (fun a b => f a = some b) l bs := by
  intro l
  induction l with
  | nil =>
    intro bs h
    rw [mapMO] at h
    cases h
    exact List.Forall₂.nil
  | cons a as ih =>
    intro bs h
    rw [mapMO] at h
    cases hfa : f a with
    | none => rw [hfa] at h; cases h
    | some b₀ =>
      rw [hfa] at h
      cases hm : mapMO f as with
      | none => rw [hm] at h; cases h
      | some bs₀ =>
        rw [hm] at h
        injection h with h1
        subst h1
        exact List.Forall₂.cons hfa (ih hm)

theorem forall₂_mem_right {α β : Type} {P : α → β → Prop} :
    ∀ {l : List α} {bs : List β}, List.Forall₂ P l bs →
      ∀ b ∈ bs, ∃ a ∈ l, P a b := by
  intro l bs hf
  induction hf with
  | nil => intro b hb; simp at hb
  | cons hP hf ih =>
    intro b hb
    rcases List.mem_cons.mp hb with rfl | hb'
    · exact ⟨_, List.mem_cons_self _ _, hP⟩
    · obtain ⟨a, ha, hPa⟩ := ih b hb'
      exact ⟨a, List.mem_cons_of_mem _ ha, hPa⟩

theorem pairwise_of_forall₂ {α β : Type} {P : α → β → Prop}
    {S : α → α → Prop} {R : β → β → Prop} :
    ∀ {l : List α} {bs : List β}, List.Forall₂ P l bs →
      List.Pairwise S l →
      (∀ a b a' b', P a b → P a' b' → S a a' → R b b') →
      List.Pairwise R bs := by
  intro l bs hf
  induction hf with
  | nil => intro _ _; exact List.Pairwise.nil
  | cons hP hf ih =>
    intro hp himp
    rcases List.pairwise_cons.mp hp with ⟨hhead, htail⟩
    refine List.Pairwise.cons ?_ (ih htail himp)
    intro b' hb'
    obtain ⟨a', ha', hPa'⟩ := forall₂_mem_right hf b' hb'
    exact himp _ _ _ _ hP hPa' (hhead a' ha')

theorem insertions_char0 [Field F] [DecidableEq F] (I : QueryIface F Q)
    (L : List (Ptr F)) (st : BuildState F)
    (hst : foldlMO (insertKV I) ⟨[], []⟩ L = some st) :
    ∀ k, lookupA st.insertions k =
      if k ∈ L.filterMap kvCar? then some (bucketFold k [] L) else none :=
  fun k => insert_fold_insertions I L ⟨[], []⟩ st hst k

theorem unique_keys_char0 [Field F] [DecidableEq F] (I : QueryIface F Q)
    (L : List (Ptr F)) (st : BuildState F)
    (hst : foldlMO (insertKV I) ⟨[], []⟩ L = some st) :
    ∀ i, lookupA st.unique_keys i =
      someIfNonempty ((newFirstKeys [] L).filter
        (fun k => decide (keyIdx? I k = some i))) :=
  fun i => insert_fold_unique_keys I L ⟨[], []⟩ st hst i

theorem unique_keys_fam [Field F] [DecidableEq F] (I : QueryIface F Q)
    (L : List (Ptr F)) (st : BuildState F)
    (hst : foldlMO (insertKV I) ⟨[], []⟩ L = some st)
    (i : Nat) (ks : List (Ptr F))
    (h : lookupA st.unique_keys i = some ks) :
    ks = (newFirstKeys [] L).filter
      (fun k => decide (keyIdx? I k = some i)) ∧
    ∀ k ∈ ks, keyIdx? I k = some i ∧ k ∈ newFirstKeys [] L := by
  rw [unique_keys_char0 I L st hst i] at h
  cases hf : (newFirstKeys [] L).filter
      (fun k => decide (keyIdx? I k = some i)) with
  | nil => rw [hf] at h; cases h
  | cons a as =>
    rw [hf, someIfNonempty_cons] at h
    injection h with h1
    subst h1
    refine ⟨rfl, fun k hk => ?_⟩
    rw [← hf] at hk
    rcases List.mem_filter.mp hk with ⟨hmem, hdec⟩
    exact ⟨of_decide_eq_true hdec, hmem⟩

theorem bucket_singleton [Field F] [DecidableEq F] (I : QueryIface F Q)
    (sc : Scope F Q) (L : List (Ptr F)) (st : BuildState F)
    (hst : foldlMO (insertKV I) ⟨[], []⟩ L = some st)
    (hcoh : ∀ kv ∈ L, ∃ k v, kv = Ptr.cons k v ∧
      lookupA sc.queries k = some v)
    (k : Ptr F) (kvs : List (Ptr F))
    (h : lookupA st.insertions k = some kvs) :
    ∃ v, lookupA sc.queries k = some v ∧ kvs = [Ptr.cons k v] := by
  rw [insertions_char0 I L st hst k] at h
  by_cases hmem : k ∈ L.filterMap kvCar?
  · rw [if_pos hmem] at h
    injection h with h1
    obtain ⟨kv, hkvL, hcar⟩ := List.mem_filterMap.mp hmem
    obtain ⟨k', v, rfl, hq⟩ := hcoh kv hkvL
    have hk' : k' = k := by
      have : some k' = some k := hcar
      exact Option.some.inj this
    subst hk'
    have hone : ∀ kv' ∈ L, kvCar? kv' = some k' → kv' = Ptr.cons k' v := by
      intro kv' hkv' hc'
      obtain ⟨k₂, v₂, rfl, hq₂⟩ := hcoh kv' hkv'
      have hk₂ : k₂ = k' := by
        have : some k₂ = some k' := hc'
        exact Option.some.inj this
      subst hk₂
      rw [hq] at hq₂
      rw [Option.some.inj hq₂]
    have hbf := (bucketFold_const k' (Ptr.cons k' v) L [] hone
      (Or.inl rfl)).2 (Or.inl hmem)
    exact ⟨v, hq, h1 ▸ hbf⟩
  · rw [if_neg hmem] at h
    cases h

theorem keyBlock_rem_car [Field F] [DecidableEq F] (I : QueryIface F Q)
    (sc : Scope F Q) (L : List (Ptr F)) (st : BuildState F)
    (hst : foldlMO (insertKV I) ⟨[], []⟩ L = some st)
    (k : Ptr F) (bl : List (TEvent F))
    (h : keyBlockEvents I sc st k = some bl) :
    ∀ kv c, TEvent.rem kv c ∈ bl → kvCar? kv = some k := by
  unfold keyBlockEvents at h
  cases hkvs : lookupA st.insertions k with
  | none => rw [hkvs, bind_noneO] at h; cases h
  | some kvs =>
    rw [hkvs, bind_someO] at h
    cases hm : mapMO (fun kv => do
        let deps ← depEvents I sc k
        pure (deps ++ [TEvent.rem kv (sc.memoset.count kv)])) kvs with
    | none => rw [hm] at h; cases h
    | some kll =>
      rw [hm] at h
      injection h with h1
      subst h1
      intro kv c hmem
      obtain ⟨kvl, hkvl, hin⟩ := List.mem_flatten.mp hmem
      obtain ⟨kv₀, hkv₀, hf⟩ := mapMO_mem hm kvl hkvl
      obtain ⟨rfl, -⟩ := kvEvents_rem I sc k kv₀ kvl hf kv c hin
      have hchar := insertions_char0 I L st hst k
      rw [hkvs] at hchar
      by_cases hm' : k ∈ L.filterMap kvCar?
      · rw [if_pos hm'] at hchar
        have hkvs' : kvs = bucketFold k [] L := Option.some.inj hchar
        subst hkvs'
        rcases bucketFold_mem k L [] kv hkv₀ with hc | hc
        · simp at hc
        · exact hc
      · rw [if_neg hm'] at hchar
        cases hchar

theorem indexBlock_rem_fam [Field F] [DecidableEq F] (I : QueryIface F Q)
    (sc : Scope F Q) (L : List (Ptr F)) (st : BuildState F)
    (hst : foldlMO (insertKV I) ⟨[], []⟩ L = some st)
    (j : Nat) (bl : List (TEvent F))
    (h : indexBlockEvents I sc st j = some bl) :
    ∀ kv c, TEvent.rem kv c ∈ bl →
      remFam I (TEvent.rem kv c) = some j := by
  unfold indexBlockEvents at h
  cases hkeys : lookupA st.unique_keys j with
  | none => rw [hkeys, bind_noneO] at h; cases h
  | some ks =>
    rw [hkeys, bind_someO] at h
    cases hm : mapMO (fun key => do
        let kvs ← lookupA st.insertions key
        (mapMO (fun kv => do
          let deps ← depEvents I sc key
          pure (deps ++ [TEvent.rem kv (sc.memoset.count kv)])) kvs).map
          List.flatten) ks with
    | none => rw [hm] at h; cases h
    | some bll =>
      rw [hm] at h
      injection h with h1
      subst h1
      intro kv c hmem
      obtain ⟨kl, hkl, hin⟩ := List.mem_flatten.mp hmem
      obtain ⟨key, hkey, hf⟩ := mapMO_mem hm kl hkl
      have hcar := keyBlock_rem_car I sc L st hst key kl hf kv c hin
      have hfam := ((unique_keys_fam I L st hst j ks hkeys).2 key hkey).1
      show (match kvCar? kv with
        | some k => keyIdx? I k
        | none => none) = some j
      rw [hcar]
      show keyIdx? I key = some j
      exact hfam

theorem filterMap_eq_nil_of {α β : Type} {f : α → Option β} :
    ∀ {l : List α}, (∀ a ∈ l, f a = none) → l.filterMap f = [] := by
  intro l h
  induction l with
  | nil => rfl
  | cons a as ih =>
    rw [List.filterMap_cons, h a (List.mem_cons_self _ _)]
    exact ih fun a ha => h a (List.mem_cons_of_mem _ ha)

theorem filterMap_flatten_eq {α β : Type} (f : α → Option β) :
    ∀ (ll : List (List α)),
      ll.flatten.filterMap f = (ll.map (fun l => l.filterMap f)).flatten := by
  intro ll
  induction ll with
  | nil => rfl
  | cons l ls ih =>
    rw [List.flatten_cons, List.filterMap_append, List.map_cons,
      List.flatten_cons, ih]

theorem flatten_nil_of {β : Type} :
    ∀ {ll : List (List β)}, (∀ l ∈ ll, l = []) → ll.flatten = [] := by
  intro ll h
  induction ll with
  | nil => rfl
  | cons l ls ih =>
    rw [List.flatten_cons, h l (List.mem_cons_self _ _)]
    exact ih fun l hl => h l (List.mem_cons_of_mem _ hl)

theorem map_eq_of_forall₂ {α β γ : Type} {g : β → γ} {h : α → γ} :
    ∀ {l : List α} {bs : List β},
      List.Forall₂ (fun a b => g b = h a) l bs → bs.map g = l.map h := by
  intro l bs hf
  induction hf with
  | nil => rfl
  | cons hP hf ih => rw [List.map_cons, List.map_cons, hP, ih]

theorem flatten_map_singleton {β : Type} :
    ∀ (l : List β), (l.map (fun a => [a])).flatten = l := by
  intro l
  induction l with
  | nil => rfl
  | cons a as ih => rw [List.map_cons, List.flatten_cons, ih]; rfl

theorem flatten_range_single {β : Type} (ks : List β) :
    ∀ (n i : Nat), i < n →
      ((List.range n).map (fun j => if j = i then ks else [])).flatten =
        ks := by
  intro n
  induction n with
  | zero => intro i hi; cases hi
  | succ n ih =>
    intro i hi
    rw [List.range_succ, List.map_append, List.flatten_append]
    by_cases hin : i < n
    · rw [ih i hin]
      have hne : ¬(n = i) := by omega
      simp [hne]
    · have hni : n = i := by omega
      subst hni
      have hnil : ((List.range n).map
          (fun j => if j = n then ks else [])).flatten = ([] : List β) := by
        apply flatten_nil_of
        intro l hl
        obtain ⟨j, hj, hjl⟩ := List.mem_map.mp hl
        have : ¬(j = n) := by
          have := List.mem_range.mp hj
          omega
        rw [← hjl, if_neg this]
      rw [hnil]
      simp

theorem mapMO_singleton {α β : Type} (f : α → Option β) (a : α) :
    mapMO f [a] = (f a).map (fun b => [b]) := by
  cases hfa : f a with
  | none => simp [mapMO, hfa]
  | some b => simp [mapMO, hfa]

theorem remKeyAt_rem [Field F] [DecidableEq F] (I : QueryIface F Q) (i : Nat)
    (k v : Ptr F) (c : Nat) :
    remKeyAt I i (TEvent.rem (Ptr.cons k v) c) =
      if keyIdx? I k = some i then some k else none := rfl

theorem filterMap_keyBlock [Field F] [DecidableEq F] (I : QueryIface F Q)
    (sc : Scope F Q) (L : List (Ptr F)) (st : BuildState F)
    (hst : foldlMO (insertKV I) ⟨[], []⟩ L = some st)
    (hcoh : ∀ kv ∈ L, ∃ k v, kv = Ptr.cons k v ∧
      lookupA sc.queries k = some v)
    (i : Nat) (k : Ptr F) (bl : List (TEvent F))
    (h : keyBlockEvents I sc st k = some bl) :
    bl.filterMap (remKeyAt I i) =
      if keyIdx? I k = some i then [k] else [] := by
  unfold keyBlockEvents at h
  cases hkvs : lookupA st.insertions k with
  | none => rw [hkvs, bind_noneO] at h; cases h
  | some kvs =>
    rw [hkvs, bind_someO] at h
    obtain ⟨v, -, rfl⟩ := bucket_singleton I sc L st hst hcoh k kvs hkvs
    rw [mapMO_singleton] at h
    have h' : (((do
        let deps ← depEvents I sc k
        pure (deps ++ [TEvent.rem (Ptr.cons k v)
          (sc.memoset.count (Ptr.cons k v))])) : Option (List (TEvent F))).map
        (fun b => [b])).map List.flatten = some bl := h
    cases hd : depEvents I sc k with
    | none =>
      rw [hd, bind_noneO] at h'
      cases h'
    | some ds =>
      rw [hd, bind_someO] at h'
      have h'' : some ((ds ++ [TEvent.rem (Ptr.cons k v)
          (sc.memoset.count (Ptr.cons k v))]) ++ []) = some bl := h'
      have hbl : bl = (ds ++ [TEvent.rem (Ptr.cons k v)
          (sc.memoset.count (Ptr.cons k v))]) ++ [] :=
        (Option.some.inj h'').symm
      subst hbl
      rw [List.append_nil, List.filterMap_append]
      have hds : ds.filterMap (remKeyAt I i) = [] := by
        apply filterMap_eq_nil_of
        intro e he
        obtain ⟨kv, rfl⟩ := depEvents_ins_only I sc k ds hd e he
        rfl
      rw [hds, List.nil_append]
      show List.filterMap (remKeyAt I i)
        [TEvent.rem (Ptr.cons k v) (sc.memoset.count (Ptr.cons k v))] = _
      rw [List.filterMap_cons, remKeyAt_rem]
      by_cases hki : keyIdx? I k = some i
      · rw [if_pos hki, if_pos hki]
        rfl
      · rw [if_neg hki, if_neg hki]
        rfl

theorem filterMap_indexBlock [Field F] [DecidableEq F] (I : QueryIface F Q)
    (sc : Scope F Q) (L : List (Ptr F)) (st : BuildState F)
    (hst : foldlMO (insertKV I) ⟨[], []⟩ L = some st)
    (hcoh : ∀ kv ∈ L, ∃ k v, kv = Ptr.cons k v ∧
      lookupA sc.queries k = some v)
    (i : Nat) (ks : List (Ptr F))
    (hks : lookupA st.unique_keys i = some ks)
    (j : Nat) (bl : List (TEvent F))
    (hj : indexBlockEvents I sc st j = some bl) :
    bl.filterMap (remKeyAt I i) = if j = i then ks else [] := by
  unfold indexBlockEvents at hj
  cases hkeys : lookupA st.unique_keys j with
  | none => rw [hkeys, bind_noneO] at hj; cases hj
  | some ksj =>
    rw [hkeys, bind_someO] at hj
    cases hm : mapMO (fun key => do
        let kvs ← lookupA st.insertions key
        (mapMO (fun kv => do
          let deps ← depEvents I sc key
          pure (deps ++ [TEvent.rem kv (sc.memoset.count kv)])) kvs).map
          List.flatten) ksj with
    | none => rw [hm] at hj; cases hj
    | some bll =>
      rw [hm] at hj
      injection hj with h1
      subst h1
      have hfam : ∀ k ∈ ksj, keyIdx? I k = some j :=
        fun k hk => ((unique_keys_fam I L st hst j ksj hkeys).2 k hk).1
      have hf₂ : List.Forall₂ (fun k bl' =>
          bl'.filterMap (remKeyAt I i) =
            (fun k' => if keyIdx? I k' = some i then [k'] else []) k)
          ksj bll := by
        refine (mapMO_forall₂ hm).imp ?_
        intro k bl' hke
        exact filterMap_keyBlock I sc L st hst hcoh i k bl' hke
      rw [filterMap_flatten_eq, map_eq_of_forall₂ hf₂]
      by_cases hji : j = i
      · subst hji
        rw [hkeys] at hks
        have hksj : ksj = ks := Option.some.inj hks
        subst hksj
        rw [if_pos rfl]
        have hmap : ksj.map
            (fun k' => if keyIdx? I k' = some j then [k'] else []) =
            ksj.map (fun k' => [k']) := by
          apply List.map_congr_left
          intro k hk
          show (if keyIdx? I k = some j then [k] else []) = [k]
          rw [if_pos (hfam k hk)]
        rw [hmap, flatten_map_singleton]
      · rw [if_neg hji]
        apply flatten_nil_of
        intro l hl
        obtain ⟨k, hk, hkl⟩ := List.mem_map.mp hl
        have hne : ¬(keyIdx? I k = some i) := by
          rw [hfam k hk]
          intro hc
          exact hji (Option.some.inj hc)
        rw [← hkl]
        show (if keyIdx? I k = some i then [k] else []) = []
        rw [if_neg hne]

theorem remFam_ins [Field F] (I : QueryIface F Q) (kv : Ptr F) :
    remFam I (TEvent.ins kv) = none := rfl

theorem remFam_block_eq [Field F] [DecidableEq F] (I : QueryIface F Q)
    (sc : Scope F Q) (L : List (Ptr F)) (st : BuildState F)
    (hst : foldlMO (insertKV I) ⟨[], []⟩ L = some st)
    (j : Nat) (bl : List (TEvent F))
    (hj : indexBlockEvents I sc st j = some bl)
    (e : TEvent F) (he : e ∈ bl) (i : Nat) (h : remFam I e = some i) :
    i = j := by
  cases e with
  | ins kv => rw [remFam_ins] at h; cases h
  | rem kv c =>
    have hf := indexBlock_rem_fam I sc L st hst j bl hj kv c he
    rw [h] at hf
    exact Option.some.inj hf

/-- C5: every transcript built by `Scope::build_transcript` (on a scope whose
top-level insertions are coherent kv records) is the fold of an emission
sequence in which removal records are grouped by family: removals of family
`i` are emitted before every removal of family `j > i` (prepending reverses
this order in the cons list's natural traversal, as `t.acc = consEvents es
nil` records), and within family `i` the removed keys appear exactly in the
first-use discovery order of keys over the top-level then internal
insertions. -/
theorem transcript_family_grouping [Field F] [DecidableEq F]
    (I : QueryIface F Q) (sc : Scope F Q) (t : Transcript F)
    (u : List (Nat × List (Ptr F)))
    (hcoh : ∀ kv ∈ sc.toplevel_insertions, ∃ k v, kv = Ptr.cons k v ∧
      lookupA sc.queries k = some v)
    (hb : Scope.build_transcript I sc = some (t, u)) :
    ∃ es, Scope.transcriptEvents I sc = some (es, u) ∧
      t.acc = consEvents es Ptr.nil ∧
      List.Pairwise (fun e e' => ∀ i i', remFam I e = some i →
        remFam I e' = some i' → i ≤ i') es ∧
      ∀ i ks, i < I.count → lookupA u i = some ks →
        es.filterMap (remKeyAt I i) = ks ∧
        ∀ ikvs, internalKVs sc = some ikvs →
          ks = (newFirstKeys [] (sc.toplevel_insertions ++ ikvs)).filter
            (fun k => decide (keyIdx? I k = some i)) := by
  have hbe := build_transcript_eq_events I sc
  rw [hb] at hbe
  cases he : Scope.transcriptEvents I sc with
  | none => rw [he] at hbe; cases hbe
  | some p =>
    obtain ⟨es, u'⟩ := p
    rw [he] at hbe
    have hpair : (t, u) = ((⟨consEvents es Ptr.nil⟩ : Transcript F), u') :=
      Option.some.inj hbe
    have ht : t = ⟨consEvents es Ptr.nil⟩ := congrArg Prod.fst hpair
    have hu : u = u' := congrArg Prod.snd hpair
    subst hu
    have he' := he
    rw [transcriptEvents_eq] at he'
    cases hik : internalKVs sc with
    | none => rw [hik, bind_noneO] at he'; cases he'
    | some ikvs =>
      rw [hik, bind_someO] at he'
      cases hst : foldlMO (insertKV I) ⟨[], []⟩
          (sc.toplevel_insertions ++ ikvs) with
      | none => rw [hst, bind_noneO] at he'; cases he'
      | some st =>
        rw [hst, bind_someO] at he'
        cases hbl : mapMO (indexBlockEvents I sc st) (List.range I.count) with
        | none => rw [hbl, bind_noneO] at he'; cases he'
        | some blocks =>
          rw [hbl, bind_someO] at he'
          have hpe : (sc.toplevel_insertions.map TEvent.ins ++
              blocks.flatten, st.unique_keys) = (es, u) :=
            Option.some.inj he'
          have hes : sc.toplevel_insertions.map TEvent.ins ++
              blocks.flatten = es := congrArg Prod.fst hpe
          have hu' : st.unique_keys = u := congrArg Prod.snd hpe
          subst hes
          subst hu'
          have hcohL : ∀ kv ∈ sc.toplevel_insertions ++ ikvs,
              ∃ k v, kv = Ptr.cons k v ∧ lookupA sc.queries k = some v := by
            intro kv hkv
            rcases List.mem_append.mp hkv with h1 | h2
            · exact hcoh kv h1
            · exact internalKVs_coh sc ikvs hik kv h2
          refine ⟨_, rfl, by rw [ht], ?_, ?_⟩
          · apply List.pairwise_append.mpr
            refine ⟨?_, ?_, ?_⟩
            · apply List.pairwise_of_forall_mem_list
              intro a ha b hb'
              obtain ⟨x, -, rfl⟩ := List.mem_map.mp ha
              intro i i' hri
              rw [remFam_ins] at hri
              cases hri
            · apply List.pairwise_flatten.mpr
              refine ⟨?_, ?_⟩
              · intro bl hbl'
                obtain ⟨j, -, hjf⟩ := mapMO_mem hbl bl hbl'
                apply List.pairwise_of_forall_mem_list
                intro e he₁ e' he₂ i i' h1 h2
                have h3 := remFam_block_eq I sc _ st hst j bl hjf e he₁ i h1
                have h4 := remFam_block_eq I sc _ st hst j bl hjf e' he₂ i' h2
                omega
              · refine pairwise_of_forall₂ (mapMO_forall₂ hbl)
                  (List.pairwise_lt_range I.count) ?_
                intro j bl j' bl' hf hf' hlt e he₁ e' he₂ i i' h1 h2
                have h3 := remFam_block_eq I sc _ st hst j bl hf e he₁ i h1
                have h4 := remFam_block_eq I sc _ st hst j' bl' hf' e' he₂ i' h2
                omega
            · intro a ha b hb'
              obtain ⟨x, -, rfl⟩ := List.mem_map.mp ha
              intro i i' hri
              rw [remFam_ins] at hri
              cases hri
          · intro i ks hi hks
            refine ⟨?_, ?_⟩
            · rw [List.filterMap_append]
              have h1 : (sc.toplevel_insertions.map TEvent.ins).filterMap
                  (remKeyAt I i) = [] := by
                apply filterMap_eq_nil_of
                intro e he₁
                obtain ⟨x, -, rfl⟩ := List.mem_map.mp he₁
                rfl
              rw [h1, List.nil_append, filterMap_flatten_eq]
              have hf₂ : List.Forall₂ (fun j bl =>
                  bl.filterMap (remKeyAt I i) =
                    (fun j' => if j' = i then ks else []) j)
                  (List.range I.count) blocks := by
                refine (mapMO_forall₂ hbl).imp ?_
                intro j bl hjf
                exact filterMap_indexBlock I sc _ st hst hcohL i ks hks
                  j bl hjf
              rw [map_eq_of_forall₂ hf₂]
              exact flatten_range_single ks I.count i hi
            · intro ikvs' hik'
              have hik'' : ikvs = ikvs' := Option.some.inj hik'
              subst hik''
              exact (unique_keys_fam I _ st hst i ks hks).1

/-- The concrete transcript and unique-key table built for the demo scope. -/
def demoBT5 : Transcript Fw × List (Nat × List (Ptr Fw)) :=
  (Scope.build_transcript (demoIface Fw) demoScope4).getD (⟨Ptr.nil⟩, [])

/-- Witness for C5 at the concrete factorial demo scope. -/
theorem transcript_family_grouping_witness :
    ∃ es, Scope.transcriptEvents (demoIface Fw) demoScope4 =
        some (es, demoBT5.2) ∧
      demoBT5.1.acc = consEvents es Ptr.nil ∧
      List.Pairwise (fun e e' => ∀ i i',
        remFam (demoIface Fw) e = some i →
        remFam (demoIface Fw) e' = some i' → i ≤ i') es ∧
      ∀ i ks, i < (demoIface Fw).count → lookupA demoBT5.2 i = some ks →
        es.filterMap (remKeyAt (demoIface Fw) i) = ks ∧
        ∀ ikvs, internalKVs demoScope4 = some ikvs →
          ks = (newFirstKeys []
            (demoScope4.toplevel_insertions ++ ikvs)).filter
            (fun k => decide (keyIdx? (demoIface Fw) k = some i)) :=
  transcript_family_grouping (demoIface Fw) demoScope4 demoBT5.1 demoBT5.2
    (by
      intro kv hkv
      have hl : demoScope4.toplevel_insertions =
          [Ptr.cons (Ptr.cons (Ptr.sym ["lurk", "user", "factorial"])
            (Ptr.num 4)) (Ptr.num 24)] := rfl
      rw [hl] at hkv
      rcases List.mem_singleton.mp hkv with rfl
      exact ⟨_, _, rfl, rfl⟩)
    rfl

theorem countOcc_flatten [DecidableEq α] (k : α) :
    ∀ (ll : List (List α)),
      countOcc k ll.flatten = (ll.map (countOcc k)).sum := by
  intro ll
  induction ll with
  | nil => rfl
  | cons l ls ih =>
    rw [List.flatten_cons, countOcc_append, List.map_cons, List.sum_cons, ih]

theorem countOcc_map_ins [Field F] [DecidableEq F] (kv : Ptr F)
    (l : List (Ptr F)) :
    countOcc (TEvent.ins kv) (l.map TEvent.ins) = countOcc kv l := by
  induction l with
  | nil => rfl
  | cons a as ih =>
    rw [List.map_cons, countOcc_cons, countOcc_cons, ih]
    by_cases h : a = kv
    · simp [h]
    · simp [h]

/-- How many of the recorded dependencies of `key` denote the record `kv`
(each contributes one internal-insertion record to the transcript when
`transcribe_internal_insertions` is set). -/
def insCountDep [Field F] [DecidableEq F] (I : QueryIface F Q)
    (sc : Scope F Q) (kv : Ptr F) (k : Ptr F) : Nat :=
  match lookupA sc.dependencies k with
  | none => 0
  | some deps => (deps.filter (fun dep =>
      match lookupA sc.queries (I.toPtr dep) with
      | some v => decide (Transcript.make_kv (I.toPtr dep) v = kv)
      | none => false)).length

theorem countOcc_depList [Field F] [DecidableEq F] (I : QueryIface F Q)
    (sc : Scope F Q) (htr : sc.transcribe_internal_insertions = true)
    (kv : Ptr F) :
    ∀ (deps : List Q) (ls : List (List (TEvent F))),
      mapMO (fun dep =>
        match lookupA sc.queries (I.toPtr dep) with
        | none => none
        | some v =>
          some (if sc.transcribe_internal_insertions
            then [TEvent.ins (Transcript.make_kv (I.toPtr dep) v)]
            else ([] : List (TEvent F)))) deps = some ls →
      countOcc (TEvent.ins kv) ls.flatten =
        (deps.filter (fun dep =>
          match lookupA sc.queries (I.toPtr dep) with
          | some v => decide (Transcript.make_kv (I.toPtr dep) v = kv)
          | none => false)).length := by
  intro deps
  induction deps with
  | nil =>
    intro ls h
    rw [mapMO] at h
    injection h with h1
    subst h1
    rfl
  | cons d ds ih =>
    intro ls h
    rw [mapMO] at h
    cases hq : lookupA sc.queries (I.toPtr d) with
    | none => rw [hq] at h; cases h
    | some v =>
      rw [hq] at h
      cases hm : mapMO (fun dep =>
          match lookupA sc.queries (I.toPtr dep) with
          | none => none
          | some v =>
            some (if sc.transcribe_internal_insertions
              then [TEvent.ins (Transcript.make_kv (I.toPtr dep) v)]
              else ([] : List (TEvent F)))) ds with
      | none => rw [hm] at h; cases h
      | some ls₀ =>
        rw [hm] at h
        injection h with h1
        subst h1
        rw [List.flatten_cons, countOcc_append]
        have hhead : (if sc.transcribe_internal_insertions
            then [TEvent.ins (Transcript.make_kv (I.toPtr d) v)]
            else ([] : List (TEvent F))) =
            [TEvent.ins (Transcript.make_kv (I.toPtr d) v)] := by
          rw [htr]
          rfl
        rw [hhead, ih ls₀ hm, List.filter_cons]
        by_cases hd' : Transcript.make_kv (I.toPtr d) v = kv
        · have h2 : (match lookupA sc.queries (I.toPtr d) with
              | some v => decide (Transcript.make_kv (I.toPtr d) v = kv)
              | none => false) = true := by
            rw [hq]
            simp [hd']
          rw [if_pos h2]
          have h1 : countOcc (TEvent.ins kv)
              [TEvent.ins (Transcript.make_kv (I.toPtr d) v)] = 1 := by
            simp [countOcc_cons, countOcc_nil, hd']
          rw [h1, List.length_cons]
          omega
        · have h2 : (match lookupA sc.queries (I.toPtr d) with
              | some v => decide (Transcript.make_kv (I.toPtr d) v = kv)
              | none => false) = false := by
            rw [hq]
            simp [hd']
          rw [h2]
          have h1 : countOcc (TEvent.ins kv)
              [TEvent.ins (Transcript.make_kv (I.toPtr d) v)] = 0 := by
            simp [countOcc_cons, countOcc_nil, hd']
          rw [h1]
          simp

theorem countOcc_depEvents [Field F] [DecidableEq F] (I : QueryIface F Q)
    (sc : Scope F Q) (htr : sc.transcribe_internal_insertions = true)
    (kv k : Ptr F) (ds : List (TEvent F))
    (hd : depEvents I sc k = some ds) :
    countOcc (TEvent.ins kv) ds = insCountDep I sc kv k := by
  unfold depEvents at hd
  unfold insCountDep
  cases hdep : lookupA sc.dependencies k with
  | none =>
    rw [hdep] at hd
    injection hd with h1
    subst h1
    rfl
  | some deps =>
    rw [hdep] at hd
    have hd2 : (mapMO (fun dep =>
        match lookupA sc.queries (I.toPtr dep) with
        | none => none
        | some v =>
          some (if sc.transcribe_internal_insertions
            then [TEvent.ins (Transcript.make_kv (I.toPtr dep) v)]
            else ([] : List (TEvent F)))) deps).map List.flatten =
        some ds := hd
    cases hm : mapMO (fun dep =>
        match lookupA sc.queries (I.toPtr dep) with
        | none => none
        | some v =>
          some (if sc.transcribe_internal_insertions
            then [TEvent.ins (Transcript.make_kv (I.toPtr dep) v)]
            else ([] : List (TEvent F)))) deps with
    | none => rw [hm] at hd2; cases hd2
    | some ls =>
      rw [hm] at hd2
      injection hd2 with h1
      subst h1
      exact countOcc_depList I sc htr kv deps ls hm

theorem countOcc_keyBlock [Field F] [DecidableEq F] (I : QueryIface F Q)
    (sc : Scope F Q) (L : List (Ptr F)) (st : BuildState F)
    (hst : foldlMO (insertKV I) ⟨[], []⟩ L = some st)
    (hcoh : ∀ kv ∈ L, ∃ k v, kv = Ptr.cons k v ∧
      lookupA sc.queries k = some v)
    (htr : sc.transcribe_internal_insertions = true)
    (kv k : Ptr F) (bl : List (TEvent F))
    (h : keyBlockEvents I sc st k = some bl) :
    countOcc (TEvent.ins kv) bl = insCountDep I sc kv k := by
  unfold keyBlockEvents at h
  cases hkvs : lookupA st.insertions k with
  | none => rw [hkvs, bind_noneO] at h; cases h
  | some kvs =>
    rw [hkvs, bind_someO] at h
    obtain ⟨v, -, rfl⟩ := bucket_singleton I sc L st hst hcoh k kvs hkvs
    rw [mapMO_singleton] at h
    have h' : (((do
        let deps ← depEvents I sc k
        pure (deps ++ [TEvent.rem (Ptr.cons k v)
          (sc.memoset.count (Ptr.cons k v))])) : Option (List (TEvent F))).map
        (fun b => [b])).map List.flatten = some bl := h
    cases hd : depEvents I sc k with
    | none =>
      rw [hd, bind_noneO] at h'
      cases h'
    | some ds =>
      rw [hd, bind_someO] at h'
      have h'' : some ((ds ++ [TEvent.rem (Ptr.cons k v)
          (sc.memoset.count (Ptr.cons k v))]) ++ []) = some bl := h'
      have hbl : bl = (ds ++ [TEvent.rem (Ptr.cons k v)
          (sc.memoset.count (Ptr.cons k v))]) ++ [] :=
        (Option.some.inj h'').symm
      subst hbl
      rw [List.append_nil, countOcc_append,
        countOcc_depEvents I sc htr kv k ds hd]
      have hrem : countOcc (TEvent.ins kv) [TEvent.rem (Ptr.cons k v)
          (sc.memoset.count (Ptr.cons k v))] = 0 := rfl
      rw [hrem]
      omega

theorem countOcc_indexBlock [Field F] [DecidableEq F] (I : QueryIface F Q)
    (sc : Scope F Q) (L : List (Ptr F)) (st : BuildState F)
    (hst : foldlMO (insertKV I) ⟨[], []⟩ L = some st)
    (hcoh : ∀ kv ∈ L, ∃ k v, kv = Ptr.cons k v ∧
      lookupA sc.queries k = some v)
    (htr : sc.transcribe_internal_insertions = true)
    (kv : Ptr F) (j : Nat) (bl : List (TEvent F))
    (hj : indexBlockEvents I sc st j = some bl) :
    countOcc (TEvent.ins kv) bl =
      (((newFirstKeys [] L).filter
        (fun k => decide (keyIdx? I k = some j))).map
        (insCountDep I sc kv)).sum := by
  unfold indexBlockEvents at hj
  cases hkeys : lookupA st.unique_keys j with
  | none => rw [hkeys, bind_noneO] at hj; cases hj
  | some ksj =>
    rw [hkeys, bind_someO] at hj
    cases hm : mapMO (fun key => do
        let kvs ← lookupA st.insertions key
        (mapMO (fun kv => do
          let deps ← depEvents I sc key
          pure (deps ++ [TEvent.rem kv (sc.memoset.count kv)])) kvs).map
          List.flatten) ksj with
    | none => rw [hm] at hj; cases hj
    | some bll =>
      rw [hm] at hj
      injection hj with h1
      subst h1
      have hf₂ : List.Forall₂ (fun k bl' =>
          countOcc (TEvent.ins kv) bl' = insCountDep I sc kv k)
          ksj bll := by
        refine (mapMO_forall₂ hm).imp ?_
        intro k bl' hke
        exact countOcc_keyBlock I sc L st hst hcoh htr kv k bl' hke
      rw [countOcc_flatten, map_eq_of_forall₂ hf₂,
        (unique_keys_fam I L st hst j ksj hkeys).1]

theorem sum_range_single (a : Nat) :
    ∀ (n : Nat) (g : Nat → Nat) (i₀ : Nat),
      ((List.range n).map (fun i => (if i = i₀ then a else 0) + g i)).sum =
        (if i₀ < n then a else 0) + ((List.range n).map g).sum := by
  intro n
  induction n with
  | zero => intro g i₀; simp
  | succ n ih =>
    intro g i₀
    rw [List.range_succ, List.map_append, List.sum_append, ih g i₀,
      List.map_append, List.sum_append]
    simp only [List.map_cons, List.map_nil, List.sum_cons, List.sum_nil]
    by_cases hn : n = i₀
    · subst hn
      rw [if_pos rfl, if_pos (Nat.lt_succ_self n), if_neg (lt_irrefl n)]
      omega
    · rw [if_neg hn]
      by_cases h2 : i₀ < n
      · rw [if_pos h2, if_pos (Nat.lt_succ_of_lt h2)]
        omega
      · rw [if_neg h2, if_neg (by omega)]
        omega

theorem sum_filter_fam [Field F] [DecidableEq F] (I : QueryIface F Q)
    (f : Ptr F → Nat) :
    ∀ (ks : List (Ptr F)) (n : Nat),
      ((List.range n).map (fun i =>
        ((ks.filter (fun k => decide (keyIdx? I k = some i))).map f).sum)).sum
      = ((ks.filter (fun k => match keyIdx? I k with
          | some i => decide (i < n)
          | none => false)).map f).sum := by
  intro ks
  induction ks with
  | nil =>
    intro n
    simp
  | cons k ks ih =>
    intro n
    cases hf : keyIdx? I k with
    | none =>
      have hstep : ∀ i : Nat,
          ((List.filter (fun k' => decide (keyIdx? I k' = some i))
            (k :: ks)).map f).sum =
          ((List.filter (fun k' => decide (keyIdx? I k' = some i))
            ks).map f).sum := by
        intro i
        rw [List.filter_cons]
        simp [hf]
      rw [List.map_congr_left (fun i _ => hstep i), ih n, List.filter_cons]
      simp [hf]
    | some i₀ =>
      have hstep : ∀ i : Nat,
          ((List.filter (fun k' => decide (keyIdx? I k' = some i))
            (k :: ks)).map f).sum =
          (if i = i₀ then f k else 0) +
          ((List.filter (fun k' => decide (keyIdx? I k' = some i))
            ks).map f).sum := by
        intro i
        rw [List.filter_cons]
        by_cases hii : i = i₀
        · subst hii
          simp [hf]
        · have : ¬(keyIdx? I k = some i) := by
            rw [hf]
            intro hc
            exact hii (Option.some.inj hc).symm
          simp [this, hii]
      rw [List.map_congr_left (fun i _ => hstep i),
        sum_range_single (f k) n
          (fun i => ((List.filter
            (fun k' => decide (keyIdx? I k' = some i)) ks).map f).sum) i₀,
        ih n, List.filter_cons]
      by_cases hlt : i₀ < n
      · have hp : (match keyIdx? I k with
            | some i => decide (i < n)
            | none => false) = true := by
          rw [hf]
          simp [hlt]
        rw [if_pos hlt, hp]
        simp
      · have hp : (match keyIdx? I k with
            | some i => decide (i < n)
            | none => false) = false := by
          rw [hf]
          simp [hlt]
        rw [if_neg hlt, hp]
        simp

/-- C1 (amended): multiplicity faithfulness holds for scopes that transcribe
their internal insertions and whose memoset bookkeeping is coherent: when
`transcribe_internal_insertions` is set and, for every record `kv`, the
memoset count of `kv` equals its top-level occurrence count plus the number
of recorded dependencies (over the first-use keys of in-range families) that
denote `kv`, the count embedded in each removal record of the built
transcript equals the number of insertion records referencing that `kv` in
the same emission sequence. With `transcribe_internal_insertions` unset the
property fails (see the counterexample). -/
theorem multiplicity_faithfulness [Field F] [DecidableEq F]
    (I : QueryIface F Q) (sc : Scope F Q) (t : Transcript F)
    (u : List (Nat × List (Ptr F))) (ikvs : List (Ptr F))
    (htr : sc.transcribe_internal_insertions = true)
    (hcoh : ∀ kv ∈ sc.toplevel_insertions, ∃ k v, kv = Ptr.cons k v ∧
      lookupA sc.queries k = some v)
    (hik : internalKVs sc = some ikvs)
    (hwf : ∀ kv, sc.memoset.count kv =
      countOcc kv sc.toplevel_insertions +
      (((newFirstKeys [] (sc.toplevel_insertions ++ ikvs)).filter
        (fun k => match keyIdx? I k with
          | some i => decide (i < I.count)
          | none => false)).map (insCountDep I sc kv)).sum)
    (hb : Scope.build_transcript I sc = some (t, u)) :
    ∃ es, Scope.transcriptEvents I sc = some (es, u) ∧
      t.acc = consEvents es Ptr.nil ∧
      ∀ kv c, TEvent.rem kv c ∈ es →
        c = countOcc (TEvent.ins kv) es := by
  have hbe := build_transcript_eq_events I sc
  rw [hb] at hbe
  cases he : Scope.transcriptEvents I sc with
  | none => rw [he] at hbe; cases hbe
  | some p =>
    obtain ⟨es, u'⟩ := p
    rw [he] at hbe
    have hpair : (t, u) = ((⟨consEvents es Ptr.nil⟩ : Transcript F), u') :=
      Option.some.inj hbe
    have ht : t = ⟨consEvents es Ptr.nil⟩ := congrArg Prod.fst hpair
    have hu : u = u' := congrArg Prod.snd hpair
    subst hu
    have hrc := events_rem_counts I sc es u he
    have he' := he
    rw [transcriptEvents_eq] at he'
    rw [hik, bind_someO] at he'
    cases hst : foldlMO (insertKV I) ⟨[], []⟩
        (sc.toplevel_insertions ++ ikvs) with
    | none => rw [hst, bind_noneO] at he'; cases he'
    | some st =>
      rw [hst, bind_someO] at he'
      cases hbl : mapMO (indexBlockEvents I sc st) (List.range I.count) with
      | none => rw [hbl, bind_noneO] at he'; cases he'
      | some blocks =>
        rw [hbl, bind_someO] at he'
        have hpe : (sc.toplevel_insertions.map TEvent.ins ++
            blocks.flatten, st.unique_keys) = (es, u) :=
          Option.some.inj he'
        have hes : sc.toplevel_insertions.map TEvent.ins ++
            blocks.flatten = es := congrArg Prod.fst hpe
        subst hes
        have hcohL : ∀ kv ∈ sc.toplevel_insertions ++ ikvs,
            ∃ k v, kv = Ptr.cons k v ∧ lookupA sc.queries k = some v := by
          intro kv hkv
          rcases List.mem_append.mp hkv with h1 | h2
          · exact hcoh kv h1
          · exact internalKVs_coh sc ikvs hik kv h2
        refine ⟨_, rfl, by rw [ht], ?_⟩
        intro kv c hmem
        have hc : c = sc.memoset.count kv := hrc kv c hmem
        have hcount : countOcc (TEvent.ins kv)
            (sc.toplevel_insertions.map TEvent.ins ++ blocks.flatten) =
            sc.memoset.count kv := by
          rw [countOcc_append, countOcc_map_ins, countOcc_flatten]
          have hf₂ : List.Forall₂ (fun j bl =>
              countOcc (TEvent.ins kv) bl =
                (fun j' => (((newFirstKeys []
                  (sc.toplevel_insertions ++ ikvs)).filter
                  (fun k => decide (keyIdx? I k = some j'))).map
                  (insCountDep I sc kv)).sum) j)
              (List.range I.count) blocks := by
            refine (mapMO_forall₂ hbl).imp ?_
            intro j bl hjf
            exact countOcc_indexBlock I sc _ st hst hcohL htr kv j bl hjf
          rw [map_eq_of_forall₂ hf₂, sum_filter_fam I (insCountDep I sc kv)
            (newFirstKeys [] (sc.toplevel_insertions ++ ikvs)) I.count]
          exact (hwf kv).symm
        rw [hcount]
        exact hc

theorem count_eq_countOcc [DecidableEq α] (k : α) (A : List α) :
    List.count k A = countOcc k A := by
  induction A with
  | nil => rfl
  | cons a as ih =>
    rw [List.count_cons, countOcc_cons, ih]
    by_cases h : a = k
    · simp [h]
    · simp [h]

/-- The internal-insertion records derivable from the recorded dependencies
of key `k`. -/
def depRecords [Field F] [DecidableEq F] (I : QueryIface F Q)
    (sc : Scope F Q) (k : Ptr F) : List (Ptr F) :=
  match lookupA sc.dependencies k with
  | none => []
  | some deps => deps.filterMap (fun dep =>
      (lookupA sc.queries (I.toPtr dep)).map
        (Transcript.make_kv (I.toPtr dep)))

theorem filter_len_eq_countOcc [Field F] [DecidableEq F]
    (I : QueryIface F Q) (sc : Scope F Q) (kv : Ptr F) :
    ∀ (deps : List Q),
      (deps.filter (fun dep =>
        match lookupA sc.queries (I.toPtr dep) with
        | some v => decide (Transcript.make_kv (I.toPtr dep) v = kv)
        | none => false)).length =
      countOcc kv (deps.filterMap (fun dep =>
        (lookupA sc.queries (I.toPtr dep)).map
          (Transcript.make_kv (I.toPtr dep)))) := by
  intro deps
  induction deps with
  | nil => rfl
  | cons d ds ih =>
    rw [List.filter_cons, List.filterMap_cons]
    cases hq : lookupA sc.queries (I.toPtr d) with
    | none =>
      simp only [hq, Option.map_none']
      exact ih
    | some v =>
      simp only [hq, Option.map_some']
      by_cases hmk : Transcript.make_kv (I.toPtr d) v = kv
      · rw [if_pos (by simp [hmk]), List.length_cons, countOcc_cons,
          if_pos hmk, ih]
      · rw [if_neg (by simp [hmk]), countOcc_cons, if_neg hmk, ih]
        omega

theorem insCountDep_eq_countOcc [Field F] [DecidableEq F]
    (I : QueryIface F Q) (sc : Scope F Q) (kv k : Ptr F) :
    insCountDep I sc kv k = countOcc kv (depRecords I sc k) := by
  unfold insCountDep depRecords
  cases hdep : lookupA sc.dependencies k with
  | none => rfl
  | some deps => exact filter_len_eq_countOcc I sc kv deps

theorem sum_insCountDep_eq [Field F] [DecidableEq F] (I : QueryIface F Q)
    (sc : Scope F Q) (kv : Ptr F) (nf : List (Ptr F)) :
    countOcc kv sc.toplevel_insertions +
      ((nf.map (insCountDep I sc kv)).sum) =
    countOcc kv (sc.toplevel_insertions ++
      (nf.map (depRecords I sc)).flatten) := by
  rw [countOcc_append, countOcc_flatten, List.map_map]
  have hmc : nf.map (insCountDep I sc kv) =
      nf.map (countOcc kv ∘ depRecords I sc) := by
    apply List.map_congr_left
    intro k _
    exact insCountDep_eq_countOcc I sc kv k
  rw [hmc]

/-- The internal insertion records of the demo scope. -/
def demoIK4 : List (Ptr Fw) :=
  (internalKVs demoScope4).getD []

/-- Witness for the amended C1 at the concrete factorial demo scope. -/
theorem multiplicity_faithfulness_witness :
    ∃ es, Scope.transcriptEvents (demoIface Fw) demoScope4 =
        some (es, demoBT5.2) ∧
      demoBT5.1.acc = consEvents es Ptr.nil ∧
      ∀ kv c, TEvent.rem kv c ∈ es →
        c = countOcc (TEvent.ins kv) es :=
  multiplicity_faithfulness (demoIface Fw) demoScope4 demoBT5.1 demoBT5.2
    demoIK4 rfl
    (by
      intro kv hkv
      have hl : demoScope4.toplevel_insertions =
          [Ptr.cons (Ptr.cons (Ptr.sym ["lurk", "user", "factorial"])
            (Ptr.num 4)) (Ptr.num 24)] := rfl
      rw [hl] at hkv
      rcases List.mem_singleton.mp hkv with rfl
      exact ⟨_, _, rfl, rfl⟩)
    rfl
    (by
      intro kv
      have h1 : demoScope4.memoset.count kv =
          countOcc kv demoScope4.memoset.multiset :=
        count_eq_countOcc kv demoScope4.memoset.multiset
      rw [h1, sum_insCountDep_eq]
      rfl)
    rfl

/-- The demo scope reached by the top-level query `(factorial . 4)` on a
fresh scope with `transcribe_internal_insertions = false`. -/
def demoScope4nt : Scope Fw (DemoQuery Fw) :=
  ((Scope.query (demoIface Fw) 10 (Scope.new Fw (DemoQuery Fw) false 1)
    (factForm 4)).map Prod.snd).getD (Scope.new Fw (DemoQuery Fw) false 1)

/-- The emission sequence and unique-key table of the transcript built on
`demoScope4nt`. -/
def demoTE1 : List (TEvent Fw) × List (Nat × List (Ptr Fw)) :=
  (Scope.transcriptEvents (demoIface Fw) demoScope4nt).getD ([], [])

/-- C1 counterexample: on a scope with
`transcribe_internal_insertions = false`, the built transcript's removal
record for the internal record `((factorial . 3) . 6)` embeds count 1, yet
the same transcript holds zero insertion records referencing that record:
multiplicity faithfulness fails for that setting of
`transcribe_internal_insertions`. -/
theorem multiplicity_faithfulness_cex :
    demoScope4nt.transcribe_internal_insertions = false ∧
    Scope.transcriptEvents (demoIface Fw) demoScope4nt =
      some (demoTE1.1, demoTE1.2) ∧
    Scope.build_transcript (demoIface Fw) demoScope4nt =
      some (⟨consEvents demoTE1.1 Ptr.nil⟩, demoTE1.2) ∧
    TEvent.rem (Ptr.cons (Ptr.cons (Ptr.sym ["lurk", "user", "factorial"])
      (Ptr.num 3)) (Ptr.num 6)) 1 ∈ demoTE1.1 ∧
    countOcc (TEvent.ins (Ptr.cons (Ptr.cons
      (Ptr.sym ["lurk", "user", "factorial"]) (Ptr.num 3))
      (Ptr.num 6))) demoTE1.1 = 0 := by
  refine ⟨rfl, rfl, rfl, ?_, ?_⟩
  · decide
  · decide

/-! ## The circuit pass, at the value level of the allocated wires

`AllocatedPtr` is modelled by its content-addressed value (`Ptr`),
`AllocatedNum` by its field value, and `SynthesisError` by `none`. -/

/-- `CircuitScope<F, LogMemoCircuit<F>>`: the circuit-side scope.  The
`LogMemoCircuit` component is inlined as `multiset` and the `r` wire. -/
structure CircuitScopeV (F : Type) where
  queries : List (Ptr F × Ptr F)
  transcript : Ptr F
  acc : Option (Ptr F)
  transcribe_internal_insertions : Bool
  multiset : MultiSet F
  r : F

/-- `LogMemoCircuit::synthesize_map_to_element`: `1/(r + x)`; the `invert`
gadget has no valid assignment when `r + x = 0`. -/
def synthesize_map_to_element [Field F] [DecidableEq F] (r x : F) :
    Option F :=
  invertF (r + x)

/-- `LogMemoCircuit::synthesize_add`. -/
def synthesize_add [Field F] [DecidableEq F] (r acc : F) (kv : Ptr F) :
    Option F :=
  (synthesize_map_to_element r kv.hashVal).map (fun element => acc + element)

/-- `LogMemoCircuit::synthesize_remove_n`. -/
def synthesize_remove_n [Field F] [DecidableEq F] (r acc : F) (kv : Ptr F)
    (count : F) : Option F :=
  (synthesize_map_to_element r kv.hashVal).map
    (fun element => acc - element * count)

/-- `CircuitScope::from_queries` (hashing the query table is the identity
on content-addressed pointers). -/
def CircuitScopeV.from_queries [Field F] (queries : List (Ptr F × Ptr F))
    (multiset : MultiSet F) (r : F) (transcribe : Bool) :
    CircuitScopeV F :=
  ⟨queries, Ptr.nil, none, transcribe, multiset, r⟩

/-- `CircuitScope::init`: allocate `acc = num 0` and an empty transcript. -/
def CircuitScopeV.init [Field F] (c : CircuitScopeV F) : CircuitScopeV F :=
  { c with acc := some (Ptr.num 0), transcript := Ptr.nil }

/-- `CircuitScope::io` (`acc.unwrap()` panics when `acc` is unset). -/
def CircuitScopeV.io [Field F] (c : CircuitScopeV F) :
    Option (Ptr F × Ptr F × F) :=
  c.acc.map (fun a => (a, c.transcript, c.r))

/-- `CircuitScope::update_from_io`. -/
def CircuitScopeV.update_from_io [Field F] (c : CircuitScopeV F)
    (acc t rp : Ptr F) : CircuitScopeV F :=
  { c with acc := some acc, transcript := t, r := rp.hashVal }

/-- `CircuitScope::synthesize_insert_query`. -/
def CircuitScopeV.synthesize_insert_query [Field F] [DecidableEq F]
    (c : CircuitScopeV F) (acc t key value : Ptr F) (is_toplevel : Bool) :
    Option (Ptr F × Ptr F) := do
  let kv := Ptr.cons key value
  let new_transcript :=
    if is_toplevel || c.transcribe_internal_insertions
    then Ptr.cons kv t else t
  let new_acc_v ← synthesize_add c.r acc.hashVal kv
  pure (Ptr.num new_acc_v, new_transcript)

/-- `CircuitScope::synthesize_remove`: the count wire is the (finalized)
native multiset count, supplied by the prover. -/
def CircuitScopeV.synthesize_remove [Field F] [DecidableEq F]
    (c : CircuitScopeV F) (acc t key value : Ptr F) :
    Option (Ptr F × Ptr F) := do
  let kv := Ptr.cons key value
  let count : F := (c.multiset.get kv : F)
  let new_transcript := Ptr.cons (Ptr.cons kv (Ptr.num count)) t
  let new_acc_v ← synthesize_remove_n c.r acc.hashVal kv count
  pure (Ptr.num new_acc_v, new_transcript)

/-- `CircuitScope::synthesize_query_aux`: non-deterministically allocate
`value = queries[key]` when `not_dummy` (a missing entry is
`AssignmentMissing`), else nil; then insert. -/
def CircuitScopeV.synthesize_query_aux [Field F] [DecidableEq F]
    (c : CircuitScopeV F) (key acc t : Ptr F)
    (not_dummy is_toplevel : Bool) : Option (Ptr F × Ptr F × Ptr F) := do
  let value ← if not_dummy then lookupA c.queries key else some Ptr.nil
  let (new_acc, new_t) ← c.synthesize_insert_query acc t key value
    is_toplevel
  pure (value, new_acc, new_t)

/-- `CircuitScope::synthesize_query`. -/
def CircuitScopeV.synthesize_query [Field F] [DecidableEq F]
    (c : CircuitScopeV F) (key acc t : Ptr F) (not_dummy : Bool) :
    Option (Ptr F × Ptr F × Ptr F) :=
  c.synthesize_query_aux key acc t not_dummy true

/-- `CircuitScope::synthesize_internal_query`. -/
def CircuitScopeV.synthesize_internal_query [Field F] [DecidableEq F]
    (c : CircuitScopeV F) (key acc t : Ptr F) (not_dummy : Bool) :
    Option (Ptr F × Ptr F × Ptr F) :=
  c.synthesize_query_aux key acc t not_dummy false

/-- `CircuitScope::synthesize_toplevel_query`: split the kv (panic when it
is not a cons), run a top-level query, check the allocated value against
the recorded one (`assert_eq!`), and install the new state. -/
def CircuitScopeV.synthesize_toplevel_query [Field F] [DecidableEq F]
    (c : CircuitScopeV F) (kv : Ptr F) : Option (CircuitScopeV F) :=
  match kv with
  | Ptr.cons key value => do
    let acc ← c.acc
    let (val, new_acc, new_t) ← c.synthesize_query key acc c.transcript
      true
    if val = value then
      pure { c with acc := some new_acc, transcript := new_t }
    else none
  | _ => none

/-- `CircuitScope::synthesize_insert_toplevel_queries`. -/
def CircuitScopeV.synthesize_insert_toplevel_queries [Field F]
    [DecidableEq F] (c : CircuitScopeV F) (kvs : List (Ptr F)) :
    Option (CircuitScopeV F) :=
  foldlMO (fun c kv => CircuitScopeV.synthesize_toplevel_query c kv) c kvs

/-- The circuit-side interface of a query family: `CircuitQuery::from_ptr`,
`dummy_from_index` and `synthesize_eval` at the value level. -/
structure CircuitIface (F Q : Type) where
  cFromPtr : Ptr F → Option Q
  cDummy : Nat → Q
  cSynthEval : Q → CircuitScopeV F → Ptr F → Ptr F →
    Option (Ptr F × Ptr F × Ptr F)

/-- `CircuitScope::synthesize_prove_query`: evaluate, remove the resulting
kv, and multiplex both results against the previous state on `not_dummy`. -/
def CircuitScopeV.synthesize_prove_query [Field F] [DecidableEq F]
    (CI : CircuitIface F CQ) (c : CircuitScopeV F) (allocated_key : Ptr F)
    (cq : CQ) (not_dummy : Bool) : Option (CircuitScopeV F) := do
  let acc ← c.acc
  let transcript := c.transcript
  let (val, new_acc, new_transcript) ← CI.cSynthEval cq c acc transcript
  let (new_acc₂, new_transcript₂) ← c.synthesize_remove new_acc
    new_transcript allocated_key val
  let final_acc := if not_dummy then new_acc₂ else acc
  let final_transcript := if not_dummy then new_transcript₂ else transcript
  pure { c with acc := some final_acc, transcript := final_transcript }

/-- `CircuitScope::synthesize_prove_key_query`: allocate the key (nil for a
dummy), build a circuit query from it or a family dummy, and prove under
`not_dummy = key.isSome`. -/
def CircuitScopeV.synthesize_prove_key_query [Field F] [DecidableEq F]
    (CI : CircuitIface F CQ) (c : CircuitScopeV F) (key : Option (Ptr F))
    (index : Nat) : Option (CircuitScopeV F) := do
  let allocated_key := key.getD Ptr.nil
  let cq ← match key with
    | some k => CI.cFromPtr k
    | none => some (CI.cDummy index)
  CircuitScopeV.synthesize_prove_query CI c allocated_key cq key.isSome

/-- `CoroutineCircuit::synthesize`: one fold step over the six z wires;
`keys.len() <= rc` is asserted at construction and the keys are padded to
width `rc` with dummies. -/
def coroutineSynthesize [Field F] [DecidableEq F] (CI : CircuitIface F CQ)
    (queries : List (Ptr F × Ptr F)) (multiset : MultiSet F)
    (transcribe : Bool) (keys : List (Ptr F)) (query_index rc : Nat)
    (z : List (Ptr F)) : Option (List (Ptr F)) :=
  if keys.length ≤ rc then
    match z with
    | [c0, e0, k0, memoset_acc, transcript, r] => do
      let cs₀ := CircuitScopeV.from_queries queries multiset 0 transcribe
      let cs₁ := cs₀.update_from_io memoset_acc transcript r
      let padded := keys.map some ++
        List.replicate (rc - keys.length) (none : Option (Ptr F))
      let cs₂ ← foldlMO (fun c key =>
        CircuitScopeV.synthesize_prove_key_query CI c key query_index)
        cs₁ padded
      let (acc', t', r') ← cs₂.io
      pure [c0, e0, k0, acc', t', Ptr.num r']
    | _ => none
  else none

/-- `keys.chunks(rc)`, through structural fuel (the list length bounds
the number of chunks). -/
def chunksOfAux (n : Nat) : Nat → List α → List (List α)
  | _, [] => []
  | 0, _ :: _ => []
  | fuel + 1, a :: l =>
    (a :: l.take (n - 1)) :: chunksOfAux n fuel (l.drop (n - 1))

/-- `keys.chunks(rc)`. -/
def chunksOf (n : Nat) (l : List α) : List (List α) :=
  chunksOfAux n l.length l

/-- `Scope::synthesize`: the circuit pass.  The removal phase iterates
`self.unique_inserted_keys.iter()`, a `HashMap` whose iteration order is
unspecified; that order is passed explicitly as `enum`. -/
def Scope.synthesizeV [Field F] [DecidableEq F] (I : QueryIface F Q)
    (CI : CircuitIface F CQ) (sc : Scope F Q)
    (enum : List (Nat × List (Ptr F))) : Option (CircuitScopeV F) := do
  let sc' ← Scope.ensure_transcript_finalized I sc
  let r ← sc'.memoset.r
  let cs₀ := CircuitScopeV.from_queries sc'.queries sc'.memoset.multiset r
    sc'.transcribe_internal_insertions
  let cs₁ := cs₀.init
  let cs₂ ← cs₁.synthesize_insert_toplevel_queries sc'.toplevel_insertions
  let (acc0, t0, r0) ← cs₂.io
  let zfin ← foldlMO (fun z p =>
      foldlMO (fun z chunk =>
          coroutineSynthesize CI sc'.queries sc'.memoset.multiset
            sc'.transcribe_internal_insertions chunk p.1 sc'.default_rc z)
        z (chunksOf sc'.default_rc p.2))
    ([Ptr.nil, Ptr.nil, Ptr.nil, acc0, t0, Ptr.num r0]) enum
  match zfin with
  | [_, _, _, acc', t', rp] => pure (cs₂.update_from_io acc' t' rp)
  | _ => none

/-- `CircuitScope::finalize` adds the constraints
`transcript.r == memoset.r` and `acc == 0`; this predicate is their
satisfaction. -/
def CircuitScopeV.finalize_ok [Field F] [DecidableEq F]
    (c : CircuitScopeV F) : Prop :=
  c.transcript.hashVal = c.r ∧ (c.acc.map Ptr.hashVal) = some 0

/-- C7: `CoroutineCircuit::synthesize` requires an input vector `z` of
exactly six wires `[c, e, k, memoset_acc, transcript, r]` (anything else
fails); on success the wires `c`, `e`, `k` pass through to `z_out`
unchanged, and only the last three components (accumulator, transcript,
`r`) are updated. -/
theorem coroutine_frame [Field F] [DecidableEq F] (CI : CircuitIface F CQ)
    (queries : List (Ptr F × Ptr F)) (multiset : MultiSet F)
    (transcribe : Bool) (keys : List (Ptr F)) (query_index rc : Nat)
    (z : List (Ptr F)) :
    (z.length ≠ 6 →
      coroutineSynthesize CI queries multiset transcribe keys query_index
        rc z = none) ∧
    ∀ zOut, coroutineSynthesize CI queries multiset transcribe keys
        query_index rc z = some zOut →
      ∃ c0 e0 k0 acc t r acc' t' r',
        z = [c0, e0, k0, acc, t, r] ∧
        zOut = [c0, e0, k0, acc', t', Ptr.num r'] := by
  unfold coroutineSynthesize
  by_cases hlen : keys.length ≤ rc
  · rw [if_pos hlen]
    rcases z with - | ⟨a, - | ⟨b, - | ⟨c, - | ⟨d, - | ⟨e, - | ⟨f, - | ⟨g, rest⟩⟩⟩⟩⟩⟩⟩
    · exact ⟨fun _ => rfl, fun zOut h => by cases h⟩
    · exact ⟨fun _ => rfl, fun zOut h => by cases h⟩
    · exact ⟨fun _ => rfl, fun zOut h => by cases h⟩
    · exact ⟨fun _ => rfl, fun zOut h => by cases h⟩
    · exact ⟨fun _ => rfl, fun zOut h => by cases h⟩
    · exact ⟨fun _ => rfl, fun zOut h => by cases h⟩
    · refine ⟨fun h6 => absurd rfl h6, ?_⟩
      intro zOut h
      have h' : (do
          let cs₂ ← foldlMO (fun c key =>
            CircuitScopeV.synthesize_prove_key_query CI c key query_index)
            ((CircuitScopeV.from_queries queries multiset 0
              transcribe).update_from_io d e f)
            (keys.map some ++
              List.replicate (rc - keys.length) (none : Option (Ptr F)))
          let p ← cs₂.io
          pure [a, b, c, p.1, p.2.1, Ptr.num p.2.2]) = some zOut := h
      cases hfold : foldlMO (fun c key =>
          CircuitScopeV.synthesize_prove_key_query CI c key query_index)
          ((CircuitScopeV.from_queries queries multiset 0
            transcribe).update_from_io d e f)
          (keys.map some ++
            List.replicate (rc - keys.length) (none : Option (Ptr F))) with
      | none => rw [hfold, bind_noneO] at h'; cases h'
      | some cs₂ =>
        rw [hfold, bind_someO] at h'
        cases hio : cs₂.io with
        | none => rw [hio, bind_noneO] at h'; cases h'
        | some p =>
          obtain ⟨acc', t', r'⟩ := p
          rw [hio, bind_someO] at h'
          have hz : some [a, b, c, acc', t', Ptr.num r'] = some zOut := h'
          have hz' : zOut = [a, b, c, acc', t', Ptr.num r'] :=
            (Option.some.inj hz).symm
          exact ⟨a, b, c, d, e, f, acc', t', r', rfl, hz'⟩
    · exact ⟨fun _ => rfl, fun zOut h => by cases h⟩
  · rw [if_neg hlen]
    exact ⟨fun _ => rfl, fun zOut h => by cases h⟩

/-- A degenerate single-family circuit interface used to exercise the
coroutine wiring. -/
def unitCI : CircuitIface Fw Unit :=
  ⟨fun _ => some (), fun _ => (), fun _ _ acc t => some (Ptr.nil, acc, t)⟩

/-- A six-wire input vector. -/
def unitZ : List (Ptr Fw) :=
  [Ptr.nil, Ptr.sym ["e"], Ptr.num 7, Ptr.num 0, Ptr.nil, Ptr.num 1]

/-- The coroutine output on `unitZ` with no keys (one dummy). -/
def unitZOut : List (Ptr Fw) :=
  (coroutineSynthesize unitCI [] [] true [] 0 1 unitZ).getD []

/-- Witness for C7: a three-wire input fails, and a six-wire run carries
the first three wires through unchanged. -/
theorem coroutine_frame_witness :
    (coroutineSynthesize unitCI [] [] true [] 0 1
      [Ptr.nil, Ptr.nil, Ptr.nil] = none) ∧
    ∃ c0 e0 k0 acc t r acc' t' r',
      unitZ = [c0, e0, k0, acc, t, r] ∧
      unitZOut = [c0, e0, k0, acc', t', Ptr.num r'] :=
  ⟨(coroutine_frame unitCI [] [] true [] 0 1
      [Ptr.nil, Ptr.nil, Ptr.nil]).1 (by decide),
   (coroutine_frame unitCI [] [] true [] 0 1 unitZ).2 unitZOut rfl⟩

/-- The circuit-scope fields that stay fixed across the removal phase:
query table, transcription flag, multiset and the `r` wire. -/
def goodC [Field F] (sc' : Scope F Q) (r : F) (c : CircuitScopeV F) :
    Prop :=
  c.queries = sc'.queries ∧
  c.transcribe_internal_insertions = sc'.transcribe_internal_insertions ∧
  c.multiset = sc'.memoset.multiset ∧
  c.r = r

/-- The per-family contract of `CircuitQuery::synthesize_eval`: on a real
(non-dummy) query it returns the memoized value and appends exactly the
dependency insertion records the native pass emits for that key. -/
def evalContract [Field F] [DecidableEq F] (I : QueryIface F Q)
    (CI : CircuitIface F CQ) (sc' : Scope F Q) (r : F) : Prop :=
  ∀ c : CircuitScopeV F, goodC sc' r c →
    ∀ k v cq, lookupA sc'.queries k = some v → CI.cFromPtr k = some cq →
      ∀ ds, depEvents I sc' k = some ds →
        ∀ acc t₀, ∃ acc', CI.cSynthEval cq c acc t₀ =
          some (v, acc', consEvents ds t₀)

/-- The dummy contract: padding queries synthesize without error (their
results are multiplexed away). -/
def dummyContract [Field F] [DecidableEq F]
    (CI : CircuitIface F CQ) (sc' : Scope F Q) (r : F) : Prop :=
  ∀ c : CircuitScopeV F, goodC sc' r c → ∀ i acc t₀,
    ∃ val acc' t', CI.cSynthEval (CI.cDummy i) c acc t₀ =
      some (val, acc', t') ∧
      (CircuitScopeV.synthesize_remove c acc' t' Ptr.nil val).isSome = true

/-- What the removal phase needs of a processed key. -/
def keyFacts [Field F] [DecidableEq F] (I : QueryIface F Q)
    (CI : CircuitIface F CQ) (sc' : Scope F Q) (r : F) (k : Ptr F) :
    Prop :=
  ∃ v cq ds, lookupA sc'.queries k = some v ∧ CI.cFromPtr k = some cq ∧
    depEvents I sc' k = some ds ∧
    invertF (r + (Ptr.cons k v).hashVal) ≠ none

/-- The emission block of one proved key: its dependency insertions, then
its removal record. -/
def provedKeyEvents [Field F] [DecidableEq F] (I : QueryIface F Q)
    (sc' : Scope F Q) (k : Ptr F) : List (TEvent F) :=
  match lookupA sc'.queries k, depEvents I sc' k with
  | some v, some ds =>
    ds ++ [TEvent.rem (Ptr.cons k v) (sc'.memoset.count (Ptr.cons k v))]
  | _, _ => []

theorem prove_key_step [Field F] [DecidableEq F] (I : QueryIface F Q)
    (CI : CircuitIface F CQ) (sc' : Scope F Q) (r : F)
    (hev : evalContract I CI sc' r)
    (c : CircuitScopeV F) (hg : goodC sc' r c)
    (A : Ptr F) (hacc : c.acc = some A)
    (k : Ptr F) (hk : keyFacts I CI sc' r k) (i : Nat) :
    ∃ A', CircuitScopeV.synthesize_prove_key_query CI c (some k) i =
      some { c with
        acc := some A'
        transcript :=
          consEvents (provedKeyEvents I sc' k) c.transcript } := by
  obtain ⟨v, cq, ds, hkv, hcq, hds, hinv⟩ := hk
  obtain ⟨acc', heval⟩ := hev c hg k v cq hkv hcq ds hds A c.transcript
  cases hel : invertF (r + (Ptr.cons k v).hashVal) with
  | none => exact absurd hel hinv
  | some el =>
    refine ⟨Ptr.num (acc'.hashVal -
      el * ((sc'.memoset.count (Ptr.cons k v) : Nat) : F)), ?_⟩
    have step1 : CircuitScopeV.synthesize_prove_key_query CI c (some k) i =
        (CI.cFromPtr k >>= fun cq' =>
          CircuitScopeV.synthesize_prove_query CI c k cq' true) := rfl
    rw [step1, hcq, bind_someO]
    have step2 : CircuitScopeV.synthesize_prove_query CI c k cq true =
        (c.acc >>= fun acc =>
          (CI.cSynthEval cq c acc c.transcript >>= fun p =>
            (CircuitScopeV.synthesize_remove c p.2.1 p.2.2 k p.1 >>=
              fun q => pure { c with
                acc := some q.1
                transcript := q.2 }))) := rfl
    rw [step2, hacc, bind_someO, heval, bind_someO]
    have step3 : CircuitScopeV.synthesize_remove c acc'
        (consEvents ds c.transcript) k v =
        ((invertF (c.r + (Ptr.cons k v).hashVal)).map
          (fun e => acc'.hashVal -
            e * ((c.multiset.get (Ptr.cons k v) : Nat) : F)) >>=
          fun nv => pure (Ptr.num nv,
            Ptr.cons (Ptr.cons (Ptr.cons k v)
              (Ptr.num ((c.multiset.get (Ptr.cons k v) : Nat) : F)))
              (consEvents ds c.transcript))) := rfl
    rw [step3, hg.2.2.2, hel]
    have hms : c.multiset = sc'.memoset.multiset := hg.2.2.1
    rw [hms]
    have hpke : provedKeyEvents I sc' k =
        ds ++ [TEvent.rem (Ptr.cons k v)
          (sc'.memoset.count (Ptr.cons k v))] := by
      unfold provedKeyEvents
      rw [hkv, hds]
    rw [hpke, consEvents_append]
    rfl

theorem prove_key_dummy [Field F] [DecidableEq F]
    (CI : CircuitIface F CQ) (sc' : Scope F Q) (r : F)
    (hdum : dummyContract CI sc' r)
    (c : CircuitScopeV F) (hg : goodC sc' r c)
    (A : Ptr F) (hacc : c.acc = some A) (i : Nat) :
    CircuitScopeV.synthesize_prove_key_query CI c none i = some c := by
  obtain ⟨val, acc', t', heval, hrem⟩ := hdum c hg i A c.transcript
  have step1 : CircuitScopeV.synthesize_prove_key_query CI c none i =
      CircuitScopeV.synthesize_prove_query CI c Ptr.nil (CI.cDummy i)
        false := rfl
  rw [step1]
  have step2 : CircuitScopeV.synthesize_prove_query CI c Ptr.nil
      (CI.cDummy i) false =
      (c.acc >>= fun acc =>
        (CI.cSynthEval (CI.cDummy i) c acc c.transcript >>= fun p =>
          (CircuitScopeV.synthesize_remove c p.2.1 p.2.2 Ptr.nil p.1 >>=
            fun _ => pure { c with
              acc := some acc
              transcript := c.transcript }))) := rfl
  rw [step2, hacc, bind_someO, heval, bind_someO]
  show (CircuitScopeV.synthesize_remove c acc' t' Ptr.nil val >>=
    fun _ => pure { c with
      acc := some A
      transcript := c.transcript }) = some c
  cases hremv : CircuitScopeV.synthesize_remove c acc' t' Ptr.nil val with
  | none => rw [hremv] at hrem; cases hrem
  | some q =>
    rw [bind_someO]
    have hc : { c with
        acc := some A
        transcript := c.transcript } = c := by
      rw [← hacc]
    rw [hc]
    rfl

theorem fold_prove_keys [Field F] [DecidableEq F] (I : QueryIface F Q)
    (CI : CircuitIface F CQ) (sc' : Scope F Q) (r : F)
    (hev : evalContract I CI sc' r) (hdum : dummyContract CI sc' r)
    (i : Nat) :
    ∀ (ks : List (Option (Ptr F))) (c : CircuitScopeV F),
      goodC sc' r c → ∀ A, c.acc = some A →
      (∀ k ∈ ks.filterMap id, keyFacts I CI sc' r k) →
      ∃ A', foldlMO (fun c key =>
          CircuitScopeV.synthesize_prove_key_query CI c key i) c ks =
        some { c with
          acc := some A'
          transcript := consEvents
            (((ks.filterMap id).map (provedKeyEvents I sc')).flatten)
            c.transcript } := by
  intro ks
  induction ks with
  | nil =>
    intro c hg A hacc hf
    refine ⟨A, ?_⟩
    show some c = _
    rw [← hacc]
    rfl
  | cons k? ks ih =>
    intro c hg A hacc hf
    cases k? with
    | none =>
      rw [foldlMO, prove_key_dummy CI sc' r hdum c hg A hacc i]
      have hfm : (none :: ks).filterMap (id : Option (Ptr F) → Option (Ptr F))
          = ks.filterMap id := rfl
      rw [hfm]
      exact ih c hg A hacc (by rw [← hfm]; exact hf)
    | some k =>
      have hkf : keyFacts I CI sc' r k := by
        apply hf
        show k ∈ (some k :: ks).filterMap id
        rw [show (some k :: ks).filterMap (id : Option (Ptr F) →
          Option (Ptr F)) = k :: ks.filterMap id from rfl]
        exact List.mem_cons_self _ _
      obtain ⟨A₁, hstep⟩ := prove_key_step I CI sc' r hev c hg A hacc k hkf i
      rw [foldlMO, hstep]
      have hg₁ : goodC sc' r { c with
          acc := some A₁
          transcript := consEvents (provedKeyEvents I sc' k)
            c.transcript } := hg
      obtain ⟨A₂, hfold⟩ := ih _ hg₁ A₁ rfl (by
        intro k' hk'
        apply hf
        show k' ∈ (some k :: ks).filterMap id
        rw [show (some k :: ks).filterMap (id : Option (Ptr F) →
          Option (Ptr F)) = k :: ks.filterMap id from rfl]
        exact List.mem_cons_of_mem _ hk')
      refine ⟨A₂, ?_⟩
      show foldlMO (fun c key =>
          CircuitScopeV.synthesize_prove_key_query CI c key i)
        { c with
          acc := some A₁
          transcript := consEvents (provedKeyEvents I sc' k)
            c.transcript } ks = _
      rw [hfold]
      rw [show (some k :: ks).filterMap (id : Option (Ptr F) →
        Option (Ptr F)) = k :: ks.filterMap id from rfl]
      rw [List.map_cons, List.flatten_cons, consEvents_append]

theorem filterMap_id_padded {α : Type} (l : List α) (n : Nat) :
    (l.map some ++ List.replicate n none).filterMap id = l := by
  rw [List.filterMap_append]
  have h1 : (l.map some).filterMap id = l := by
    induction l with
    | nil => rfl
    | cons a l ih =>
      rw [List.map_cons]
      show a :: (l.map some).filterMap id = a :: l
      rw [ih]
  have h2 : (List.replicate n (none : Option α)).filterMap id = [] := by
    induction n with
    | zero => rfl
    | succ n ih =>
      rw [List.replicate_succ]
      show (List.replicate n (none : Option α)).filterMap id = []
      exact ih
  rw [h1, h2, List.append_nil]

theorem coroutine_chunk [Field F] [DecidableEq F] (I : QueryIface F Q)
    (CI : CircuitIface F CQ) (sc' : Scope F Q) (r : F)
    (hev : evalContract I CI sc' r) (hdum : dummyContract CI sc' r)
    (i rc : Nat) (chunk : List (Ptr F)) (hlen : chunk.length ≤ rc)
    (hfacts : ∀ k ∈ chunk, keyFacts I CI sc' r k)
    (x y w A T : Ptr F) :
    ∃ A', coroutineSynthesize CI sc'.queries sc'.memoset.multiset
        sc'.transcribe_internal_insertions chunk i rc
        [x, y, w, A, T, Ptr.num r] =
      some [x, y, w, A',
        consEvents ((chunk.map (provedKeyEvents I sc')).flatten) T,
        Ptr.num r] := by
  have hg : goodC sc' r ((CircuitScopeV.from_queries sc'.queries
      sc'.memoset.multiset 0 sc'.transcribe_internal_insertions
      ).update_from_io A T (Ptr.num r)) := ⟨rfl, rfl, rfl, rfl⟩
  obtain ⟨A', hfold⟩ := fold_prove_keys I CI sc' r hev hdum i
    (chunk.map some ++ List.replicate (rc - chunk.length)
      (none : Option (Ptr F)))
    _ hg A rfl
    (by
      rw [filterMap_id_padded]
      exact hfacts)
  refine ⟨A', ?_⟩
  unfold coroutineSynthesize
  rw [if_pos hlen]
  show (do
    let cs₂ ← foldlMO (fun c key =>
      CircuitScopeV.synthesize_prove_key_query CI c key i)
      ((CircuitScopeV.from_queries sc'.queries sc'.memoset.multiset 0
        sc'.transcribe_internal_insertions).update_from_io A T (Ptr.num r))
      (chunk.map some ++ List.replicate (rc - chunk.length)
        (none : Option (Ptr F)))
    let p ← cs₂.io
    pure [x, y, w, p.1, p.2.1, Ptr.num p.2.2]) = _
  rw [hfold, bind_someO]
  have hfm : (chunk.map some ++ List.replicate (rc - chunk.length)
      (none : Option (Ptr F))).filterMap id = chunk :=
    filterMap_id_padded chunk _
  rw [hfm]
  rfl

theorem chunksOfAux_flatten {α : Type} (n : Nat) :
    ∀ (fuel : Nat) (l : List α), l.length ≤ fuel →
      (chunksOfAux n fuel l).flatten = l := by
  intro fuel
  induction fuel with
  | zero =>
    intro l hl
    cases l with
    | nil => rfl
    | cons a t => simp at hl
  | succ fuel ih =>
    intro l hl
    cases l with
    | nil => rfl
    | cons a t =>
      rw [chunksOfAux, List.flatten_cons]
      have hd : (t.drop (n - 1)).length ≤ fuel := by
        simp only [List.length_drop]
        simp only [List.length_cons] at hl
        omega
      rw [ih (t.drop (n - 1)) hd, List.cons_append,
        List.take_append_drop]

theorem chunksOf_flatten {α : Type} (n : Nat) (l : List α) :
    (chunksOf n l).flatten = l :=
  chunksOfAux_flatten n l.length l (Nat.le_refl _)

theorem chunksOfAux_mem_length {α : Type} (n : Nat) (hn : 1 ≤ n) :
    ∀ (fuel : Nat) (l : List α), ∀ ch ∈ chunksOfAux n fuel l,
      ch.length ≤ n := by
  intro fuel
  induction fuel with
  | zero =>
    intro l ch hch
    cases l with
    | nil => simp [chunksOfAux] at hch
    | cons a t => simp [chunksOfAux] at hch
  | succ fuel ih =>
    intro l ch hch
    cases l with
    | nil => simp [chunksOfAux] at hch
    | cons a t =>
      rw [chunksOfAux] at hch
      rcases List.mem_cons.mp hch with rfl | hch2
      · simp only [List.length_cons, List.length_take]
        omega
      · exact ih (t.drop (n - 1)) ch hch2

theorem chunksOf_mem_length {α : Type} (n : Nat) (hn : 1 ≤ n)
    (l : List α) : ∀ ch ∈ chunksOf n l, ch.length ≤ n :=
  chunksOfAux_mem_length n hn l.length l

theorem flatten_map_flatten {α β : Type} (f : α → List β) :
    ∀ (cl : List (List α)),
      (cl.map (fun ch => (ch.map f).flatten)).flatten =
        ((cl.flatten).map f).flatten := by
  intro cl
  induction cl with
  | nil => rfl
  | cons ch cl ih =>
    rw [List.map_cons, List.flatten_cons, ih, List.flatten_cons,
      List.map_append, List.flatten_append]

theorem coroutine_family [Field F] [DecidableEq F] (I : QueryIface F Q)
    (CI : CircuitIface F CQ) (sc' : Scope F Q) (r : F)
    (hev : evalContract I CI sc' r) (hdum : dummyContract CI sc' r)
    (i rc : Nat) (x y w : Ptr F) :
    ∀ (cl : List (List (Ptr F))),
      (∀ ch ∈ cl, ch.length ≤ rc ∧ ∀ k ∈ ch, keyFacts I CI sc' r k) →
      ∀ (A T : Ptr F),
      ∃ A', foldlMO (fun z chunk =>
          coroutineSynthesize CI sc'.queries sc'.memoset.multiset
            sc'.transcribe_internal_insertions chunk i rc z)
          [x, y, w, A, T, Ptr.num r] cl =
        some [x, y, w, A',
          consEvents ((cl.map (fun ch =>
            ((ch.map (provedKeyEvents I sc')).flatten))).flatten) T,
          Ptr.num r] := by
  intro cl
  induction cl with
  | nil =>
    intro h A T
    exact ⟨A, rfl⟩
  | cons ch cl ih =>
    intro h A T
    obtain ⟨A₁, hchunk⟩ := coroutine_chunk I CI sc' r hev hdum i rc ch
      (h ch (List.mem_cons_self _ _)).1 (h ch (List.mem_cons_self _ _)).2
      x y w A T
    obtain ⟨A₂, hrest⟩ := ih (fun ch' hch' =>
      h ch' (List.mem_cons_of_mem _ hch')) A₁
      (consEvents ((ch.map (provedKeyEvents I sc')).flatten) T)
    refine ⟨A₂, ?_⟩
    rw [foldlMO, hchunk]
    show foldlMO (fun z chunk =>
        coroutineSynthesize CI sc'.queries sc'.memoset.multiset
          sc'.transcribe_internal_insertions chunk i rc z)
      [x, y, w, A₁,
        consEvents ((ch.map (provedKeyEvents I sc')).flatten) T,
        Ptr.num r] cl = _
    rw [hrest, List.map_cons, List.flatten_cons, consEvents_append]

theorem coroutine_enum [Field F] [DecidableEq F] (I : QueryIface F Q)
    (CI : CircuitIface F CQ) (sc' : Scope F Q) (r : F)
    (hev : evalContract I CI sc' r) (hdum : dummyContract CI sc' r)
    (rc : Nat) (hrc : 1 ≤ rc) (x y w : Ptr F) :
    ∀ (entries : List (Nat × List (Ptr F))),
      (∀ p ∈ entries, ∀ k ∈ p.2, keyFacts I CI sc' r k) →
      ∀ (A T : Ptr F),
      ∃ A', foldlMO (fun z p =>
          foldlMO (fun z chunk =>
              coroutineSynthesize CI sc'.queries sc'.memoset.multiset
                sc'.transcribe_internal_insertions chunk p.1 rc z)
            z (chunksOf rc p.2))
          [x, y, w, A, T, Ptr.num r] entries =
        some [x, y, w, A',
          consEvents ((entries.map (fun p =>
            ((p.2.map (provedKeyEvents I sc')).flatten))).flatten) T,
          Ptr.num r] := by
  intro entries
  induction entries with
  | nil =>
    intro h A T
    exact ⟨A, rfl⟩
  | cons p entries ih =>
    intro h A T
    obtain ⟨A₁, hfam⟩ := coroutine_family I CI sc' r hev hdum p.1 rc
      x y w (chunksOf rc p.2)
      (fun ch hch => ⟨chunksOf_mem_length rc hrc p.2 ch hch,
        fun k hk => h p (List.mem_cons_self _ _) k (by
          rw [← chunksOf_flatten rc p.2]
          exact List.mem_flatten.mpr ⟨ch, hch, hk⟩)⟩)
      A T
    obtain ⟨A₂, hrest⟩ := ih (fun p' hp' =>
      h p' (List.mem_cons_of_mem _ hp')) A₁
      (consEvents (((chunksOf rc p.2).map (fun ch =>
        ((ch.map (provedKeyEvents I sc')).flatten))).flatten) T)
    refine ⟨A₂, ?_⟩
    rw [foldlMO, hfam]
    show foldlMO (fun z p =>
        foldlMO (fun z chunk =>
            coroutineSynthesize CI sc'.queries sc'.memoset.multiset
              sc'.transcribe_internal_insertions chunk p.1 rc z)
          z (chunksOf rc p.2))
      [x, y, w, A₁,
        consEvents (((chunksOf rc p.2).map (fun ch =>
          ((ch.map (provedKeyEvents I sc')).flatten))).flatten) T,
        Ptr.num r] entries = _
    rw [hrest, List.map_cons, List.flatten_cons, consEvents_append]
    rw [flatten_map_flatten (provedKeyEvents I sc') (chunksOf rc p.2),
      chunksOf_flatten]

theorem insert_query_eval [Field F] [DecidableEq F] (c : CircuitScopeV F)
    (acc t key value : Ptr F) (tl : Bool) (el : F)
    (hel : invertF (c.r + (Ptr.cons key value).hashVal) = some el) :
    c.synthesize_insert_query acc t key value tl =
      some (Ptr.num (acc.hashVal + el),
        if tl || c.transcribe_internal_insertions
        then Ptr.cons (Ptr.cons key value) t else t) := by
  show ((invertF (c.r + (Ptr.cons key value).hashVal)).map
      (fun element => acc.hashVal + element) >>= fun nv =>
    pure (Ptr.num nv,
      if tl || c.transcribe_internal_insertions
      then Ptr.cons (Ptr.cons key value) t else t)) = _
  rw [hel]
  rfl

theorem query_aux_eval [Field F] [DecidableEq F] (c : CircuitScopeV F)
    (key acc t value : Ptr F) (tl : Bool) (el : F)
    (hkv : lookupA c.queries key = some value)
    (hel : invertF (c.r + (Ptr.cons key value).hashVal) = some el) :
    c.synthesize_query_aux key acc t true tl =
      some (value, Ptr.num (acc.hashVal + el),
        if tl || c.transcribe_internal_insertions
        then Ptr.cons (Ptr.cons key value) t else t) := by
  show (lookupA c.queries key >>= fun value =>
    (c.synthesize_insert_query acc t key value tl >>= fun q =>
      pure (value, q.1, q.2))) = _
  rw [hkv, bind_someO, insert_query_eval c acc t key value tl el hel,
    bind_someO]
  rfl

theorem toplevel_query_eval [Field F] [DecidableEq F]
    (c : CircuitScopeV F) (k v A : Ptr F) (el : F)
    (hacc : c.acc = some A) (hkv : lookupA c.queries k = some v)
    (hel : invertF (c.r + (Ptr.cons k v).hashVal) = some el) :
    c.synthesize_toplevel_query (Ptr.cons k v) =
      some { c with
        acc := some (Ptr.num (A.hashVal + el))
        transcript := Ptr.cons (Ptr.cons k v) c.transcript } := by
  show (c.acc >>= fun acc =>
    (c.synthesize_query k acc c.transcript true >>= fun p =>
      if p.1 = v then
        pure ({ c with
          acc := some p.2.1
          transcript := p.2.2 } : CircuitScopeV F)
      else none)) =
    some ({ c with
      acc := some (Ptr.num (A.hashVal + el))
      transcript := Ptr.cons (Ptr.cons k v) c.transcript } :
      CircuitScopeV F)
  rw [hacc, bind_someO]
  rw [show c.synthesize_query k A c.transcript true =
    c.synthesize_query_aux k A c.transcript true true from rfl]
  rw [query_aux_eval c k A c.transcript v true el hkv hel, bind_someO]
  show (if v = v then _ else none) = _
  rw [if_pos rfl]
  rfl

theorem toplevel_phase [Field F] [DecidableEq F] (sc' : Scope F Q)
    (r : F) :
    ∀ (kvs : List (Ptr F)) (c : CircuitScopeV F), goodC sc' r c →
      ∀ A, c.acc = some A →
      (∀ kv ∈ kvs, ∃ k v, kv = Ptr.cons k v ∧
        lookupA sc'.queries k = some v ∧
        invertF (r + kv.hashVal) ≠ none) →
      ∃ A', CircuitScopeV.synthesize_insert_toplevel_queries c kvs =
        some { c with
          acc := some A'
          transcript := consEvents (kvs.map TEvent.ins) c.transcript } := by
  intro kvs
  induction kvs with
  | nil =>
    intro c hg A hacc h
    refine ⟨A, ?_⟩
    show some c = _
    rw [← hacc]
    rfl
  | cons kv kvs ih =>
    intro c hg A hacc h
    obtain ⟨k, v, rfl, hkv, hinv⟩ := h _ (List.mem_cons_self _ _)
    cases hel : invertF (r + (Ptr.cons k v).hashVal) with
    | none => exact absurd hel hinv
    | some el =>
      have hkv' : lookupA c.queries k = some v := by
        rw [hg.1]
        exact hkv
      have hel' : invertF (c.r + (Ptr.cons k v).hashVal) = some el := by
        rw [hg.2.2.2]
        exact hel
      have hstep := toplevel_query_eval c k v A el hacc hkv' hel'
      rw [show CircuitScopeV.synthesize_insert_toplevel_queries c
          (Ptr.cons k v :: kvs) =
          foldlMO (fun c kv =>
            CircuitScopeV.synthesize_toplevel_query c kv) c
            (Ptr.cons k v :: kvs) from rfl,
        foldlMO, hstep]
      have hg₁ : goodC sc' r { c with
          acc := some (Ptr.num (A.hashVal + el))
          transcript := Ptr.cons (Ptr.cons k v) c.transcript } := hg
      obtain ⟨A', hrest⟩ := ih _ hg₁ (Ptr.num (A.hashVal + el)) rfl
        (fun kv' hkv'' => h kv' (List.mem_cons_of_mem _ hkv''))
      refine ⟨A', ?_⟩
      show CircuitScopeV.synthesize_insert_toplevel_queries
        { c with
          acc := some (Ptr.num (A.hashVal + el))
          transcript := Ptr.cons (Ptr.cons k v) c.transcript } kvs = _
      rw [hrest]
      rfl

theorem forall₂_mem_left {α β : Type} {P : α → β → Prop} :
    ∀ {l : List α} {bs : List β}, List.Forall₂ P l bs →
      ∀ a ∈ l, ∃ b ∈ bs, P a b := by
  intro l bs hf
  induction hf with
  | nil => intro a ha; simp at ha
  | cons hP hf ih =>
    intro a ha
    rcases List.mem_cons.mp ha with rfl | ha'
    · exact ⟨_, List.mem_cons_self _ _, hP⟩
    · obtain ⟨b, hb, hPb⟩ := ih a ha'
      exact ⟨b, List.mem_cons_of_mem _ hb, hPb⟩

theorem keyBlock_eq_proved [Field F] [DecidableEq F] (I : QueryIface F Q)
    (sc' : Scope F Q) (L : List (Ptr F)) (st : BuildState F)
    (hst : foldlMO (insertKV I) ⟨[], []⟩ L = some st)
    (hcoh : ∀ kv ∈ L, ∃ k v, kv = Ptr.cons k v ∧
      lookupA sc'.queries k = some v)
    (k : Ptr F) (bl : List (TEvent F))
    (h : keyBlockEvents I sc' st k = some bl) :
    bl = provedKeyEvents I sc' k ∧
      ∃ v ds, lookupA sc'.queries k = some v ∧
        depEvents I sc' k = some ds ∧
        TEvent.rem (Ptr.cons k v) (sc'.memoset.count (Ptr.cons k v)) ∈ bl
        := by
  unfold keyBlockEvents at h
  cases hkvs : lookupA st.insertions k with
  | none => rw [hkvs, bind_noneO] at h; cases h
  | some kvs =>
    rw [hkvs, bind_someO] at h
    obtain ⟨v, hkv, rfl⟩ := bucket_singleton I sc' L st hst hcoh k kvs hkvs
    rw [mapMO_singleton] at h
    have h' : (((do
        let deps ← depEvents I sc' k
        pure (deps ++ [TEvent.rem (Ptr.cons k v)
          (sc'.memoset.count (Ptr.cons k v))])) :
        Option (List (TEvent F))).map
        (fun b => [b])).map List.flatten = some bl := h
    cases hd : depEvents I sc' k with
    | none =>
      rw [hd, bind_noneO] at h'
      cases h'
    | some ds =>
      rw [hd, bind_someO] at h'
      have h'' : some ((ds ++ [TEvent.rem (Ptr.cons k v)
          (sc'.memoset.count (Ptr.cons k v))]) ++ []) = some bl := h'
      have hbl : bl = (ds ++ [TEvent.rem (Ptr.cons k v)
          (sc'.memoset.count (Ptr.cons k v))]) ++ [] :=
        (Option.some.inj h'').symm
      subst hbl
      constructor
      · rw [List.append_nil]
        unfold provedKeyEvents
        rw [hkv, hd]
      · refine ⟨v, ds, hkv, rfl, ?_⟩
        rw [List.append_nil]
        exact List.mem_append.mpr (Or.inr (List.mem_singleton.mpr rfl))

theorem indexBlock_eq_proved [Field F] [DecidableEq F] (I : QueryIface F Q)
    (sc' : Scope F Q) (L : List (Ptr F)) (st : BuildState F)
    (hst : foldlMO (insertKV I) ⟨[], []⟩ L = some st)
    (hcoh : ∀ kv ∈ L, ∃ k v, kv = Ptr.cons k v ∧
      lookupA sc'.queries k = some v)
    (j : Nat) (bl : List (TEvent F))
    (hj : indexBlockEvents I sc' st j = some bl) :
    ∃ ks, lookupA st.unique_keys j = some ks ∧
      bl = (ks.map (provedKeyEvents I sc')).flatten ∧
      ∀ k ∈ ks, ∃ v ds, lookupA sc'.queries k = some v ∧
        depEvents I sc' k = some ds ∧
        TEvent.rem (Ptr.cons k v) (sc'.memoset.count (Ptr.cons k v)) ∈ bl
        := by
  unfold indexBlockEvents at hj
  cases hkeys : lookupA st.unique_keys j with
  | none => rw [hkeys, bind_noneO] at hj; cases hj
  | some ksj =>
    rw [hkeys, bind_someO] at hj
    cases hm : mapMO (fun key => do
        let kvs ← lookupA st.insertions key
        (mapMO (fun kv => do
          let deps ← depEvents I sc' key
          pure (deps ++ [TEvent.rem kv (sc'.memoset.count kv)])) kvs).map
          List.flatten) ksj with
    | none => rw [hm] at hj; cases hj
    | some bll =>
      rw [hm] at hj
      injection hj with h1
      subst h1
      have hf := mapMO_forall₂ hm
      have hf' : List.Forall₂ (fun k bk =>
          (id bk : List (TEvent F)) = provedKeyEvents I sc' k) ksj bll :=
        hf.imp (fun k bk hke =>
          (keyBlock_eq_proved I sc' L st hst hcoh k bk hke).1)
      have hmap : bll.map id = ksj.map (provedKeyEvents I sc') :=
        map_eq_of_forall₂ hf'
      rw [List.map_id] at hmap
      refine ⟨ksj, rfl, by rw [hmap], ?_⟩
      intro k hk
      obtain ⟨bk, hbk, hke⟩ := forall₂_mem_left hf k hk
      obtain ⟨-, v, ds, hkv, hds, hrem⟩ :=
        keyBlock_eq_proved I sc' L st hst hcoh k bk hke
      exact ⟨v, ds, hkv, hds,
        List.mem_flatten.mpr ⟨bk, hbk, hrem⟩⟩

/-- The tail of `Scope::synthesize` after the top-level insertions. -/
def synthTail [Field F] [DecidableEq F]
    (CI : CircuitIface F CQ) (sc' : Scope F Q)
    (enum : List (Nat × List (Ptr F))) (cs₂ : CircuitScopeV F) :
    Option (CircuitScopeV F) := do
  let p ← cs₂.io
  let zfin ← foldlMO (fun z q =>
      foldlMO (fun z chunk =>
          coroutineSynthesize CI sc'.queries sc'.memoset.multiset
            sc'.transcribe_internal_insertions chunk q.1 sc'.default_rc z)
        z (chunksOf sc'.default_rc q.2))
    [Ptr.nil, Ptr.nil, Ptr.nil, p.1, p.2.1, Ptr.num p.2.2] enum
  match zfin with
  | [_, _, _, acc', t', rp] => pure (cs₂.update_from_io acc' t' rp)
  | _ => none

/-- The tail of `Scope::synthesize` after the `r` wire is allocated. -/
def synthAfterR [Field F] [DecidableEq F]
    (CI : CircuitIface F CQ) (enum : List (Nat × List (Ptr F)))
    (sc' : Scope F Q) (rr : F) : Option (CircuitScopeV F) := do
  let cs₂ ← ((CircuitScopeV.from_queries sc'.queries sc'.memoset.multiset
      rr sc'.transcribe_internal_insertions).init
    ).synthesize_insert_toplevel_queries sc'.toplevel_insertions
  synthTail CI sc' enum cs₂

/-- The tail of `Scope::synthesize` after finalization is ensured. -/
def synthAfterEnsure [Field F] [DecidableEq F]
    (CI : CircuitIface F CQ) (enum : List (Nat × List (Ptr F)))
    (sc' : Scope F Q) : Option (CircuitScopeV F) :=
  sc'.memoset.r >>= synthAfterR CI enum sc'

theorem synthesizeV_eq_stages [Field F] [DecidableEq F]
    (I : QueryIface F Q) (CI : CircuitIface F CQ) (sc : Scope F Q)
    (enum : List (Nat × List (Ptr F))) :
    Scope.synthesizeV I CI sc enum =
      (Scope.ensure_transcript_finalized I sc >>=
        synthAfterEnsure CI enum) := rfl

theorem enum_map_blocks [Field F] [DecidableEq F] (I : QueryIface F Q)
    (sc' : Scope F Q) (L : List (Ptr F)) (st : BuildState F)
    (hst : foldlMO (insertKV I) ⟨[], []⟩ L = some st)
    (hcoh : ∀ kv ∈ L, ∃ k v, kv = Ptr.cons k v ∧
      lookupA sc'.queries k = some v) :
    ∀ (js : List Nat) (bls : List (List (TEvent F))),
      List.Forall₂ (fun j bl => indexBlockEvents I sc' st j = some bl)
        js bls →
      ((js.filterMap (fun i => (lookupA st.unique_keys i).map
        (fun ks => (i, ks)))).map (fun p =>
          ((p.2.map (provedKeyEvents I sc')).flatten))) = bls := by
  intro js bls hf
  induction hf with
  | nil => rfl
  | cons hP hf ih =>
    obtain ⟨ks, hks, hbl, -⟩ :=
      indexBlock_eq_proved I sc' L st hst hcoh _ _ hP
    rw [List.filterMap_cons]
    simp only [hks, Option.map_some']
    rw [List.map_cons, ih, ← hbl]

/-- C2 (amended): the circuit pass rebuilds the native transcript
bit-identically — and its `r` wire equals the native Fiat–Shamir
randomness, satisfying the final `r_matches_transcript` constraint —
provided the `HashMap` enumeration of `unique_inserted_keys` happens to be
in ascending family order (the native removal loop's order); the claim's
unconditional "for every scope" fails because that iteration order is
unspecified (see the counterexample).  The per-family circuit queries are
assumed to satisfy their `synthesize_eval` contract. -/
theorem circuit_native_agreement [Field F] [DecidableEq F]
    (I : QueryIface F Q) (CI : CircuitIface F CQ)
    (sc sc' : Scope F Q) (t : Transcript F) (r : F)
    (es : List (TEvent F)) (u : List (Nat × List (Ptr F)))
    (enum : List (Nat × List (Ptr F)))
    (hens : Scope.ensure_transcript_finalized I sc = some sc')
    (hr : sc'.memoset.r = some r)
    (hes : Scope.transcriptEvents I sc' = some (es, u))
    (htacc : t.acc = consEvents es Ptr.nil)
    (hrv : Transcript.r t = some r)
    (hcoh : ∀ kv ∈ sc'.toplevel_insertions, ∃ k v, kv = Ptr.cons k v ∧
      lookupA sc'.queries k = some v)
    (hev : evalContract I CI sc' r)
    (hdum : dummyContract CI sc' r)
    (hfrom : ∀ k v, lookupA sc'.queries k = some v →
      ∃ cq, CI.cFromPtr k = some cq)
    (hinv : ∀ kv, ((∃ c', TEvent.rem kv c' ∈ es) ∨ TEvent.ins kv ∈ es) →
      invertF (r + kv.hashVal) ≠ none)
    (hrc : 1 ≤ sc'.default_rc)
    (henum : enum = (List.range I.count).filterMap (fun i =>
      (lookupA u i).map (fun ks => (i, ks)))) :
    ∃ csF, Scope.synthesizeV I CI sc enum = some csF ∧
      csF.transcript = t.acc ∧ csF.r = r ∧
      csF.transcript.hashVal = csF.r := by
  have hes' := hes
  rw [transcriptEvents_eq] at hes'
  cases hik : internalKVs sc' with
  | none => rw [hik, bind_noneO] at hes'; cases hes'
  | some ikvs =>
    rw [hik, bind_someO] at hes'
    cases hst : foldlMO (insertKV I) ⟨[], []⟩
        (sc'.toplevel_insertions ++ ikvs) with
    | none => rw [hst, bind_noneO] at hes'; cases hes'
    | some st =>
      rw [hst, bind_someO] at hes'
      cases hbl : mapMO (indexBlockEvents I sc' st) (List.range I.count)
          with
      | none => rw [hbl, bind_noneO] at hes'; cases hes'
      | some blocks =>
        rw [hbl, bind_someO] at hes'
        have hpe := Option.some.inj hes'
        have hesv : sc'.toplevel_insertions.map TEvent.ins ++
            blocks.flatten = es := congrArg Prod.fst hpe
        have huv : st.unique_keys = u := congrArg Prod.snd hpe
        have hcohL : ∀ kv ∈ sc'.toplevel_insertions ++ ikvs,
            ∃ k v, kv = Ptr.cons k v ∧ lookupA sc'.queries k = some v := by
          intro kv hkv
          rcases List.mem_append.mp hkv with h1 | h2
          · exact hcoh kv h1
          · exact internalKVs_coh sc' ikvs hik kv h2
        have hg₁ : goodC sc' r ((CircuitScopeV.from_queries sc'.queries
            sc'.memoset.multiset r sc'.transcribe_internal_insertions
            ).init) := ⟨rfl, rfl, rfl, rfl⟩
        obtain ⟨A₀, htop⟩ := toplevel_phase sc' r sc'.toplevel_insertions
          _ hg₁ (Ptr.num 0) rfl
          (by
            intro kv hkv
            obtain ⟨k, v, rfl, hkv'⟩ := hcoh kv hkv
            refine ⟨k, v, rfl, hkv', ?_⟩
            apply hinv
            right
            rw [← hesv]
            exact List.mem_append.mpr (Or.inl
              (List.mem_map.mpr ⟨Ptr.cons k v, hkv, rfl⟩)))
        have hentf : ∀ p ∈ enum, ∀ k ∈ p.2, keyFacts I CI sc' r k := by
          intro p hp k hk
          rw [henum] at hp
          obtain ⟨i, hi, hpi⟩ := List.mem_filterMap.mp hp
          cases hku : lookupA u i with
          | none => rw [hku] at hpi; cases hpi
          | some ks =>
            rw [hku] at hpi
            have hpks : p = (i, ks) := (Option.some.inj hpi).symm
            subst hpks
            obtain ⟨bl, hblm, hib⟩ :=
              forall₂_mem_left (mapMO_forall₂ hbl) i hi
            obtain ⟨ks', hks', hbleq, hkeyprops⟩ :=
              indexBlock_eq_proved I sc' _ st hst hcohL i bl hib
            rw [huv, hku] at hks'
            have hks'' : ks' = ks := (Option.some.inj hks').symm
            subst hks''
            obtain ⟨v, ds, hkv, hds, hrem⟩ := hkeyprops k hk
            obtain ⟨cq, hcq⟩ := hfrom k v hkv
            refine ⟨v, cq, ds, hkv, hcq, hds, ?_⟩
            apply hinv
            left
            refine ⟨sc'.memoset.count (Ptr.cons k v), ?_⟩
            rw [← hesv]
            exact List.mem_append.mpr (Or.inr
              (List.mem_flatten.mpr ⟨bl, hblm, hrem⟩))
        obtain ⟨A', hrun⟩ := coroutine_enum I CI sc' r hev hdum
          sc'.default_rc hrc Ptr.nil Ptr.nil Ptr.nil enum hentf A₀
          (consEvents (sc'.toplevel_insertions.map TEvent.ins) Ptr.nil)
        have hfinT : ((enum.map (fun p =>
            ((p.2.map (provedKeyEvents I sc')).flatten))).flatten) =
            blocks.flatten := by
          rw [henum, ← huv]
          rw [enum_map_blocks I sc' _ st hst hcohL (List.range I.count)
            blocks (mapMO_forall₂ hbl)]
        have hrunV : Scope.synthesizeV I CI sc enum =
            some (({ (CircuitScopeV.from_queries sc'.queries
                sc'.memoset.multiset r
                sc'.transcribe_internal_insertions).init with
              acc := some A₀
              transcript := consEvents
                (sc'.toplevel_insertions.map TEvent.ins)
                ((CircuitScopeV.from_queries sc'.queries
                  sc'.memoset.multiset r
                  sc'.transcribe_internal_insertions).init).transcript
              } : CircuitScopeV F).update_from_io A'
              (consEvents ((enum.map (fun p =>
                ((p.2.map (provedKeyEvents I sc')).flatten))).flatten)
                (consEvents (sc'.toplevel_insertions.map TEvent.ins)
                  Ptr.nil))
              (Ptr.num r)) := by
          rw [synthesizeV_eq_stages, hens, bind_someO]
          rw [show synthAfterEnsure CI enum sc' =
            (sc'.memoset.r >>= synthAfterR CI enum sc') from rfl,
            hr, bind_someO]
          rw [show synthAfterR CI enum sc' r =
            (((CircuitScopeV.from_queries sc'.queries
              sc'.memoset.multiset r
              sc'.transcribe_internal_insertions).init
              ).synthesize_insert_toplevel_queries
                sc'.toplevel_insertions >>=
              synthTail CI sc' enum) from rfl,
            htop, bind_someO]
          rw [show synthTail CI sc' enum ({ (CircuitScopeV.from_queries
              sc'.queries sc'.memoset.multiset r
              sc'.transcribe_internal_insertions).init with
              acc := some A₀
              transcript := consEvents
                (sc'.toplevel_insertions.map TEvent.ins)
                ((CircuitScopeV.from_queries sc'.queries
                  sc'.memoset.multiset r
                  sc'.transcribe_internal_insertions).init).transcript
              } : CircuitScopeV F) =
            (foldlMO (fun z q =>
                foldlMO (fun z chunk =>
                    coroutineSynthesize CI sc'.queries
                      sc'.memoset.multiset
                      sc'.transcribe_internal_insertions chunk q.1
                      sc'.default_rc z)
                  z (chunksOf sc'.default_rc q.2))
              [Ptr.nil, Ptr.nil, Ptr.nil, A₀,
                consEvents (sc'.toplevel_insertions.map TEvent.ins)
                  Ptr.nil, Ptr.num r] enum >>= fun zfin =>
              (match zfin with
              | [_, _, _, acc', t', rp] =>
                pure (({ (CircuitScopeV.from_queries sc'.queries
                    sc'.memoset.multiset r
                    sc'.transcribe_internal_insertions).init with
                  acc := some A₀
                  transcript := consEvents
                    (sc'.toplevel_insertions.map TEvent.ins)
                    ((CircuitScopeV.from_queries sc'.queries
                      sc'.memoset.multiset r
                      sc'.transcribe_internal_insertions).init
                      ).transcript
                  } : CircuitScopeV F).update_from_io acc' t' rp)
              | _ => none)) from rfl]
          rw [hrun, bind_someO]
          rfl
        refine ⟨_, hrunV, ?_, rfl, ?_⟩
        · show consEvents ((enum.map (fun p =>
            ((p.2.map (provedKeyEvents I sc')).flatten))).flatten)
            (consEvents (sc'.toplevel_insertions.map TEvent.ins)
              Ptr.nil) = t.acc
          rw [hfinT, ← consEvents_append, hesv, htacc]
        · show (consEvents ((enum.map (fun p =>
            ((p.2.map (provedKeyEvents I sc')).flatten))).flatten)
            (consEvents (sc'.toplevel_insertions.map TEvent.ins)
              Ptr.nil)).hashVal = (Ptr.num r).hashVal
          rw [hfinT, ← consEvents_append, hesv, ← htacc]
          unfold Transcript.r at hrv
          cases hta : t.acc with
          | cons a b =>
            rw [hta] at hrv
            have h5 : some (Ptr.cons a b).hashVal = some r := hrv
            exact Option.some.inj h5
          | nil => rw [hta] at hrv; cases hrv
          | sym s => rw [hta] at hrv; cases hrv
          | num x => rw [hta] at hrv; cases hrv

/-- `DemoCircuitQuery` at the value level: the allocated argument wire. -/
inductive DemoCQ (F : Type) where
  | factorial (n : Ptr F) : DemoCQ F

/-- `DemoCircuitQuery::synthesize_eval` for `Factorial(n)` at the value
level (the `recurse` helper follows the spec: `query.rs` is not among the
sources): compare `n` with zero, allocate `n - 1`, run the subquery
`(factorial . (n-1))` as an internal query under the `n ≠ 0` predicate,
multiply in `post_recursion`, and multiplex against the base case. -/
def demoCSynthEval [Field F] [DecidableEq F] :
    DemoCQ F → CircuitScopeV F → Ptr F → Ptr F →
    Option (Ptr F × Ptr F × Ptr F)
  | .factorial n, c, acc, t => do
    let nz : Bool := decide (n.hashVal = 0)
    let new_num := Ptr.num (n.hashVal - 1)
    let subKey := Ptr.cons (Ptr.sym factorialSymbol) new_num
    let (sub_val, acc', t') ← c.synthesize_internal_query subKey acc t !nz
    let res := Ptr.num (n.hashVal * sub_val.hashVal)
    pure (if nz then Ptr.num 1 else res,
      if nz then acc else acc',
      if nz then t else t')

/-- The circuit interface of the demo factorial family. -/
def demoCI (F : Type) [Field F] [DecidableEq F] :
    CircuitIface F (DemoCQ F) :=
  { cFromPtr := fun p => (DemoQuery.fromPtr p).map
      (fun q => match q with | .factorial n => DemoCQ.factorial n)
    cDummy := fun _ => DemoCQ.factorial (Ptr.num 0)
    cSynthEval := demoCSynthEval }

/-- The circuit-side two-family toy queries. -/
inductive PairCQ (F : Type) where
  | fq (n : Ptr F) : PairCQ F
  | gq (n : Ptr F) : PairCQ F

/-- The circuit interface of the two-family toy type: both families are
non-recursive, returning their constant values. -/
def pairCI (F : Type) [Field F] [DecidableEq F] :
    CircuitIface F (PairCQ F) :=
  { cFromPtr := fun p => (PairQuery.fromPtr p).map
      (fun q => match q with
        | .fq n => PairCQ.fq n
        | .gq n => PairCQ.gq n)
    cDummy := fun i => if i = 0 then PairCQ.fq (Ptr.num 0)
      else PairCQ.gq (Ptr.num 0)
    cSynthEval := fun cq _ acc t => match cq with
      | .fq _ => some (Ptr.num 1, acc, t)
      | .gq _ => some (Ptr.num 2, acc, t) }

theorem lookupA_cons_elim [DecidableEq α] (a : α) (b : β)
    (l : List (α × β)) (k : α) (v : β)
    (h : lookupA ((a, b) :: l) k = some v) :
    (k = a ∧ v = b) ∨ lookupA l k = some v := by
  rw [lookupA] at h
  by_cases hk : a = k
  · rw [if_pos hk] at h
    exact Or.inl ⟨hk.symm, (Option.some.inj h).symm⟩
  · rw [if_neg hk] at h
    exact Or.inr h

theorem query_aux_dummy_eval [Field F] [DecidableEq F]
    (c : CircuitScopeV F) (key acc t : Ptr F) (tl : Bool) (el : F)
    (hel : invertF (c.r + (Ptr.cons key Ptr.nil).hashVal) = some el) :
    c.synthesize_query_aux key acc t false tl =
      some (Ptr.nil, Ptr.num (acc.hashVal + el),
        if tl || c.transcribe_internal_insertions
        then Ptr.cons (Ptr.cons key Ptr.nil) t else t) := by
  show ((some Ptr.nil : Option (Ptr F)) >>= fun value =>
    (c.synthesize_insert_query acc t key value tl >>= fun q =>
      pure (value, q.1, q.2))) = _
  rw [bind_someO, insert_query_eval c acc t key Ptr.nil tl el hel,
    bind_someO]
  rfl

theorem demoCSynthEval_rec [Field F] [DecidableEq F]
    (c : CircuitScopeV F) (n : F) (hn : ¬(n = 0)) (sub : Ptr F) (el : F)
    (hq : lookupA c.queries (Ptr.cons (Ptr.sym factorialSymbol)
      (Ptr.num (n - 1))) = some sub)
    (hel : invertF (c.r + (Ptr.cons (Ptr.cons (Ptr.sym factorialSymbol)
      (Ptr.num (n - 1))) sub).hashVal) = some el)
    (acc t₀ : Ptr F) :
    demoCSynthEval (DemoCQ.factorial (Ptr.num n)) c acc t₀ =
      some (Ptr.num (n * sub.hashVal), Ptr.num (acc.hashVal + el),
        if c.transcribe_internal_insertions
        then Ptr.cons (Ptr.cons (Ptr.cons (Ptr.sym factorialSymbol)
          (Ptr.num (n - 1))) sub) t₀ else t₀) := by
  have hnz : decide ((Ptr.num n).hashVal = 0) = false := by
    simp [Ptr.hashVal, hn]
  show ((c.synthesize_internal_query
      (Ptr.cons (Ptr.sym factorialSymbol)
        (Ptr.num ((Ptr.num n).hashVal - 1))) acc t₀
      !decide ((Ptr.num n).hashVal = 0)) >>= fun p =>
    pure (if decide ((Ptr.num n).hashVal = 0) then Ptr.num 1
        else Ptr.num ((Ptr.num n).hashVal * p.1.hashVal),
      if decide ((Ptr.num n).hashVal = 0) then acc else p.2.1,
      if decide ((Ptr.num n).hashVal = 0) then t₀ else p.2.2)) = _
  rw [hnz]
  show ((c.synthesize_query_aux
      (Ptr.cons (Ptr.sym factorialSymbol) (Ptr.num (n - 1))) acc t₀
      true false) >>= fun p =>
    pure (if (false : Bool) then Ptr.num 1
        else Ptr.num (n * p.1.hashVal),
      if (false : Bool) then acc else p.2.1,
      if (false : Bool) then t₀ else p.2.2)) = _
  rw [query_aux_eval c _ acc t₀ sub false el hq hel, bind_someO]
  rfl

theorem demoCSynthEval_base [Field F] [DecidableEq F]
    (c : CircuitScopeV F) (el : F)
    (hel : invertF (c.r + (Ptr.cons (Ptr.cons (Ptr.sym factorialSymbol)
      (Ptr.num (0 - 1))) Ptr.nil).hashVal) = some el)
    (acc t₀ : Ptr F) :
    demoCSynthEval (DemoCQ.factorial (Ptr.num 0)) c acc t₀ =
      some (Ptr.num 1, acc, t₀) := by
  have hnz : decide ((Ptr.num (0 : F)).hashVal = 0) = true := by
    simp [Ptr.hashVal]
  show ((c.synthesize_internal_query
      (Ptr.cons (Ptr.sym factorialSymbol)
        (Ptr.num ((Ptr.num (0 : F)).hashVal - 1))) acc t₀
      !decide ((Ptr.num (0 : F)).hashVal = 0)) >>= fun p =>
    pure (if decide ((Ptr.num (0 : F)).hashVal = 0) then Ptr.num 1
        else Ptr.num ((Ptr.num (0 : F)).hashVal * p.1.hashVal),
      if decide ((Ptr.num (0 : F)).hashVal = 0) then acc else p.2.1,
      if decide ((Ptr.num (0 : F)).hashVal = 0) then t₀ else p.2.2)) = _
  rw [hnz]
  show ((c.synthesize_query_aux
      (Ptr.cons (Ptr.sym factorialSymbol) (Ptr.num ((0 : F) - 1))) acc t₀
      false false) >>= fun p =>
    pure ((Ptr.num 1 : Ptr F), acc, t₀)) = _
  rw [query_aux_dummy_eval c _ acc t₀ false el hel, bind_someO]
  rfl

theorem synthesize_remove_isSome [Field F] [DecidableEq F]
    (c : CircuitScopeV F) (acc t key value : Ptr F) (el : F)
    (hel : invertF (c.r + (Ptr.cons key value).hashVal) = some el) :
    (c.synthesize_remove acc t key value).isSome = true := by
  show (((invertF (c.r + (Ptr.cons key value).hashVal)).map
      (fun e => acc.hashVal -
        e * ((c.multiset.get (Ptr.cons key value) : Nat) : F)) >>=
    fun nv => pure (Ptr.num nv,
      Ptr.cons (Ptr.cons (Ptr.cons key value)
        (Ptr.num ((c.multiset.get (Ptr.cons key value) : Nat) : F))) t)) :
    Option (Ptr F × Ptr F)).isSome = true
  rw [hel]
  rfl

/-- The record a transcript event references. -/
def evKV [Field F] : TEvent F → Ptr F
  | .ins kv => kv
  | .rem kv _ => kv

/-- The native Fiat–Shamir randomness of the finalized demo scope. -/
def rW : Fw := (demoScope4F.memoset.r).getD 0

/-- The finalized demo transcript. -/
def demoT4F : Transcript Fw :=
  (demoScope4F.memoset.transcript).getD ⟨Ptr.nil⟩

/-- The emission sequence and unique-key table of the finalized demo
scope. -/
def demoESU : List (TEvent Fw) × List (Nat × List (Ptr Fw)) :=
  (Scope.transcriptEvents (demoIface Fw) demoScope4F).getD ([], [])

/-- The ascending-family enumeration of the demo unique keys. -/
def demoEnum : List (Nat × List (Ptr Fw)) :=
  (List.range (demoIface Fw).count).filterMap (fun i =>
    (lookupA demoESU.2 i).map (fun ks => (i, ks)))

/-- `(factorial . n)`. -/
def factKey (n : Fw) : Ptr Fw :=
  Ptr.cons (Ptr.sym factorialSymbol) (Ptr.num n)

/-- `((factorial . n) . v)`. -/
def factKV (n v : Fw) : Ptr Fw := Ptr.cons (factKey n) (Ptr.num v)

/-- Witness for the amended C2: the circuit pass over the finalized demo
factorial scope, enumerated in ascending family order, rebuilds the native
transcript bit-identically and carries the native `r`. -/
theorem circuit_native_agreement_witness :
    ∃ csF, Scope.synthesizeV (demoIface Fw) (demoCI Fw) demoScope4
        demoEnum = some csF ∧
      csF.transcript = demoT4F.acc ∧ csF.r = rW ∧
      csF.transcript.hashVal = csF.r :=
  circuit_native_agreement (demoIface Fw) (demoCI Fw) demoScope4
    demoScope4F demoT4F rW demoESU.1 demoESU.2 demoEnum
    rfl rfl rfl rfl rfl
    (by
      intro kv hkv
      have hl : demoScope4F.toplevel_insertions = [factKV 4 24] := rfl
      rw [hl] at hkv
      rcases List.mem_singleton.mp hkv with rfl
      exact ⟨factKey 4, Ptr.num 24, rfl, rfl⟩)
    (by
      intro c hg k v cq hkv hcq ds hds acc t₀
      have hql : demoScope4F.queries = [(factKey 0, Ptr.num 1),
        (factKey 1, Ptr.num 1), (factKey 2, Ptr.num 2),
        (factKey 3, Ptr.num 6), (factKey 4, Ptr.num 24)] := rfl
      rw [hql] at hkv
      rcases lookupA_cons_elim _ _ _ _ _ hkv with ⟨rfl, rfl⟩ | hkv
      · rw [show (demoCI Fw).cFromPtr (factKey 0) =
          some (DemoCQ.factorial (Ptr.num 0)) from rfl] at hcq
        rcases Option.some.inj hcq
        rw [show depEvents (demoIface Fw) demoScope4F (factKey 0) =
          some [] from rfl] at hds
        rcases Option.some.inj hds
        refine ⟨acc, ?_⟩
        exact demoCSynthEval_base c _ (by rw [hg.2.2.2]; rfl) acc t₀
      rcases lookupA_cons_elim _ _ _ _ _ hkv with ⟨rfl, rfl⟩ | hkv
      · rw [show (demoCI Fw).cFromPtr (factKey 1) =
          some (DemoCQ.factorial (Ptr.num 1)) from rfl] at hcq
        rcases Option.some.inj hcq
        rw [show depEvents (demoIface Fw) demoScope4F (factKey 1) =
          some [TEvent.ins (factKV 0 1)] from rfl] at hds
        rcases Option.some.inj hds
        cases hel : invertF (c.r + (Ptr.cons (Ptr.cons
            (Ptr.sym factorialSymbol) (Ptr.num ((1 : Fw) - 1)))
            (Ptr.num 1)).hashVal) with
        | none =>
          rw [hg.2.2.2] at hel
          exact absurd hel (by decide)
        | some el =>
          refine ⟨Ptr.num (acc.hashVal + el), ?_⟩
          rw [show (demoCI Fw).cSynthEval = demoCSynthEval from rfl,
            demoCSynthEval_rec c 1 (by decide) (Ptr.num 1) el
            (by rw [hg.1]; rfl) hel acc t₀, hg.2.1]
          rfl
      rcases lookupA_cons_elim _ _ _ _ _ hkv with ⟨rfl, rfl⟩ | hkv
      · rw [show (demoCI Fw).cFromPtr (factKey 2) =
          some (DemoCQ.factorial (Ptr.num 2)) from rfl] at hcq
        rcases Option.some.inj hcq
        rw [show depEvents (demoIface Fw) demoScope4F (factKey 2) =
          some [TEvent.ins (factKV 1 1)] from rfl] at hds
        rcases Option.some.inj hds
        cases hel : invertF (c.r + (Ptr.cons (Ptr.cons
            (Ptr.sym factorialSymbol) (Ptr.num ((2 : Fw) - 1)))
            (Ptr.num 1)).hashVal) with
        | none =>
          rw [hg.2.2.2] at hel
          exact absurd hel (by decide)
        | some el =>
          refine ⟨Ptr.num (acc.hashVal + el), ?_⟩
          rw [show (demoCI Fw).cSynthEval = demoCSynthEval from rfl,
            demoCSynthEval_rec c 2 (by decide) (Ptr.num 1) el
            (by rw [hg.1]; rfl) hel acc t₀, hg.2.1]
          rfl
      rcases lookupA_cons_elim _ _ _ _ _ hkv with ⟨rfl, rfl⟩ | hkv
      · rw [show (demoCI Fw).cFromPtr (factKey 3) =
          some (DemoCQ.factorial (Ptr.num 3)) from rfl] at hcq
        rcases Option.some.inj hcq
        rw [show depEvents (demoIface Fw) demoScope4F (factKey 3) =
          some [TEvent.ins (factKV 2 2)] from rfl] at hds
        rcases Option.some.inj hds
        cases hel : invertF (c.r + (Ptr.cons (Ptr.cons
            (Ptr.sym factorialSymbol) (Ptr.num ((3 : Fw) - 1)))
            (Ptr.num 2)).hashVal) with
        | none =>
          rw [hg.2.2.2] at hel
          exact absurd hel (by decide)
        | some el =>
          refine ⟨Ptr.num (acc.hashVal + el), ?_⟩
          rw [show (demoCI Fw).cSynthEval = demoCSynthEval from rfl,
            demoCSynthEval_rec c 3 (by decide) (Ptr.num 2) el
            (by rw [hg.1]; rfl) hel acc t₀, hg.2.1]
          rfl
      rcases lookupA_cons_elim _ _ _ _ _ hkv with ⟨rfl, rfl⟩ | hkv
      · rw [show (demoCI Fw).cFromPtr (factKey 4) =
          some (DemoCQ.factorial (Ptr.num 4)) from rfl] at hcq
        rcases Option.some.inj hcq
        rw [show depEvents (demoIface Fw) demoScope4F (factKey 4) =
          some [TEvent.ins (factKV 3 6)] from rfl] at hds
        rcases Option.some.inj hds
        cases hel : invertF (c.r + (Ptr.cons (Ptr.cons
            (Ptr.sym factorialSymbol) (Ptr.num ((4 : Fw) - 1)))
            (Ptr.num 6)).hashVal) with
        | none =>
          rw [hg.2.2.2] at hel
          exact absurd hel (by decide)
        | some el =>
          refine ⟨Ptr.num (acc.hashVal + el), ?_⟩
          rw [show (demoCI Fw).cSynthEval = demoCSynthEval from rfl,
            demoCSynthEval_rec c 4 (by decide) (Ptr.num 6) el
            (by rw [hg.1]; rfl) hel acc t₀, hg.2.1]
          rfl
      cases hkv)
    (by
      intro c hg i acc t₀
      refine ⟨Ptr.num 1, acc, t₀, ?_, ?_⟩
      · exact demoCSynthEval_base c _ (by rw [hg.2.2.2]; rfl) acc t₀
      · cases hel : invertF (c.r + (Ptr.cons Ptr.nil
            (Ptr.num 1)).hashVal) with
        | none =>
          rw [hg.2.2.2] at hel
          exact absurd hel (by decide)
        | some el =>
          exact synthesize_remove_isSome c acc t₀ Ptr.nil (Ptr.num 1)
            el hel)
    (by
      intro k v hkv
      have hql : demoScope4F.queries = [(factKey 0, Ptr.num 1),
        (factKey 1, Ptr.num 1), (factKey 2, Ptr.num 2),
        (factKey 3, Ptr.num 6), (factKey 4, Ptr.num 24)] := rfl
      rw [hql] at hkv
      rcases lookupA_cons_elim _ _ _ _ _ hkv with ⟨rfl, -⟩ | hkv
      · exact ⟨DemoCQ.factorial (Ptr.num 0), rfl⟩
      rcases lookupA_cons_elim _ _ _ _ _ hkv with ⟨rfl, -⟩ | hkv
      · exact ⟨DemoCQ.factorial (Ptr.num 1), rfl⟩
      rcases lookupA_cons_elim _ _ _ _ _ hkv with ⟨rfl, -⟩ | hkv
      · exact ⟨DemoCQ.factorial (Ptr.num 2), rfl⟩
      rcases lookupA_cons_elim _ _ _ _ _ hkv with ⟨rfl, -⟩ | hkv
      · exact ⟨DemoCQ.factorial (Ptr.num 3), rfl⟩
      rcases lookupA_cons_elim _ _ _ _ _ hkv with ⟨rfl, -⟩ | hkv
      · exact ⟨DemoCQ.factorial (Ptr.num 4), rfl⟩
      cases hkv)
    (by
      intro kv h
      have hkmem : kv ∈ demoESU.1.map evKV := by
        rcases h with ⟨c', hrem⟩ | hins
        · exact List.mem_map.mpr ⟨TEvent.rem kv c', hrem, rfl⟩
        · exact List.mem_map.mpr ⟨TEvent.ins kv, hins, rfl⟩
      have hlist : demoESU.1.map evKV = [factKV 4 24, factKV 3 6,
        factKV 4 24, factKV 2 2, factKV 3 6, factKV 1 1, factKV 2 2,
        factKV 0 1, factKV 1 1, factKV 0 1] := rfl
      rw [hlist] at hkmem
      simp only [List.mem_cons, List.not_mem_nil, or_false] at hkmem
      rcases hkmem with rfl | rfl | rfl | rfl | rfl | rfl | rfl | rfl |
        rfl | rfl
      · decide
      · decide
      · decide
      · decide
      · decide
      · decide
      · decide
      · decide
      · decide
      · decide)
    (by decide)
    rfl

/-- The two-family scope after querying `(f . 0)` and `(g . 0)`. -/
def pairScope2 : Scope Fw (PairQuery Fw) :=
  ((Scope.query (pairIface Fw) 5 pairScope1
    (Ptr.cons (Ptr.sym ["g"]) (Ptr.num 0))).map Prod.snd).getD pairScope1

/-- `pairScope2` finalized. -/
def pairScope2F : Scope Fw (PairQuery Fw) :=
  ((Scope.finalize_transcript (pairIface Fw) pairScope2).map
    Prod.snd).getD pairScope2

/-- The native transcript of the two-family scope. -/
def pairT : Transcript Fw :=
  (pairScope2F.memoset.transcript).getD ⟨Ptr.nil⟩

/-- The descending-family enumeration of `pairScope2F`'s unique keys. -/
def pairEnumRev : List (Nat × List (Ptr Fw)) :=
  [(1, [Ptr.cons (Ptr.sym ["g"]) (Ptr.num 0)]),
   (0, [Ptr.cons (Ptr.sym ["f"]) (Ptr.num 0)])]

/-- The circuit scope produced under the descending enumeration. -/
def pairBadCS : CircuitScopeV Fw :=
  (Scope.synthesizeV (pairIface Fw) (pairCI Fw) pairScope2
    pairEnumRev).getD (CircuitScopeV.from_queries [] [] 0 false)

/-- C2 counterexample: on a two-family scope, enumerating
`unique_inserted_keys` (a `HashMap`, iteration order unspecified) in
descending family order makes the circuit pass succeed with a transcript
that differs from the native transcript bit-for-bit and whose hash
violates the `r_matches_transcript` constraint, so the unconditional
"for every scope" claim fails. -/
theorem circuit_native_agreement_cex :
    pairEnumRev.Perm pairScope2F.unique_inserted_keys ∧
    pairScope2F.memoset.transcript = some pairT ∧
    Scope.synthesizeV (pairIface Fw) (pairCI Fw) pairScope2 pairEnumRev =
      some pairBadCS ∧
    pairBadCS.transcript ≠ pairT.acc ∧
    pairBadCS.transcript.hashVal ≠ pairBadCS.r := by
  refine ⟨by decide, rfl, rfl, ?_, ?_⟩
  · decide
  · decide
